import Mathlib

/-!
# ByteBPE: a shallow embedding of `src/byte_bpe.cpp`

The development follows the C++ source function by function.

Modelling conventions
* `char` is the 8-bit signed character type of the usual x86-64 ABI: a stored
  byte is a `Fin 256`, and `char_to_int` is the integral promotion `char -> int`.
* `int` values (symbol ids, counts, parsed fields) are mathematical integers;
  the places where the source depends on the width of `int` (`INT_MAX` as the
  "nothing found" marker of `encode_token`, the overflow rule of `operator>>`)
  are written out explicitly.
* `std::unordered_map` is an association list without repeated keys, iterated
  in insertion order (the C++ iteration order is unspecified but fixed during
  a run).
* A member function that mutates the object is a function from the object's
  state to the state it leaves behind together with `Except Error Unit`:
  a C++ exception leaves the object as it was when the exception was thrown.
  Undefined behaviour (indexing outside a vector, `back()` of an empty
  string, `top()` of an empty heap) is the error `undefined_behaviour`.
* `assert` is checked (a debug build); a failed assertion is `assertion_failed`.
* Loops whose termination is not structural carry a fuel argument; running out
  of fuel is reported as `fuel_exhausted`, and the theorems show that the fuel
  supplied by the top-level functions is always enough.
-/

namespace bytebpe

/-! ## Data model (`byte_bpe.h`) -/

/-- One C++ `char`, as the byte it stores. -/
abbrev CChar := Fin 256

/-- A `std::string`. -/
abbrev CString := List CChar

/-- Integral promotion `char -> int` for a signed 8-bit `char`. -/
def char_to_int (c : CChar) : Int :=
  if c.val < 128 then (c.val : Int) else (c.val : Int) - 256

/-- The character `' '` (0x20). -/
def SPACE : CChar := 32

/-- The character `'\n'` (0x0A). -/
def NEWLINE : CChar := 10

/-- The constant `std::numeric_limits<int>::max()` for a 32-bit `int`. -/
def INT_MAX : Int := 2147483647

/-- The constant `std::numeric_limits<int>::min()` for a 32-bit `int`. -/
def INT_MIN : Int := -2147483648

/-- Ways in which a call can fail. The first four are the
`std::invalid_argument` exceptions of the source, told apart by message. -/
inductive Error where
  | unable_to_open
  | overwrite_refused
  | malformatted
  | increment_by_zero
  | out_of_range
  | bad_numeric_cast
  | bad_variant_access
  | assertion_failed
  | undefined_behaviour
  | fuel_exhausted
  deriving DecidableEq, Repr

deriving instance DecidableEq for Except

/-- The enumeration `enum class SymbolType`. -/
inductive SymbolType where
  | INTERNAL
  | FINAL
  | BYTE_PAIR
  deriving DecidableEq, Repr

/-- The integer value of an enumerator (`static_cast<int>(symbol_type)`). -/
def SymbolType.to_int : SymbolType → Int
  | .INTERNAL => 0
  | .FINAL => 1
  | .BYTE_PAIR => 2

/-- The type `using BytePair = pair<int, int>`. -/
abbrev BytePair := Int × Int

/-- The type `using SymbolValue = std::variant<BytePair, int>`. -/
inductive SymbolValue where
  | pair (bp : BytePair)
  | int (v : Int)
  deriving DecidableEq, Repr

/-- An entry of `symbol_mapping`: `pair<SymbolValue, SymbolType>`. -/
abbrev Symbol := SymbolValue × SymbolType

/-! ## `std::unordered_map` as an association list -/

/-- The lookup `m.find(k)`: the mapped value, or `none` for `m.end()`. -/
def umap_find {K V : Type} [DecidableEq K] : List (K × V) → K → Option V
  | [], _ => none
  | (a, v) :: rest, k => if a = k then some v else umap_find rest k

/-- The assignment `m[k] = v`: overwrite the entry of `k`, or insert one. -/
def umap_set {K V : Type} [DecidableEq K] : List (K × V) → K → V → List (K × V)
  | [], k, v => [(k, v)]
  | (a, w) :: rest, k, v =>
    if a = k then (a, v) :: rest else (a, w) :: umap_set rest k v

/-- The removal `m.erase(k)`. -/
def umap_erase {K V : Type} [DecidableEq K] : List (K × V) → K → List (K × V)
  | [], _ => []
  | (a, w) :: rest, k =>
    if a = k then umap_erase rest k else (a, w) :: umap_erase rest k

/-- Indexing `v[i]` of a `std::vector` with an `int` index: `none` stands for
an access outside the vector. -/
def vec_index {α : Type} (v : List α) (i : Int) : Option α :=
  if 0 ≤ i then v[i.toNat]? else none

/-- The state of a `ByteBPE` object: its three public members. -/
structure ByteBPE where
  symbol_mapping : List Symbol
  bp_to_symbol : List (Symbol × Int)
  symbol_to_string : List CString
  deriving DecidableEq, Repr

/-- A default-constructed object (`ByteBPE() = default`). -/
def ByteBPE.empty : ByteBPE := ⟨[], [], []⟩

/-- The method `ByteBPE::clear`. -/
def ByteBPE.clear (_m : ByteBPE) : ByteBPE := ⟨[], [], []⟩

/-! ## `create_reverse_symbol_mapping`, `generate_symbol_strings` -/

/-- The loop of `create_reverse_symbol_mapping`, from `symbol_id` onwards. -/
def create_reverse_symbol_mapping_loop :
    List Symbol → Int → List (Symbol × Int) → List (Symbol × Int)
  | [], _, bp_to_symbol => bp_to_symbol
  | sym :: rest, symbol_id, bp_to_symbol =>
    create_reverse_symbol_mapping_loop rest (symbol_id + 1) (umap_set bp_to_symbol sym symbol_id)

/-- The method `ByteBPE::create_reverse_symbol_mapping`. -/
def ByteBPE.create_reverse_symbol_mapping (m : ByteBPE) : ByteBPE :=
  { m with bp_to_symbol := create_reverse_symbol_mapping_loop m.symbol_mapping 0 m.bp_to_symbol }

/-- The conversion `boost::numeric_cast<char>(int)`: throws outside `[-128, 127]`. -/
def numeric_cast_char (v : Int) : Except Error CChar :=
  if v < -128 ∨ 127 < v then .error .bad_numeric_cast
  else .ok (Fin.ofNat (v % 256).toNat)

/-- The loop of `generate_symbol_strings` over the remaining symbols; the
second component is `symbol_to_string` as the loop leaves it. -/
def generate_symbol_strings_loop :
    List Symbol → List CString → Except Error Unit × List CString
  | [], strs => (.ok (), strs)
  | (value, type) :: rest, strs =>
    match type with
    | .INTERNAL =>
      match value with
      | .int v =>
        match numeric_cast_char v with
        | .ok c => generate_symbol_strings_loop rest (strs ++ [[c]])
        | .error e => (.error e, strs)
      | .pair _ => (.error .bad_variant_access, strs)
    | .FINAL =>
      match value with
      | .int v =>
        match numeric_cast_char v with
        | .ok c => generate_symbol_strings_loop rest (strs ++ [[c] ++ [SPACE]])
        | .error e => (.error e, strs)
      | .pair _ => (.error .bad_variant_access, strs)
    | .BYTE_PAIR =>
      match value with
      | .pair (s1, s2) =>
        match vec_index strs s1, vec_index strs s2 with
        | some str1, some str2 => generate_symbol_strings_loop rest (strs ++ [str1 ++ str2])
        | _, _ => (.error .undefined_behaviour, strs)
      | .int _ => (.error .bad_variant_access, strs)

/-- The method `ByteBPE::generate_symbol_strings`. -/
def ByteBPE.generate_symbol_strings (m : ByteBPE) : Except Error Unit × ByteBPE :=
  if m.symbol_to_string ≠ [] then (.error .assertion_failed, m)
  else
    ((generate_symbol_strings_loop m.symbol_mapping m.symbol_to_string).1,
     { m with symbol_to_string :=
        (generate_symbol_strings_loop m.symbol_mapping m.symbol_to_string).2 })

/-! ## `substitute_byte_pair`, `encode_token`, `encode_line`, `decode` -/

/-- The function `ByteBPE::substitute_byte_pair`: the list argument is the part
of `token_vector` from the loop index `i` onwards. -/
def substitute_byte_pair : List Int → BytePair → Int → List Int
  | [], _, _ => []
  | [a], _, _ => [a]
  | a :: b :: rest, bp, symbol =>
    if (a, b) = bp then symbol :: substitute_byte_pair rest bp symbol
    else a :: substitute_byte_pair (b :: rest) bp symbol

/-- The lookup `bp_to_symbol.at(key)`. -/
def umap_at {K V : Type} [DecidableEq K] (m : List (K × V)) (k : K) : Except Error V :=
  match umap_find m k with
  | some v => .ok v
  | none => .error .out_of_range

/-- The first part of `encode_token`: the base symbols of a token's bytes
(`INTERNAL` for every byte but the last, `FINAL` for `token.back()`). -/
def base_symbols (bp_to_symbol : List (Symbol × Int)) : CString → Except Error (List Int)
  | [] => .error .undefined_behaviour
  | [c] =>
    match umap_at bp_to_symbol (.int (char_to_int c), .FINAL) with
    | .ok s => .ok [s]
    | .error e => .error e
  | c :: c2 :: rest =>
    match umap_at bp_to_symbol (.int (char_to_int c), .INTERNAL) with
    | .ok s =>
      match base_symbols bp_to_symbol (c2 :: rest) with
      | .ok ss => .ok (s :: ss)
      | .error e => .error e
    | .error e => .error e

/-- The inner `for` loop of `encode_token`: the scan for the adjacent pair with
the least symbol, carrying `(min_bp, min_bp_symbol)`. -/
def min_bp_scan (bp_to_symbol : List (Symbol × Int)) :
    List Int → BytePair × Int → BytePair × Int
  | a :: b :: rest, (min_bp, min_bp_symbol) =>
    match umap_find bp_to_symbol (.pair (a, b), .BYTE_PAIR) with
    | some s =>
      if s < min_bp_symbol then min_bp_scan bp_to_symbol (b :: rest) ((a, b), s)
      else min_bp_scan bp_to_symbol (b :: rest) (min_bp, min_bp_symbol)
    | none => min_bp_scan bp_to_symbol (b :: rest) (min_bp, min_bp_symbol)
  | _, acc => acc

/-- The `while (token_symbols.size() > 1)` loop of `encode_token`; `none`
when the fuel runs out before the loop exits. -/
def encode_merge_loop (bp_to_symbol : List (Symbol × Int)) : Nat → List Int → Option (List Int)
  | 0, token_symbols => if 1 < token_symbols.length then none else some token_symbols
  | fuel + 1, token_symbols =>
    if 1 < token_symbols.length then
      if (min_bp_scan bp_to_symbol token_symbols ((0, 0), INT_MAX)).2 = INT_MAX then
        some token_symbols
      else
        encode_merge_loop bp_to_symbol fuel
          (substitute_byte_pair token_symbols
            (min_bp_scan bp_to_symbol token_symbols ((0, 0), INT_MAX)).1
            (min_bp_scan bp_to_symbol token_symbols ((0, 0), INT_MAX)).2)
    else some token_symbols

/-- The method `ByteBPE::encode_token`. -/
def ByteBPE.encode_token (m : ByteBPE) (token : CString) : Except Error (List Int) :=
  match base_symbols m.bp_to_symbol token with
  | .error e => .error e
  | .ok token_symbols =>
    match encode_merge_loop m.bp_to_symbol token.length token_symbols with
    | some r => .ok r
    | none => .error .fuel_exhausted

/-- One successful `std::getline(stream, token, delim)` on a non-empty rest of
a stream: the token read and the rest of the stream after it (the delimiter is
consumed and not stored). -/
def getline_chars (delim : CChar) : CString → CString × CString
  | [] => ([], [])
  | c :: cs =>
    if c = delim then ([], cs)
    else (c :: (getline_chars delim cs).1, (getline_chars delim cs).2)

/-- The call `std::getline(stream, token, delim)`: `none` when the stream is
already at its end (no character is extracted, the call fails). -/
def getline (delim : CChar) (stream : CString) : Option (CString × CString) :=
  if stream = [] then none else some (getline_chars delim stream)

/-- The `while (getline(token_stream, token, ' '))` loop of `encode_line`. -/
def encode_line_loop (m : ByteBPE) : Nat → CString → List Int → Except Error (List Int)
  | 0, _, _ => .error .fuel_exhausted
  | fuel + 1, stream, encoded_line =>
    match getline SPACE stream with
    | none => .ok encoded_line
    | some (token, rest) =>
      match m.encode_token token with
      | .ok encoded_token => encode_line_loop m fuel rest (encoded_line ++ encoded_token)
      | .error e => .error e

/-- The method `ByteBPE::encode_line`. -/
def ByteBPE.encode_line (m : ByteBPE) (line : CString) : Except Error (List Int) :=
  encode_line_loop m (line.length + 1) line []

/-- The loop of `decode`, with the string built so far. -/
def decode_loop (symbol_to_string : List CString) : List Int → CString → Except Error CString
  | [], decoded => .ok decoded
  | symbol :: rest, decoded =>
    match vec_index symbol_to_string symbol with
    | some s => decode_loop symbol_to_string rest (decoded ++ s)
    | none => .error .undefined_behaviour

/-- The method `ByteBPE::decode`. -/
def ByteBPE.decode (m : ByteBPE) (token_ids : List Int) : Except Error CString :=
  decode_loop m.symbol_to_string token_ids []

/-- The text of a string literal, as a `std::string` (ASCII only). -/
def cstr (s : String) : CString := s.toList.map (fun c => Fin.ofNat c.toNat)

/-- Building a model from a symbol table the way `learn` and `load_from_file`
end: `create_reverse_symbol_mapping` then `generate_symbol_strings` on an
object that holds only the table. -/
def build_model (table : List Symbol) : Except Error Unit × ByteBPE :=
  (ByteBPE.create_reverse_symbol_mapping ⟨table, [], []⟩).generate_symbol_strings

/-- The number of positions `i` with `(v[i], v[i+1]) = bp`. -/
def pair_occurrences (bp : BytePair) : List Int → Nat
  | [] => 0
  | [_] => 0
  | a :: b :: rest => (if (a, b) = bp then 1 else 0) + pair_occurrences bp (b :: rest)

/-- What `generate_symbol_strings` stores for a symbol, given the strings
`strs` it can read: one byte, one byte and a space, or the two strings of a
pair joined. -/
def renders (strs : List CString) (sym : Symbol) (str : CString) : Prop :=
  match sym with
  | (.int v, .INTERNAL) => ∃ c, numeric_cast_char v = .ok c ∧ str = [c]
  | (.int v, .FINAL) => ∃ c, numeric_cast_char v = .ok c ∧ str = [c, SPACE]
  | (.pair (l, r), .BYTE_PAIR) =>
    ∃ a b, vec_index strs l = some a ∧ vec_index strs r = some b ∧ str = a ++ b
  | _ => False

/-- The strings of a sequence of ids joined in order, `none` when some id is
not an index of `strs`: what `decode` computes, without the accumulator. -/
def render_ids (strs : List CString) : List Int → Option CString
  | [] => some []
  | id :: rest =>
    match vec_index strs id, render_ids strs rest with
    | some s, some r => some (s ++ r)
    | _, _ => none

/-- Every key `Pair(l, r)` of the reverse map is mapped to an id whose string
is the string of `l` followed by the string of `r`. -/
def pairs_rendered (m : ByteBPE) : Prop :=
  ∀ (l r s : Int), umap_find m.bp_to_symbol (.pair (l, r), .BYTE_PAIR) = some s →
    ∃ a b, vec_index m.symbol_to_string l = some a ∧ vec_index m.symbol_to_string r = some b ∧
      vec_index m.symbol_to_string s = some (a ++ b)

/-- Every base key of the reverse map is mapped to an id whose string is the
byte itself (`INTERNAL`) or the byte and a space (`FINAL`). -/
def bytes_rendered (m : ByteBPE) : Prop :=
  ∀ (c : CChar) (s : Int),
    (umap_find m.bp_to_symbol (.int (char_to_int c), .INTERNAL) = some s →
      vec_index m.symbol_to_string s = some [c]) ∧
    (umap_find m.bp_to_symbol (.int (char_to_int c), .FINAL) = some s →
      vec_index m.symbol_to_string s = some [c, SPACE])

/-- A small symbol table: `Internal(a)`, `Final(b)`, `Pair(0, 1)`. -/
def demo_table : List Symbol :=
  [(.int 97, .INTERNAL), (.int 98, .FINAL), (.pair (0, 1), .BYTE_PAIR)]

/-- The model built from `demo_table`. -/
def demo_model : ByteBPE := (build_model demo_table).2

/-! ## Persistence: `save_to_file`, `load_from_file` -/

/-- The character `'-'`. -/
def MINUS : CChar := 45

/-- The character `'+'`. -/
def PLUS : CChar := 43

/-- The decimal digit `d` as a character. -/
def digit_char (d : Nat) : CChar := Fin.ofNat (48 + d % 10)

/-- The decimal digits of `n`, most significant first (fuel bounds the number
of digits). -/
def render_nat_loop : Nat → Nat → CString
  | 0, _ => []
  | fuel + 1, n =>
    if n < 10 then [digit_char n] else render_nat_loop fuel (n / 10) ++ [digit_char (n % 10)]

/-- The text `file_out << v` writes for an `int`. -/
def render_int (v : Int) : CString :=
  if v < 0 then MINUS :: render_nat_loop (v.natAbs + 1) v.natAbs
  else render_nat_loop (v.natAbs + 1) v.natAbs

/-- The loop of `save_to_file`: the text written for the remaining symbols is
appended to `out`; an exception leaves what was written before it. -/
def save_loop : List Symbol → CString → Except Error Unit × CString
  | [], out => (.ok (), out)
  | (symbol_value, symbol_type) :: rest, out =>
    match symbol_type with
    | .INTERNAL | .FINAL =>
      match symbol_value with
      | .int v =>
        save_loop rest
          (out ++ render_int v ++ [SPACE] ++ render_int symbol_type.to_int ++ [NEWLINE])
      | .pair _ => (.error .bad_variant_access, out)
    | .BYTE_PAIR =>
      match symbol_value with
      | .pair (symbol1, symbol2) =>
        save_loop rest
          (out ++ render_int symbol1 ++ [SPACE] ++ render_int symbol2 ++ [SPACE] ++
            render_int symbol_type.to_int ++ [NEWLINE])
      | .int _ => (.error .bad_variant_access, out)

/-- The method `ByteBPE::save_to_file`; `good` tells whether the output file
could be opened, the second component is the text the file holds afterwards
(an output file is truncated on opening). -/
def ByteBPE.save_to_file (m : ByteBPE) (good : Bool) : Except Error Unit × CString :=
  if good then save_loop m.symbol_mapping [] else (.error .unable_to_open, [])

/-- The predicate `std::isspace` in the "C" locale. -/
def is_space (c : CChar) : Bool := c.val = 32 || (9 ≤ c.val && c.val ≤ 13)

/-- The predicate `std::isdigit`. -/
def is_digit (c : CChar) : Bool := 48 ≤ c.val && c.val ≤ 57

/-- Leading whitespace skipped by a formatted input. -/
def skip_space : CString → CString
  | [] => []
  | c :: cs => if is_space c then skip_space cs else c :: cs

/-- The digits at the start of a stream accumulated onto `acc`, and the rest
of the stream after them. -/
def read_digits : CString → Nat → Nat × CString
  | [], acc => (acc, [])
  | c :: cs, acc =>
    if is_digit c then read_digits cs (acc * 10 + (c.val - 48)) else (acc, c :: cs)

/-- The digits, after an optional sign, read as an `int`: `none` when there is
no digit or the value does not fit a 32-bit `int` (the stream's failbit). -/
def read_signed (negative : Bool) (body : CString) : Option (Int × CString) :=
  match body with
  | [] => none
  | d :: _ =>
    if is_digit d then
      if negative then
        if INT_MIN ≤ -((read_digits body 0).1 : Int) then
          some (-((read_digits body 0).1 : Int), (read_digits body 0).2)
        else none
      else
        if ((read_digits body 0).1 : Int) ≤ INT_MAX then
          some (((read_digits body 0).1 : Int), (read_digits body 0).2)
        else none
    else none

/-- The formatted read `token_stream >> token` of an `int`: the value and the
rest of the stream, or `none` when the read fails. -/
def read_int (stream : CString) : Option (Int × CString) :=
  match skip_space stream with
  | [] => none
  | c :: cs =>
    if c = MINUS then read_signed true cs
    else if c = PLUS then read_signed false cs
    else read_signed false (c :: cs)

/-- The loop `while (token_stream >> token) tokens.emplace_back(token)`. -/
def read_ints : Nat → CString → List Int
  | 0, _ => []
  | fuel + 1, stream =>
    match read_int stream with
    | some (token, rest) => token :: read_ints fuel rest
    | none => []

/-- The integer fields of a line, as the parser of `load_from_file` reads them. -/
def line_fields (line : CString) : List Int := read_ints (line.length + 1) line

/-- The body of the parsing loop of `load_from_file` for one line, given its
fields `tokens` and the id `symbol_id` the line defines. -/
def parse_symbol (tokens : List Int) (symbol_id : Int) : Except Error Symbol :=
  match tokens with
  | [t0, t1] =>
    if t1 ≠ SymbolType.INTERNAL.to_int ∧ t1 ≠ SymbolType.FINAL.to_int then
      .error .malformatted
    else if t1 = SymbolType.INTERNAL.to_int then .ok (.int t0, .INTERNAL)
    else .ok (.int t0, .FINAL)
  | [t0, t1, t2] =>
    if t2 ≠ SymbolType.BYTE_PAIR.to_int ∨ t0 ≥ symbol_id ∨ t1 ≥ symbol_id then
      .error .malformatted
    else .ok (.pair (t0, t1), .BYTE_PAIR)
  | _ => .error .malformatted

/-- The loop `while (std::getline(file_in, line))` of `load_from_file`; the
second component is `symbol_mapping` as the loop leaves it. -/
def load_loop : Nat → CString → Int → List Symbol → Except Error Unit × List Symbol
  | 0, _, _, symbol_mapping => (.error .fuel_exhausted, symbol_mapping)
  | fuel + 1, stream, symbol_id, symbol_mapping =>
    match getline NEWLINE stream with
    | none => (.ok (), symbol_mapping)
    | some (line, rest) =>
      match parse_symbol (line_fields line) symbol_id with
      | .ok sym => load_loop fuel rest (symbol_id + 1) (symbol_mapping ++ [sym])
      | .error e => (.error e, symbol_mapping)

/-- The method `ByteBPE::load_from_file`; `file` is the text of the file, or
`none` when it cannot be opened. -/
def ByteBPE.load_from_file (m : ByteBPE) (file : Option CString) (overwrite : Bool) :
    Except Error Unit × ByteBPE :=
  match file with
  | none => (.error .unable_to_open, m)
  | some text =>
    if m.symbol_mapping ≠ [] ∧ overwrite = false then (.error .overwrite_refused, m)
    else
      match load_loop (text.length + 1) text 0 m.clear.symbol_mapping with
      | (.error e, symbol_mapping) =>
        (.error e, { m.clear with symbol_mapping := symbol_mapping })
      | (.ok (), symbol_mapping) =>
        (ByteBPE.create_reverse_symbol_mapping
          { m.clear with symbol_mapping := symbol_mapping }).generate_symbol_strings

/-- The lines of a file as successive `std::getline(file, line)` calls return
them. -/
def read_lines : Nat → CString → List CString
  | 0, _ => []
  | fuel + 1, stream =>
    match getline NEWLINE stream with
    | none => []
    | some (line, rest) => line :: read_lines fuel rest

/-- The lines of a file. -/
def file_lines (text : CString) : List CString := read_lines (text.length + 1) text

/-! ## Training: `learn`

The progress displays and the messages written to `std::cout` are not
modelled. The hash containers local to `learn` follow the conventions above;
`std::set<char>` is a strictly increasing list (ordered by `char` value). -/

/-- The static function `ByteBPE::increment_counter`. -/
def increment_counter {K : Type} [DecidableEq K] (counter : List (K × Int)) (key : K)
    (value : Int) : Except Error (List (K × Int)) :=
  if value = 0 then .error .increment_by_zero
  else
    match umap_find counter key with
    | none => .ok (umap_set counter key value)
    | some old =>
      if value < 0 ∧ old + value = 0 then .ok (umap_erase counter key)
      else .ok (umap_set counter key (old + value))

/-- Reading `m[k]` of an `unordered_map`: a missing key is first inserted with
the value-initialised `dflt`. -/
def umap_index {K V : Type} [DecidableEq K] (m : List (K × V)) (k : K) (dflt : V) :
    V × List (K × V) :=
  match umap_find m k with
  | some v => (v, m)
  | none => (dflt, umap_set m k dflt)

/-- The call `s.insert(c)` of an `unordered_set<char>`. -/
def uset_insert (s : List CChar) (c : CChar) : List CChar :=
  if c ∈ s then s else s ++ [c]

/-- The call `s.insert(c)` of a `std::set<char>`. -/
def set_insert (c : CChar) : List CChar → List CChar
  | [] => [c]
  | x :: xs =>
    if char_to_int c < char_to_int x then c :: x :: xs
    else if char_to_int x < char_to_int c then x :: set_insert c xs
    else x :: xs

/-- The range constructor `set<char>{first, last}`. -/
def set_of_range (bytes : List CChar) : List CChar :=
  bytes.foldl (fun s c => set_insert c s) []

/-- The three containers filled by the first pass of `learn`. -/
structure TokenIndex where
  token_counter : List (CString × Int)
  unique_internal_bytes : List CChar
  unique_final_bytes : List CChar
  deriving DecidableEq, Repr

/-- The body of the token loop of the first pass, for one token. -/
def index_token (idx : TokenIndex) (token : CString) : Except Error TokenIndex :=
  match increment_counter idx.token_counter token 1 with
  | .error e => .error e
  | .ok token_counter =>
    match token.getLast? with
    | none => .error .undefined_behaviour
    | some back =>
      .ok ⟨token_counter, token.dropLast.foldl uset_insert idx.unique_internal_bytes,
        uset_insert idx.unique_final_bytes back⟩

/-- The loop `while (std::getline(token_stream, token, ' '))` of the first pass. -/
def index_line : Nat → CString → TokenIndex → Except Error TokenIndex
  | 0, _, _ => .error .fuel_exhausted
  | fuel + 1, stream, idx =>
    match getline SPACE stream with
    | none => .ok idx
    | some (token, rest) =>
      match index_token idx token with
      | .ok idx2 => index_line fuel rest idx2
      | .error e => .error e

/-- The loop `while (std::getline(file, line))` of the first pass. -/
def index_file : Nat → CString → TokenIndex → Except Error TokenIndex
  | 0, _, _ => .error .fuel_exhausted
  | fuel + 1, stream, idx =>
    match getline NEWLINE stream with
    | none => .ok idx
    | some (line, rest) =>
      match index_line (line.length + 1) line idx with
      | .ok idx2 => index_file fuel rest idx2
      | .error e => .error e

/-- The loops that append the base symbols of one type (`INTERNAL`, then
`FINAL`), carrying `symbol_mapping` and the local map `byte_to_symbol`. -/
def emit_base_symbols (type : SymbolType) :
    List CChar → List Symbol × List ((Int × SymbolType) × Int) →
      List Symbol × List ((Int × SymbolType) × Int)
  | [], acc => acc
  | byte :: rest, (symbol_mapping, byte_to_symbol) =>
    emit_base_symbols type rest
      (symbol_mapping ++ [(.int (char_to_int byte), type)],
       umap_set byte_to_symbol (char_to_int byte, type) (symbol_mapping.length : Int))

/-- The construction of `token_vec` in the second pass, reading
`byte_to_symbol` with `operator[]`. -/
def build_token_vec :
    CString → List ((Int × SymbolType) × Int) →
      Except Error (List Int × List ((Int × SymbolType) × Int))
  | [], _ => .error .undefined_behaviour
  | [c], byte_to_symbol =>
    .ok ([(umap_index byte_to_symbol (char_to_int c, .FINAL) 0).1],
      (umap_index byte_to_symbol (char_to_int c, .FINAL) 0).2)
  | c :: c2 :: rest, byte_to_symbol =>
    match build_token_vec (c2 :: rest)
        (umap_index byte_to_symbol (char_to_int c, .INTERNAL) 0).2 with
    | .ok (token_vec, byte_to_symbol2) =>
      .ok ((umap_index byte_to_symbol (char_to_int c, .INTERNAL) 0).1 :: token_vec,
        byte_to_symbol2)
    | .error e => .error e

/-- The loop over the adjacent pairs of a vector that adds `freq` to a pair
counter and one occurrence to `bp_to_token_index_counter`: lines 104-113 (on
`bp_counter`, with `cnt`) and lines 152-160 (on `bp_freq_delta`, with
`token_freq`) of the source. -/
def add_pairs (freq : Int) (token_index : Int) :
    List Int → List (BytePair × Int) × List (BytePair × List (Int × Int)) →
      Except Error (List (BytePair × Int) × List (BytePair × List (Int × Int)))
  | a :: b :: rest, (counter, bp_to_token_index_counter) =>
    match increment_counter counter (a, b) freq with
    | .error e => .error e
    | .ok counter2 =>
      match umap_find bp_to_token_index_counter (a, b) with
      | none =>
        add_pairs freq token_index (b :: rest)
          (counter2, umap_set bp_to_token_index_counter (a, b) [(token_index, 1)])
      | some inner =>
        match increment_counter inner token_index 1 with
        | .error e => .error e
        | .ok inner2 =>
          add_pairs freq token_index (b :: rest)
            (counter2, umap_set bp_to_token_index_counter (a, b) inner2)
  | _, acc => .ok acc

/-- The loop over the adjacent pairs of the old vector (lines 163-169). -/
def remove_pairs (token_freq : Int) (token_index : Int) :
    List Int → List (BytePair × Int) × List (BytePair × List (Int × Int)) →
      Except Error (List (BytePair × Int) × List (BytePair × List (Int × Int)))
  | a :: b :: rest, (bp_freq_delta, bp_to_token_index_counter) =>
    match increment_counter bp_freq_delta (a, b) (-token_freq) with
    | .error e => .error e
    | .ok bp_freq_delta2 =>
      match umap_find bp_to_token_index_counter (a, b) with
      | none => .error .assertion_failed
      | some inner =>
        match increment_counter inner token_index (-1) with
        | .error e => .error e
        | .ok inner2 =>
          remove_pairs token_freq token_index (b :: rest)
            (bp_freq_delta2, umap_set bp_to_token_index_counter (a, b) inner2)
  | _, acc => .ok acc

/-- The assignment `v[i] = x` of a `std::vector` with an `int` index. -/
def vec_set {α : Type} (v : List α) (i : Int) (x : α) : List α :=
  if 0 ≤ i then v.set i.toNat x else v

/-- The values of `std::less<pair<int, BytePair>>`, the order of the heap. -/
def value_less (a b : Int × BytePair) : Bool :=
  a.1 < b.1 || (!(b.1 < a.1) && (a.2.1 < b.2.1 || (!(b.2.1 < a.2.1) && a.2.2 < b.2.2)))

/-- A `boost::heap::fibonacci_heap<pair<int, BytePair>>`: its elements, each
under the handle `push` returned for it, and the next unused handle. -/
structure FibHeap where
  elems : List (Nat × (Int × BytePair))
  next_handle : Nat
  deriving DecidableEq, Repr

/-- The greatest element of a list of heap elements. -/
def heap_max : List (Nat × (Int × BytePair)) → Option (Nat × (Int × BytePair))
  | [] => none
  | e :: rest =>
    match heap_max rest with
    | none => some e
    | some m => if value_less e.2 m.2 then some m else some e

/-- The call `heap.top()`, with the handle of the element; `none` on an empty
heap (where the call is undefined). -/
def FibHeap.top (h : FibHeap) : Option (Nat × (Int × BytePair)) := heap_max h.elems

/-- The call `heap.pop()`: removes the element `top()` returns. -/
def FibHeap.pop (h : FibHeap) : FibHeap :=
  match h.top with
  | none => h
  | some (handle, _) => { h with elems := h.elems.filter (fun e => e.1 ≠ handle) }

/-- The call `heap.push(v)`: the new handle and the heap. -/
def FibHeap.push (h : FibHeap) (v : Int × BytePair) : Nat × FibHeap :=
  (h.next_handle, ⟨h.elems ++ [(h.next_handle, v)], h.next_handle + 1⟩)

/-- The call `heap.update(handle, v)`. -/
def FibHeap.update (h : FibHeap) (handle : Nat) (v : Int × BytePair) : FibHeap :=
  { h with elems := h.elems.map (fun e => if e.1 = handle then (handle, v) else e) }

/-- The local variables of `learn` that live through the merge loop, and the
member `symbol_mapping`. -/
structure LearnState where
  symbol_mapping : List Symbol
  token_counter : List (CString × Int)
  bp_counter : List (BytePair × Int)
  bp_to_token_index_counter : List (BytePair × List (Int × Int))
  token_index_to_token_vec_and_freq : List (List Int × Int)
  bp_heap : FibHeap
  bp_heap_handles : List (BytePair × Nat)
  deriving DecidableEq, Repr

/-- The loop of the second pass over `token_counter` (lines 91-115). -/
def index_tokens :
    List (CString × Int) →
      List ((Int × SymbolType) × Int) × List (BytePair × Int) ×
        List (BytePair × List (Int × Int)) × List (List Int × Int) →
      Except Error (List ((Int × SymbolType) × Int) × List (BytePair × Int) ×
        List (BytePair × List (Int × Int)) × List (List Int × Int))
  | [], acc => .ok acc
  | (token, cnt) :: rest,
      (byte_to_symbol, bp_counter, bp_to_token_index_counter,
        token_index_to_token_vec_and_freq) =>
    match build_token_vec token byte_to_symbol with
    | .error e => .error e
    | .ok (token_vec, byte_to_symbol2) =>
      match add_pairs cnt (token_index_to_token_vec_and_freq.length : Int) token_vec
          (bp_counter, bp_to_token_index_counter) with
      | .error e => .error e
      | .ok (bp_counter2, bp_to_token_index_counter2) =>
        index_tokens rest
          (byte_to_symbol2, bp_counter2, bp_to_token_index_counter2,
            token_index_to_token_vec_and_freq ++ [(token_vec, cnt)])

/-- The loop that builds the heap from `bp_counter` (lines 125-129). -/
def build_heap :
    List (BytePair × Int) → FibHeap × List (BytePair × Nat) → FibHeap × List (BytePair × Nat)
  | [], acc => acc
  | (byte_pair, freq) :: rest, (bp_heap, bp_heap_handles) =>
    build_heap rest
      ((bp_heap.push (freq, byte_pair)).2,
        umap_set bp_heap_handles byte_pair (bp_heap.push (freq, byte_pair)).1)

/-- The loop over the affected tokens of one merge (lines 145-172), carrying
the token table, `bp_freq_delta` and `bp_to_token_index_counter`. -/
def merge_tokens (top_bp : BytePair) (new_symbol : Int) :
    List (Int × Int) →
      List (List Int × Int) × List (BytePair × Int) × List (BytePair × List (Int × Int)) →
      Except Error
        (List (List Int × Int) × List (BytePair × Int) × List (BytePair × List (Int × Int)))
  | [], acc => .ok acc
  | (token_index, _) :: rest,
      (token_index_to_token_vec_and_freq, bp_freq_delta, bp_to_token_index_counter) =>
    match vec_index token_index_to_token_vec_and_freq token_index with
    | none => .error .undefined_behaviour
    | some (token_vector, token_freq) =>
      match add_pairs token_freq token_index
          (substitute_byte_pair token_vector top_bp new_symbol)
          (bp_freq_delta, bp_to_token_index_counter) with
      | .error e => .error e
      | .ok added =>
        match remove_pairs token_freq token_index token_vector added with
        | .error e => .error e
        | .ok (bp_freq_delta2, bp_to_token_index_counter2) =>
          merge_tokens top_bp new_symbol rest
            (vec_set token_index_to_token_vec_and_freq token_index
              (substitute_byte_pair token_vector top_bp new_symbol, token_freq),
             bp_freq_delta2, bp_to_token_index_counter2)

/-- The loop that applies `bp_freq_delta` to `bp_counter` and the heap
(lines 179-190). -/
def apply_delta :
    List (BytePair × Int) → List (BytePair × Int) × FibHeap × List (BytePair × Nat) →
      Except Error (List (BytePair × Int) × FibHeap × List (BytePair × Nat))
  | [], acc => .ok acc
  | (bp, freq_delta) :: rest, (bp_counter, bp_heap, bp_heap_handles) =>
    if freq_delta ≠ 0 then
      match umap_find bp_counter bp with
      | none =>
        if freq_delta > 0 then
          apply_delta rest
            (umap_set bp_counter bp freq_delta, (bp_heap.push (freq_delta, bp)).2,
              umap_set bp_heap_handles bp (bp_heap.push (freq_delta, bp)).1)
        else .error .assertion_failed
      | some old =>
        match umap_find bp_heap_handles bp with
        | none => .error .undefined_behaviour
        | some handle =>
          apply_delta rest
            (umap_set bp_counter bp (old + freq_delta),
              bp_heap.update handle (old + freq_delta, bp), bp_heap_handles)
    else apply_delta rest (bp_counter, bp_heap, bp_heap_handles)

/-- The value `m[k]` of an `int`-valued map read with `operator[]`. -/
def umap_value {K : Type} [DecidableEq K] (m : List (K × Int)) (k : K) : Int :=
  (umap_index m k 0).1

/-- One iteration of the merge loop (lines 137-190), for the loop variable
`new_symbol`. -/
def merge_iteration (st : LearnState) (new_symbol : Int) : Except Error LearnState :=
  match st.bp_heap.top with
  | none => .error .undefined_behaviour
  | some (_, (_, top_bp)) =>
    match merge_tokens top_bp new_symbol
        (umap_index st.bp_to_token_index_counter top_bp []).1
        (st.token_index_to_token_vec_and_freq, [],
          (umap_index st.bp_to_token_index_counter top_bp []).2) with
    | .error e => .error e
    | .ok (token_index_to_token_vec_and_freq, bp_freq_delta, bp_to_token_index_counter) =>
      if umap_value bp_freq_delta top_bp + umap_value st.bp_counter top_bp = 0 then
        match apply_delta (umap_erase bp_freq_delta top_bp)
            (umap_erase st.bp_counter top_bp, st.bp_heap.pop,
              umap_erase st.bp_heap_handles top_bp) with
        | .error e => .error e
        | .ok (bp_counter, bp_heap, bp_heap_handles) =>
          .ok
            { st with
              symbol_mapping := st.symbol_mapping ++ [(.pair top_bp, .BYTE_PAIR)]
              bp_counter := bp_counter
              bp_to_token_index_counter := bp_to_token_index_counter
              token_index_to_token_vec_and_freq := token_index_to_token_vec_and_freq
              bp_heap := bp_heap
              bp_heap_handles := bp_heap_handles }
      else .error .assertion_failed

/-- The loop `for (new_symbol = n_base_vocab; new_symbol < vocab_size; ++new_symbol)`,
with the number of iterations still to run. An error inside an iteration ends
the run; the state reported with it is the one before that iteration. -/
def merge_loop : Nat → Int → LearnState → Except Error Unit × LearnState
  | 0, _, st => (.ok (), st)
  | n + 1, new_symbol, st =>
    match merge_iteration st new_symbol with
    | .ok st2 => merge_loop n (new_symbol + 1) st2
    | .error e => (.error e, st)

/-- The base symbols (lines 60-77): the `INTERNAL` symbols of the ordered
internal bytes, then the `FINAL` symbols of the ordered final bytes, with the
local map `byte_to_symbol`. -/
def base_vocab (idx : TokenIndex) : List Symbol × List ((Int × SymbolType) × Int) :=
  emit_base_symbols .FINAL (set_of_range idx.unique_final_bytes)
    (emit_base_symbols .INTERNAL (set_of_range idx.unique_internal_bytes) ([], []))

/-- The part of `learn` from the first pass to the built heap (lines 34-129),
on the text of the corpus file. -/
def learn_init (text : CString) : Except Error LearnState :=
  match index_file (text.length + 1) text ⟨[], [], []⟩ with
  | .error e => .error e
  | .ok idx =>
    match index_tokens idx.token_counter ((base_vocab idx).2, [], [], []) with
    | .error e => .error e
    | .ok (_, bp_counter, bp_to_token_index_counter, token_index_to_token_vec_and_freq) =>
      .ok
        { symbol_mapping := (base_vocab idx).1
          token_counter := idx.token_counter
          bp_counter := bp_counter
          bp_to_token_index_counter := bp_to_token_index_counter
          token_index_to_token_vec_and_freq := token_index_to_token_vec_and_freq
          bp_heap := (build_heap bp_counter (⟨[], 0⟩, [])).1
          bp_heap_handles := (build_heap bp_counter (⟨[], 0⟩, [])).2 }

/-- The number of iterations of the merge loop: `vocab_size - n_base_vocab`
when positive, else none. -/
def merge_count (vocab_size : Int) (st : LearnState) : Nat :=
  (vocab_size - (st.symbol_mapping.length : Int)).toNat

/-- The training part of `learn` (lines 34-193): the outcome of the merge loop
and the state of the locals when it ends, or the error of the first two
passes when they fail. -/
def learn_run (text : CString) (vocab_size : Int) : Except Error (Except Error Unit × LearnState) :=
  match learn_init text with
  | .error e => .error e
  | .ok st => .ok (merge_loop (merge_count vocab_size st) (st.symbol_mapping.length : Int) st)

/-- The method `ByteBPE::learn`; `file` is the text of the corpus file, or
`none` when it cannot be opened. -/
def ByteBPE.learn (m : ByteBPE) (file : Option CString) (vocab_size : Int) :
    Except Error Unit × ByteBPE :=
  match file with
  | none => (.error .unable_to_open, m.clear)
  | some text =>
    match learn_run text vocab_size with
    | .error e => (.error e, m.clear)
    | .ok (.error e, st) => (.error e, { m.clear with symbol_mapping := st.symbol_mapping })
    | .ok (.ok (), st) =>
      (ByteBPE.create_reverse_symbol_mapping
        { m.clear with symbol_mapping := st.symbol_mapping }).generate_symbol_strings

/-! ## Specification-level notions used in the statements -/

/-- A line with fields `f` at 0-based index `i` is well-formed: `[v, t]` with
`t` in `{0, 1}`, or `[l, r, 2]` with `l < i` and `r < i`. -/
def valid_line (i : Nat) (f : List Int) : Prop :=
  (∃ v t, f = [v, t] ∧ (t = 0 ∨ t = 1)) ∨
  (∃ l r, f = [l, r, 2] ∧ l < (i : Int) ∧ r < (i : Int))

/-- The symbol a line with fields `f` denotes. -/
def line_symbol : List Int → Option Symbol
  | [v, t] =>
    if t = 0 then some (.int v, .INTERNAL)
    else if t = 1 then some (.int v, .FINAL)
    else none
  | [l, r, t] => if t = 2 then some (.pair (l, r), .BYTE_PAIR) else none
  | _ => none

/-- The parsing loop of `load_from_file` run over the fields of the lines. -/
def parse_lines : List (List Int) → Int → List Symbol → Except Error Unit × List Symbol
  | [], _, symbol_mapping => (.ok (), symbol_mapping)
  | f :: rest, symbol_id, symbol_mapping =>
    match parse_symbol f symbol_id with
    | .ok sym => parse_lines rest (symbol_id + 1) (symbol_mapping ++ [sym])
    | .error e => (.error e, symbol_mapping)

/-- The fields of every line of a model file. -/
def file_fields (text : CString) : List (List Int) := (file_lines text).map line_fields

/-- The value of a run of decimal digits read after the value `k`. -/
def digits_value (xs : CString) (k : Nat) : Nat :=
  xs.foldl (fun a c => a * 10 + (c.val - 48)) k

/-- The integer fields `save_to_file` writes for a symbol. -/
def symbol_fields : Symbol → List Int
  | (.int v, type) => [v, type.to_int]
  | (.pair (l, r), type) => [l, r, type.to_int]

/-- The text of a line with the given fields: the integers in decimal,
separated by single spaces. -/
def fields_text : List Int → CString
  | [] => []
  | [x] => render_int x
  | x :: y :: rest => render_int x ++ SPACE :: fields_text (y :: rest)

/-- The payload of a symbol is the alternative of the variant its type reads
(`std::get<int>` for `INTERNAL` and `FINAL`, `std::get<BytePair>` for
`BYTE_PAIR`). -/
def well_shaped : Symbol → Prop
  | (.int _, .INTERNAL) => True
  | (.int _, .FINAL) => True
  | (.pair _, .BYTE_PAIR) => True
  | _ => False

/-- The text of a whole model file with the given symbols, one line each. -/
def table_text : List Symbol → CString
  | [] => []
  | sym :: rest => fields_text (symbol_fields sym) ++ NEWLINE :: table_text rest

/-- Every integer stored in the table is a value of a 32-bit `int`. -/
def int32_table (table : List Symbol) : Prop :=
  ∀ sym ∈ table, ∀ x ∈ symbol_fields sym, INT_MIN ≤ x ∧ x ≤ INT_MAX

/-! ## Notions used to state the training invariants -/

/-- The keys of a hash map are pairwise different. -/
def keys_nodup {K V : Type} (m : List (K × V)) : Prop := (m.map Prod.fst).Nodup

/-- The true corpus count of a pair: the sum over the unique tokens of the
token frequency times the number of adjacent occurrences of the pair in the
token's current vector. -/
def true_count (table : List (List Int × Int)) (bp : BytePair) : Int :=
  (table.map (fun e => e.2 * (pair_occurrences bp e.1 : Int))).sum

/-- The number of occurrences of a pair in the vector of the token with index
`j`, read from `bp_to_token_index_counter` (0 when an entry is missing). -/
def index_count (b : List (BytePair × List (Int × Int))) (bp : BytePair) (j : Int) : Int :=
  match umap_find b bp with
  | none => 0
  | some inner => umap_value inner j

/-- The number of occurrences of a pair in the current vector of the token
with index `j` (0 when `j` is not an index of the table). -/
def occurrences_at (table : List (List Int × Int)) (bp : BytePair) (j : Int) : Int :=
  match vec_index table j with
  | none => 0
  | some (vec, _) => (pair_occurrences bp vec : Int)

/-- Every token index stored in `bp_to_token_index_counter` is an index of a
token table with `n` entries. -/
def inner_keys_valid (b : List (BytePair × List (Int × Int))) (n : Nat) : Prop :=
  ∀ q inner, umap_find b q = some inner → ∀ x ∈ inner.map Prod.fst, 0 ≤ x ∧ x < (n : Int)

/-- The entry of the token table after the pair `bp` is replaced by `s` in its
vector. -/
def substitute_entry (bp : BytePair) (s : Int) (e : List Int × Int) : List Int × Int :=
  (substitute_byte_pair e.1 bp s, e.2)

/-- Agreement of the frequency map `c`, the heap `h` and the handle map `hh`:
the pairs with a handle are the keys of `c`; the handle of a pair names a heap
element that carries the pair and its count; every heap element is the one
named by the handle of its pair; handles are not reused. -/
def heap_inv (c : List (BytePair × Int)) (h : FibHeap) (hh : List (BytePair × Nat)) : Prop :=
  (∀ q, umap_find hh q ≠ none ↔ umap_find c q ≠ none) ∧
  (∀ q k, umap_find hh q = some k → ∃ f, umap_find c q = some f ∧ (k, (f, q)) ∈ h.elems) ∧
  (∀ e ∈ h.elems, umap_find hh e.2.2 = some e.1) ∧
  (h.elems.map Prod.fst).Nodup ∧
  (∀ e ∈ h.elems, e.1 < h.next_handle)

/-- The invariant of the training state between iterations of the merge loop. -/
structure LearnInv (st : LearnState) : Prop where
  count : ∀ q, umap_value st.bp_counter q = true_count st.token_index_to_token_vec_and_freq q
  index : ∀ q j, index_count st.bp_to_token_index_counter q j =
    occurrences_at st.token_index_to_token_vec_and_freq q j
  heap : heap_inv st.bp_counter st.bp_heap st.bp_heap_handles
  freq_pos : ∀ e ∈ st.token_index_to_token_vec_and_freq, 0 < e.2
  ids : ∀ e ∈ st.token_index_to_token_vec_and_freq, ∀ x ∈ e.1,
    0 ≤ x ∧ x < (st.symbol_mapping.length : Int)
  keys : ∀ q ∈ st.bp_counter.map Prod.fst,
    (0 ≤ q.1 ∧ q.1 < (st.symbol_mapping.length : Int)) ∧
    (0 ≤ q.2 ∧ q.2 < (st.symbol_mapping.length : Int))
  inner : inner_keys_valid st.bp_to_token_index_counter
    st.token_index_to_token_vec_and_freq.length
  counter_nodup : keys_nodup st.bp_counter

/-- The tokens of a line as successive `std::getline(token_stream, token, ' ')`
calls return them. -/
def read_tokens : Nat → CString → List CString
  | 0, _ => []
  | fuel + 1, stream =>
    match getline SPACE stream with
    | none => []
    | some (token, rest) => token :: read_tokens fuel rest

/-- The tokens of a line. -/
def line_tokens (line : CString) : List CString := read_tokens (line.length + 1) line

/-- The tokens of a corpus file, line after line. -/
def corpus_tokens (text : CString) : List CString :=
  (file_lines text).flatMap line_tokens

/-- The body of the first pass of `learn` run over a list of tokens. -/
def index_token_list : List CString → TokenIndex → Except Error TokenIndex
  | [], idx => .ok idx
  | token :: rest, idx =>
    match index_token idx token with
    | .ok idx2 => index_token_list rest idx2
    | .error e => .error e

/-- A list of bytes is strictly increasing in `char` value: the order in which
a `std::set<char>` is enumerated. -/
def strictly_increasing (s : List CChar) : Prop :=
  s.Pairwise (fun a b => char_to_int a < char_to_int b)

/-- The part of the training invariant that concerns the pair index: the
frequency map, the pair-to-token index and the token table, for a symbol table
with `n` entries. -/
structure IndexInv (n : Nat) (c : List (BytePair × Int))
    (b : List (BytePair × List (Int × Int))) (t : List (List Int × Int)) : Prop where
  count : ∀ q, umap_value c q = true_count t q
  index : ∀ q j, index_count b q j = occurrences_at t q j
  freq_pos : ∀ e ∈ t, 0 < e.2
  ids : ∀ e ∈ t, ∀ x ∈ e.1, 0 ≤ x ∧ x < (n : Int)
  keys : ∀ q ∈ c.map Prod.fst, (0 ≤ q.1 ∧ q.1 < (n : Int)) ∧ (0 ≤ q.2 ∧ q.2 < (n : Int))
  inner : inner_keys_valid b t.length
  counter_nodup : keys_nodup c

/-- The training state before anything is read. -/
def LearnState.empty : LearnState := ⟨[], [], [], [], [], ⟨[], 0⟩, []⟩

/-- The training state after the two passes and `k` iterations of the merge
loop on a corpus (the empty state when the passes fail). -/
def state_after (text : CString) (k : Nat) : LearnState :=
  match learn_init text with
  | .ok st0 => (merge_loop k (st0.symbol_mapping.length : Int) st0).2
  | .error _ => LearnState.empty

/-- A small corpus: the token `abab` twice, on one line. -/
def demo_corpus : CString := cstr "abab abab\n"

/-- The size of the base vocabulary of a corpus: the number of distinct bytes
that occur before the last position of some token, plus the number of distinct
bytes that occur as the last byte of some token. -/
def base_size (text : CString) : Nat :=
  ((corpus_tokens text).flatMap List.dropLast).dedup.length +
    ((corpus_tokens text).filterMap List.getLast?).dedup.length

/-- The substitutions of the merges `merges`, whose symbols have the ids
`start`, `start + 1`, ..., applied to a vector in the order of their ids. -/
def apply_merges : Int → List Symbol → List Int → List Int
  | _, [], v => v
  | start, (.pair q, _) :: rest, v =>
    apply_merges (start + 1) rest (substitute_byte_pair v q start)
  | start, (.int _, _) :: rest, v => apply_merges (start + 1) rest v

/-- The part of the training invariant that relates the state `st` of the
merge loop to the state `st0` the loop started from: the table is the base
table followed by the merges, with no repeated symbol; every token vector is
the initial vector with the merges applied in order; a merged pair is no longer
a key of the frequency map; every pair refers to earlier symbols. -/
structure ReplayInv (st0 st : LearnState) : Prop where
  table : ∃ merges, st.symbol_mapping = st0.symbol_mapping ++ merges ∧
    (∀ s ∈ merges, ∃ q, s = (SymbolValue.pair q, SymbolType.BYTE_PAIR)) ∧
    st.token_index_to_token_vec_and_freq =
      st0.token_index_to_token_vec_and_freq.map
        (fun e => (apply_merges (st0.symbol_mapping.length : Int) merges e.1, e.2))
  nodup : st.symbol_mapping.Nodup
  merged_absent : ∀ q t, (SymbolValue.pair q, t) ∈ st.symbol_mapping →
    umap_find st.bp_counter q = none
  acyclic : ∀ (i : Nat) q t, st.symbol_mapping[i]? = some (SymbolValue.pair q, t) →
    (0 ≤ q.1 ∧ q.1 < (i : Int)) ∧ (0 ≤ q.2 ∧ q.2 < (i : Int))


/-! ## Notions used to state the claims on `encode_token` and `substitute_byte_pair` -/

/-- One round of the `while` loop of `encode_token` on the value `token_symbols`
of the vector: `none` when the loop exits (the vector has at most one element,
or the scan leaves `min_bp_symbol` at `INT_MAX`), else the vector after the
substitution of `min_bp` by `min_bp_symbol`. -/
def encode_round (bp_to_symbol : List (Symbol × Int)) (token_symbols : List Int) :
    Option (List Int) :=
  if 1 < token_symbols.length then
    if (min_bp_scan bp_to_symbol token_symbols ((0, 0), INT_MAX)).2 = INT_MAX then none
    else
      some (substitute_byte_pair token_symbols
        (min_bp_scan bp_to_symbol token_symbols ((0, 0), INT_MAX)).1
        (min_bp_scan bp_to_symbol token_symbols ((0, 0), INT_MAX)).2)
  else none

/-- The scan the specification describes, by position: at position `i` it
emits `s` and resumes at `i + 2` when `v[i] = l` and `v[i+1] = r`, and
otherwise emits `v[i]` and resumes at `i + 1`; it stops at the end of `v`.
The first argument bounds the number of steps. -/
def greedy_scan (v : List Int) (l r s : Int) : Nat → Nat → List Int
  | 0, _ => []
  | fuel + 1, i =>
    match v[i]? with
    | none => []
    | some a =>
      if a = l ∧ v[i + 1]? = some r then s :: greedy_scan v l r s fuel (i + 2)
      else a :: greedy_scan v l r s fuel (i + 1)

/-- The number of matches of the scan of `greedy_scan` from position `i` on. -/
def greedy_matches (v : List Int) (l r : Int) : Nat → Nat → Nat
  | 0, _ => 0
  | fuel + 1, i =>
    match v[i]? with
    | none => 0
    | some a =>
      if a = l ∧ v[i + 1]? = some r then greedy_matches v l r fuel (i + 2) + 1
      else greedy_matches v l r fuel (i + 1)
/-! # Theorems -/

/-! ## Association lists -/

theorem umap_find_set_self {K V : Type} [DecidableEq K] (m : List (K × V)) (k : K) (v : V) :
    umap_find (umap_set m k v) k = some v := by
  induction m with
  | nil => simp [umap_set, umap_find]
  | cons hd tl ih =>
    obtain ⟨a, w⟩ := hd
    by_cases h : a = k
    · simp [umap_set, umap_find, h]
    · simp [umap_set, umap_find, h, ih]

theorem umap_find_set_ne {K V : Type} [DecidableEq K] (m : List (K × V)) (k k2 : K) (v : V)
    (h : k ≠ k2) : umap_find (umap_set m k v) k2 = umap_find m k2 := by
  induction m with
  | nil => simp [umap_set, umap_find, h]
  | cons hd tl ih =>
    obtain ⟨a, w⟩ := hd
    by_cases h1 : a = k
    · subst h1
      simp [umap_set, umap_find, h]
    · by_cases h2 : a = k2
      · subst h2
        simp [umap_set, umap_find, h1]
      · simp [umap_set, umap_find, h1, h2, ih]

theorem umap_find_erase_self {K V : Type} [DecidableEq K] (m : List (K × V)) (k : K) :
    umap_find (umap_erase m k) k = none := by
  induction m with
  | nil => simp [umap_erase, umap_find]
  | cons hd tl ih =>
    obtain ⟨a, w⟩ := hd
    by_cases h : a = k
    · simp [umap_erase, h, ih]
    · simp [umap_erase, umap_find, h, ih]

theorem umap_find_erase_ne {K V : Type} [DecidableEq K] (m : List (K × V)) (k k2 : K)
    (h : k ≠ k2) : umap_find (umap_erase m k) k2 = umap_find m k2 := by
  induction m with
  | nil => simp [umap_erase, umap_find]
  | cons hd tl ih =>
    obtain ⟨a, w⟩ := hd
    by_cases h1 : a = k
    · subst h1
      simp [umap_erase, umap_find, h, ih]
    · by_cases h2 : a = k2
      · subst h2
        simp [umap_erase, umap_find, h1]
      · simp [umap_erase, umap_find, h1, h2, ih]

/-! ## The reverse map and the rendered strings -/

theorem create_reverse_loop_find (table : List Symbol) :
    ∀ (k : Int) (mp : List (Symbol × Int)) (key : Symbol) (id : Int),
      umap_find (create_reverse_symbol_mapping_loop table k mp) key = some id →
      umap_find mp key = some id ∨
        ∃ i : Nat, i < table.length ∧ id = k + i ∧ table[i]? = some key := by
  induction table with
  | nil => intro k mp key id h; exact Or.inl h
  | cons sym rest ih =>
    intro k mp key id h
    simp only [create_reverse_symbol_mapping_loop] at h
    rcases ih (k + 1) _ key id h with h1 | ⟨i, hi, hid, hget⟩
    · by_cases hk : sym = key
      · subst hk
        rw [umap_find_set_self] at h1
        right
        refine ⟨0, by simp, ?_, by simp⟩
        simp only [Option.some.injEq] at h1
        omega
      · rw [umap_find_set_ne _ _ _ _ hk] at h1
        exact Or.inl h1
    · right
      refine ⟨i + 1, by simp; omega, by push_cast; omega, by simpa using hget⟩

theorem vec_index_append_left {α : Type} (xs ys : List α) (i : Int) (a : α)
    (h : vec_index xs i = some a) : vec_index (xs ++ ys) i = some a := by
  unfold vec_index at *
  split at h
  · rename_i h0
    simp only [h0, if_true]
    have hlt : i.toNat < xs.length := by
      by_contra hc
      rw [List.getElem?_eq_none (by omega)] at h
      cases h
    rw [List.getElem?_append_left hlt]
    exact h
  · cases h

theorem renders_append (strs ext : List CString) (sym : Symbol) (str : CString)
    (h : renders strs sym str) : renders (strs ++ ext) sym str := by
  obtain ⟨value, type⟩ := sym
  cases value with
  | int v => cases type <;> simp [renders] at h ⊢ <;> exact h
  | pair bp =>
    obtain ⟨l, r⟩ := bp
    cases type with
    | INTERNAL => simp [renders] at h
    | FINAL => simp [renders] at h
    | BYTE_PAIR =>
      obtain ⟨a, b, ha, hb, hs⟩ := h
      exact ⟨a, b, vec_index_append_left _ _ _ _ ha, vec_index_append_left _ _ _ _ hb, hs⟩

theorem generate_loop_ok (table : List Symbol) :
    ∀ (strs0 strs : List CString),
      generate_symbol_strings_loop table strs0 = (.ok (), strs) →
      ∃ ext, strs = strs0 ++ ext ∧ ext.length = table.length ∧
        ∀ (i : Nat) (sym : Symbol), table[i]? = some sym →
          ∃ str, strs[strs0.length + i]? = some str ∧ renders strs sym str := by
  induction table with
  | nil =>
    intro strs0 strs h
    simp only [generate_symbol_strings_loop, Prod.mk.injEq, true_and] at h
    exact ⟨[], by simp [h], rfl, by simp⟩
  | cons sym rest ih =>
    intro strs0 strs h
    obtain ⟨value, type⟩ := sym
    have key : ∀ (s : CString), renders strs0 (value, type) s →
        generate_symbol_strings_loop rest (strs0 ++ [s]) = (.ok (), strs) →
        ∃ ext, strs = strs0 ++ ext ∧ ext.length = ((value, type) :: rest).length ∧
          ∀ (i : Nat) (sym : Symbol), ((value, type) :: rest)[i]? = some sym →
            ∃ str, strs[strs0.length + i]? = some str ∧ renders strs sym str := by
      intro s hs hloop
      obtain ⟨ext, hext, hlen, hall⟩ := ih _ _ hloop
      refine ⟨s :: ext, by simp [hext], by simp [hlen], ?_⟩
      intro i sym hi
      cases i with
      | zero =>
        simp only [List.getElem?_cons_zero, Option.some.injEq] at hi
        subst hi
        refine ⟨s, ?_, ?_⟩
        · rw [hext, List.append_assoc, Nat.add_zero,
            List.getElem?_append_right (le_refl _)]
          simp
        · rw [hext, List.append_assoc]; exact renders_append _ _ _ _ hs
      | succ j =>
        simp only [List.getElem?_cons_succ] at hi
        obtain ⟨str, h1, h2⟩ := hall j sym hi
        refine ⟨str, ?_, h2⟩
        rw [← h1]
        congr 1
        simp
        omega
    cases type with
    | INTERNAL =>
      cases value with
      | pair bp => simp [generate_symbol_strings_loop] at h
      | int v =>
        simp only [generate_symbol_strings_loop] at h
        cases hc : numeric_cast_char v with
        | error e => simp [hc] at h
        | ok c =>
          simp only [hc] at h
          exact key [c] ⟨c, hc, rfl⟩ h
    | FINAL =>
      cases value with
      | pair bp => simp [generate_symbol_strings_loop] at h
      | int v =>
        simp only [generate_symbol_strings_loop] at h
        cases hc : numeric_cast_char v with
        | error e => simp [hc] at h
        | ok c =>
          simp only [hc] at h
          exact key ([c] ++ [SPACE]) ⟨c, hc, rfl⟩ h
    | BYTE_PAIR =>
      cases value with
      | int v => simp [generate_symbol_strings_loop] at h
      | pair bp =>
        obtain ⟨s1, s2⟩ := bp
        simp only [generate_symbol_strings_loop] at h
        cases h1 : vec_index strs0 s1 with
        | none => simp [h1] at h
        | some a =>
          cases h2 : vec_index strs0 s2 with
          | none => simp [h1, h2] at h
          | some b =>
            simp only [h1, h2] at h
            exact key (a ++ b) ⟨a, b, h1, h2, rfl⟩ h

/-! ## Decoding -/

theorem decode_loop_eq (strs : List CString) :
    ∀ (ids : List Int) (acc : CString),
      decode_loop strs ids acc =
        match render_ids strs ids with
        | some r => .ok (acc ++ r)
        | none => .error .undefined_behaviour := by
  intro ids
  induction ids with
  | nil => intro acc; simp [decode_loop, render_ids]
  | cons id rest ih =>
    intro acc
    simp only [decode_loop, render_ids]
    cases hv : vec_index strs id with
    | none => simp
    | some str =>
      simp only [ih]
      cases hr : render_ids strs rest with
      | none => simp
      | some r => simp

theorem render_ids_append (strs : List CString) :
    ∀ (a b : List Int),
      render_ids strs (a ++ b) =
        match render_ids strs a, render_ids strs b with
        | some x, some y => some (x ++ y)
        | _, _ => none := by
  intro a
  induction a with
  | nil =>
    intro b
    simp only [List.nil_append, render_ids]
    cases render_ids strs b <;> simp
  | cons id rest ih =>
    intro b
    have hi := ih b
    simp only [List.cons_append, render_ids, List.append_eq]
    rw [hi]
    cases vec_index strs id <;> cases render_ids strs rest <;> cases render_ids strs b <;> simp

theorem render_ids_substitute (strs : List CString) (l r s : Int) (a b : CString)
    (hl : vec_index strs l = some a) (hr : vec_index strs r = some b)
    (hs : vec_index strs s = some (a ++ b)) :
    ∀ (n : Nat) (v : List Int), v.length ≤ n →
      render_ids strs (substitute_byte_pair v (l, r) s) = render_ids strs v := by
  intro n
  induction n with
  | zero =>
    intro v hv
    cases v with
    | nil => rfl
    | cons x xs => simp at hv
  | succ n ih =>
    intro v hv
    match v with
    | [] => rfl
    | [x] => rfl
    | x :: y :: rest =>
      simp only [substitute_byte_pair]
      by_cases hxy : (x, y) = (l, r)
      · simp only [hxy, if_true, render_ids]
        simp only [Prod.mk.injEq] at hxy
        obtain ⟨rfl, rfl⟩ := hxy
        rw [ih rest (by simp at hv; omega)]
        simp only [hl, hr, hs]
        cases render_ids strs rest <;> simp
      · simp only [hxy, if_false]
        rw [render_ids, ih (y :: rest) (by simp at hv ⊢; omega)]
        rfl

theorem substitute_length_le (bp : BytePair) (s : Int) :
    ∀ (n : Nat) (v : List Int), v.length ≤ n →
      (substitute_byte_pair v bp s).length ≤ v.length ∧
      (0 < pair_occurrences bp v → (substitute_byte_pair v bp s).length < v.length) := by
  intro n
  induction n with
  | zero =>
    intro v hv
    cases v with
    | nil => simp [substitute_byte_pair, pair_occurrences]
    | cons x xs => simp at hv
  | succ n ih =>
    intro v hv
    match v with
    | [] => simp [substitute_byte_pair, pair_occurrences]
    | [x] => simp [substitute_byte_pair, pair_occurrences]
    | x :: y :: rest =>
      simp only [substitute_byte_pair, pair_occurrences]
      have h1 := ih rest (by simp at hv; omega)
      have h2 := ih (y :: rest) (by simp at hv ⊢; omega)
      simp only [List.length_cons] at h1 h2
      by_cases hxy : (x, y) = bp
      · simp only [hxy, if_true, List.length_cons]
        omega
      · simp only [hxy, if_false, List.length_cons, Nat.zero_add]
        omega

theorem substitute_ne_nil (bp : BytePair) (s : Int) (v : List Int) (h : v ≠ []) :
    substitute_byte_pair v bp s ≠ [] := by
  match v with
  | [] => exact absurd rfl h
  | [x] => simp [substitute_byte_pair]
  | x :: y :: rest =>
    simp only [substitute_byte_pair]
    split <;> simp

theorem min_bp_scan_spec (mp : List (Symbol × Int)) :
    ∀ (n : Nat) (v : List Int) (acc : BytePair × Int), v.length ≤ n →
      min_bp_scan mp v acc = acc ∨
        (umap_find mp (.pair (min_bp_scan mp v acc).1, .BYTE_PAIR) = some (min_bp_scan mp v acc).2 ∧
          0 < pair_occurrences (min_bp_scan mp v acc).1 v ∧
          (min_bp_scan mp v acc).2 < acc.2) := by
  intro n
  induction n with
  | zero =>
    intro v acc hv
    cases v with
    | nil => left; simp [min_bp_scan]
    | cons x xs => simp at hv
  | succ n ih =>
    intro v acc hv
    obtain ⟨min_bp, min_bp_symbol⟩ := acc
    match v with
    | [] => left; simp [min_bp_scan]
    | [x] => left; simp [min_bp_scan]
    | x :: y :: rest =>
      have hlen : (y :: rest).length ≤ n := by simp at hv ⊢; omega
      have hocc : ∀ bp : BytePair, pair_occurrences bp (y :: rest) ≤
          pair_occurrences bp (x :: y :: rest) := by
        intro bp; simp only [pair_occurrences]; omega
      cases hf : umap_find mp (.pair (x, y), .BYTE_PAIR) with
      | none =>
        have e : min_bp_scan mp (x :: y :: rest) (min_bp, min_bp_symbol) =
            min_bp_scan mp (y :: rest) (min_bp, min_bp_symbol) := by
          simp only [min_bp_scan, hf]
        rw [e]
        rcases ih (y :: rest) (min_bp, min_bp_symbol) hlen with h | ⟨h1, h2, h3⟩
        · exact Or.inl h
        · exact Or.inr ⟨h1, lt_of_lt_of_le h2 (hocc _), h3⟩
      | some s =>
        by_cases hlt : s < min_bp_symbol
        · have e : min_bp_scan mp (x :: y :: rest) (min_bp, min_bp_symbol) =
              min_bp_scan mp (y :: rest) ((x, y), s) := by
            simp only [min_bp_scan, hf, hlt, if_true]
          rw [e]
          rcases ih (y :: rest) ((x, y), s) hlen with h | ⟨h1, h2, h3⟩
          · right
            rw [h]
            exact ⟨hf, by simp [pair_occurrences], hlt⟩
          · right
            refine ⟨h1, lt_of_lt_of_le h2 (hocc _), ?_⟩
            simp only at h3 ⊢
            omega
        · have e : min_bp_scan mp (x :: y :: rest) (min_bp, min_bp_symbol) =
              min_bp_scan mp (y :: rest) (min_bp, min_bp_symbol) := by
            simp only [min_bp_scan, hf, hlt, if_false]
          rw [e]
          rcases ih (y :: rest) (min_bp, min_bp_symbol) hlen with h | ⟨h1, h2, h3⟩
          · exact Or.inl h
          · exact Or.inr ⟨h1, lt_of_lt_of_le h2 (hocc _), h3⟩

theorem encode_merge_loop_ok (m : ByteBPE) (hp : pairs_rendered m) :
    ∀ (fuel : Nat) (v : List Int), v.length ≤ fuel + 1 →
      ∃ r, encode_merge_loop m.bp_to_symbol fuel v = some r ∧
        render_ids m.symbol_to_string r = render_ids m.symbol_to_string v ∧
        (v ≠ [] → r ≠ []) := by
  intro fuel
  induction fuel with
  | zero =>
    intro v hv
    refine ⟨v, ?_, rfl, id⟩
    simp only [encode_merge_loop]
    rw [if_neg (by omega)]
  | succ fuel ih =>
    intro v hv
    simp only [encode_merge_loop]
    by_cases h1 : 1 < v.length
    · simp only [h1, if_true]
      by_cases h2 : (min_bp_scan m.bp_to_symbol v ((0, 0), INT_MAX)).2 = INT_MAX
      · simp only [h2, if_true]
        exact ⟨v, rfl, rfl, id⟩
      · rw [if_neg h2]
        rcases min_bp_scan_spec m.bp_to_symbol v.length v ((0, 0), INT_MAX) (le_refl _) with
          h | ⟨hfind, hocc, _⟩
        · rw [h] at h2; exact absurd rfl h2
        · generalize min_bp_scan m.bp_to_symbol v ((0, 0), INT_MAX) = res at hfind hocc h2 ⊢
          obtain ⟨⟨l, r⟩, s⟩ := res
          obtain ⟨a, b, ha, hb, hs⟩ := hp l r s hfind
          have hlen := (substitute_length_le (l, r) s v.length v (le_refl _)).2 hocc
          obtain ⟨res, hres, hrender, hne⟩ :=
            ih (substitute_byte_pair v (l, r) s) (by omega)
          refine ⟨res, hres, ?_, ?_⟩
          · rw [hrender]
            exact render_ids_substitute _ l r s a b ha hb hs v.length v (le_refl _)
          · intro _
            exact hne (substitute_ne_nil _ _ _ (by intro h; simp [h] at h1))
    · simp only [h1, if_false]
      exact ⟨v, rfl, rfl, id⟩

/-! ## Models built from a symbol table -/

theorem numeric_cast_char_to_int (c : CChar) : numeric_cast_char (char_to_int c) = .ok c := by
  obtain ⟨n, hn⟩ := c
  unfold numeric_cast_char char_to_int
  by_cases h : n < 128
  · simp only [h, if_true]
    rw [if_neg (by omega)]
    congr 1
    apply Fin.ext
    simp only [Fin.ofNat, Fin.val_mk]
    omega
  · simp only [h, if_false]
    rw [if_neg (by omega)]
    congr 1
    apply Fin.ext
    simp only [Fin.ofNat, Fin.val_mk]
    omega

theorem build_model_ok (table : List Symbol) (m : ByteBPE)
    (h : build_model table = (.ok (), m)) :
    m.symbol_mapping = table ∧
      m.bp_to_symbol = create_reverse_symbol_mapping_loop table 0 [] ∧
      generate_symbol_strings_loop table [] = (.ok (), m.symbol_to_string) := by
  simp only [build_model, ByteBPE.create_reverse_symbol_mapping, ByteBPE.generate_symbol_strings,
    ne_eq, not_true_eq_false, if_false, Prod.mk.injEq] at h
  obtain ⟨h1, h2⟩ := h
  subst h2
  exact ⟨rfl, rfl, Prod.ext h1 rfl⟩

theorem build_model_lookup (table : List Symbol) (m : ByteBPE)
    (h : build_model table = (.ok (), m)) (key : Symbol) (s : Int)
    (hf : umap_find m.bp_to_symbol key = some s) :
    ∃ str, vec_index m.symbol_to_string s = some str ∧ renders m.symbol_to_string key str ∧
      vec_index table s = some key := by
  obtain ⟨_, h2, h3⟩ := build_model_ok table m h
  rw [h2] at hf
  rcases create_reverse_loop_find table 0 [] key s hf with h0 | ⟨i, _, hid, hget⟩
  · simp [umap_find] at h0
  · obtain ⟨_, _, _, hall⟩ := generate_loop_ok table [] _ h3
    obtain ⟨str, hstr, hren⟩ := hall i key hget
    have hs : s = (i : Int) := by omega
    refine ⟨str, ?_, hren, ?_⟩
    · simpa [vec_index, hs] using hstr
    · simpa [vec_index, hs] using hget

theorem build_model_pairs_rendered (table : List Symbol) (m : ByteBPE)
    (h : build_model table = (.ok (), m)) : pairs_rendered m := by
  intro l r s hf
  obtain ⟨str, hstr, ⟨a, b, ha, hb, hab⟩, _⟩ := build_model_lookup table m h _ s hf
  exact ⟨a, b, ha, hb, by rw [hstr, hab]⟩

theorem build_model_bytes_rendered (table : List Symbol) (m : ByteBPE)
    (h : build_model table = (.ok (), m)) : bytes_rendered m := by
  intro c s
  constructor
  · intro hf
    obtain ⟨str, hstr, ⟨c2, hc2, hstr2⟩, _⟩ := build_model_lookup table m h _ s hf
    rw [numeric_cast_char_to_int] at hc2
    simp only [Except.ok.injEq] at hc2
    rw [hstr, hstr2, hc2]
  · intro hf
    obtain ⟨str, hstr, ⟨c2, hc2, hstr2⟩, _⟩ := build_model_lookup table m h _ s hf
    rw [numeric_cast_char_to_int] at hc2
    simp only [Except.ok.injEq] at hc2
    rw [hstr, hstr2, hc2]

/-! ## Encoding one token -/

theorem base_symbols_ok (m : ByteBPE) (hb : bytes_rendered m) :
    ∀ (t : CString), t ≠ [] →
      (∀ c ∈ t.dropLast, (umap_find m.bp_to_symbol (.int (char_to_int c), .INTERNAL)).isSome) →
      (∀ c, t.getLast? = some c →
        (umap_find m.bp_to_symbol (.int (char_to_int c), .FINAL)).isSome) →
      ∃ ids, base_symbols m.bp_to_symbol t = .ok ids ∧ ids.length = t.length ∧
        render_ids m.symbol_to_string ids = some (t ++ [SPACE]) := by
  intro t
  induction t with
  | nil => intro h; exact absurd rfl h
  | cons c rest ih =>
    intro _ hint hfin
    cases rest with
    | nil =>
      have hsome := hfin c (by simp)
      obtain ⟨s, hs⟩ := Option.isSome_iff_exists.mp hsome
      refine ⟨[s], by simp [base_symbols, umap_at, hs], rfl, ?_⟩
      simp [render_ids, (hb c s).2 hs]
    | cons c2 rest2 =>
      have hsome := hint c (by simp [List.dropLast])
      obtain ⟨s, hs⟩ := Option.isSome_iff_exists.mp hsome
      obtain ⟨ids, hids, hlen, hren⟩ := ih (by simp)
        (fun d hd => hint d (by simp only [List.dropLast_cons₂]; exact List.mem_cons_of_mem _ hd))
        (fun d hd => hfin d (by simpa using hd))
      refine ⟨s :: ids, by simp [base_symbols, umap_at, hs, hids], by simp [hlen], ?_⟩
      simp [render_ids, (hb c s).1 hs, hren]

theorem encode_token_ok (m : ByteBPE) (hb : bytes_rendered m) (hp : pairs_rendered m)
    (t : CString) (hne : t ≠ [])
    (hint : ∀ c ∈ t.dropLast,
      (umap_find m.bp_to_symbol (.int (char_to_int c), .INTERNAL)).isSome)
    (hfin : ∀ c, t.getLast? = some c →
      (umap_find m.bp_to_symbol (.int (char_to_int c), .FINAL)).isSome) :
    ∃ ids, m.encode_token t = .ok ids ∧ ids ≠ [] ∧
      render_ids m.symbol_to_string ids = some (t ++ [SPACE]) := by
  obtain ⟨base, hbase, hlen, hren⟩ := base_symbols_ok m hb t hne hint hfin
  obtain ⟨r, hr, hrr, hrne⟩ := encode_merge_loop_ok m hp t.length base (by omega)
  refine ⟨r, ?_, ?_, by rw [hrr, hren]⟩
  · simp [ByteBPE.encode_token, hbase, hr]
  · apply hrne
    intro h
    rw [h] at hlen
    exact hne (List.length_eq_zero.mp hlen.symm)

/-! ## Encoding a line -/

theorem getline_chars_token (delim : CChar) (t rest : CString) (h : delim ∉ t) :
    getline_chars delim t = (t, []) ∧
      getline_chars delim (t ++ delim :: rest) = (t, rest) := by
  induction t with
  | nil => simp [getline_chars]
  | cons c cs ih =>
    have hc : c ≠ delim := fun e => h (by simp [e])
    have hcs : delim ∉ cs := fun e => h (List.mem_cons_of_mem _ e)
    obtain ⟨h1, h2⟩ := ih hcs
    simp [getline_chars, hc, h1, h2]

theorem encode_line_loop_ok (m : ByteBPE) (hb : bytes_rendered m) (hp : pairs_rendered m) :
    ∀ (tokens : List CString), tokens ≠ [] →
      (∀ t ∈ tokens, t ≠ [] ∧ SPACE ∉ t) →
      (∀ t ∈ tokens, ∀ c ∈ t.dropLast,
        (umap_find m.bp_to_symbol (.int (char_to_int c), .INTERNAL)).isSome) →
      (∀ t ∈ tokens, ∀ c, t.getLast? = some c →
        (umap_find m.bp_to_symbol (.int (char_to_int c), .FINAL)).isSome) →
      ∀ (fuel : Nat) (acc : List Int),
        ([SPACE].intercalate tokens).length + 1 ≤ fuel →
        ∃ ids, encode_line_loop m fuel ([SPACE].intercalate tokens) acc = .ok (acc ++ ids) ∧
          render_ids m.symbol_to_string ids = some ([SPACE].intercalate tokens ++ [SPACE]) := by
  intro tokens
  induction tokens with
  | nil => intro h; exact absurd rfl h
  | cons t rest ih =>
    intro _ hwf hint hfin fuel acc hfuel
    obtain ⟨htne, hsp⟩ := hwf t (by simp)
    obtain ⟨e, he, _, hren⟩ :=
      encode_token_ok m hb hp t htne (hint t (by simp)) (hfin t (by simp))
    obtain ⟨g1, g2⟩ := getline_chars_token SPACE t ([SPACE].intercalate rest) hsp
    cases rest with
    | nil =>
      have hline : [SPACE].intercalate [t] = t := by simp [List.intercalate]
      rw [hline] at hfuel ⊢
      have htl : 0 < t.length := List.length_pos.mpr htne
      obtain ⟨f, rfl⟩ : ∃ f, fuel = f + 2 := ⟨fuel - 2, by omega⟩
      refine ⟨e, ?_, hren⟩
      simp [encode_line_loop, getline, htne, g1, he]
    | cons t2 rest2 =>
      have hline : [SPACE].intercalate (t :: t2 :: rest2) =
          t ++ SPACE :: [SPACE].intercalate (t2 :: rest2) := by
        simp [List.intercalate, List.intersperse]
      rw [hline] at hfuel ⊢
      obtain ⟨f, rfl⟩ : ∃ f, fuel = f + 1 := ⟨fuel - 1, by omega⟩
      obtain ⟨ids, hids, hren2⟩ := ih (by simp)
        (fun x hx => hwf x (List.mem_cons_of_mem _ hx))
        (fun x hx => hint x (List.mem_cons_of_mem _ hx))
        (fun x hx => hfin x (List.mem_cons_of_mem _ hx))
        f (acc ++ e) (by simp at hfuel ⊢; omega)
      refine ⟨e ++ ids, ?_, ?_⟩
      · have hne2 : t ++ SPACE :: [SPACE].intercalate (t2 :: rest2) ≠ [] := by simp
        simp only [encode_line_loop, getline, hne2, if_false, g2, he]
        rw [hids, List.append_assoc]
      · rw [render_ids_append, hren, hren2]
        simp

/-- C1: for a model built from its symbol table by `create_reverse_symbol_mapping`
and `generate_symbol_strings`, and a line of one or more non-empty, space-free
tokens joined by single spaces whose non-last bytes all have an `INTERNAL`
symbol and whose last bytes all have a `FINAL` symbol, `encode_line` succeeds
and `decode` of its result is the line followed by one space; and for each such
token `decode (encode_token t)` is `t` followed by one space. -/
theorem encode_decode_round_trip (table : List Symbol) (m : ByteBPE) (tokens : List CString)
    (hbuild : build_model table = (.ok (), m))
    (hne : tokens ≠ [])
    (hwf : ∀ t ∈ tokens, t ≠ [] ∧ SPACE ∉ t)
    (hint : ∀ t ∈ tokens, ∀ c ∈ t.dropLast,
      (umap_find m.bp_to_symbol (.int (char_to_int c), .INTERNAL)).isSome)
    (hfin : ∀ t ∈ tokens, ∀ c ∈ t.getLast?,
      (umap_find m.bp_to_symbol (.int (char_to_int c), .FINAL)).isSome) :
    (∃ ids, m.encode_line ([SPACE].intercalate tokens) = .ok ids ∧
      m.decode ids = .ok ([SPACE].intercalate tokens ++ [SPACE])) ∧
    ∀ t ∈ tokens, ∃ ids, m.encode_token t = .ok ids ∧ m.decode ids = .ok (t ++ [SPACE]) := by
  have hb := build_model_bytes_rendered table m hbuild
  have hp := build_model_pairs_rendered table m hbuild
  constructor
  · obtain ⟨ids, hids, hren⟩ := encode_line_loop_ok m hb hp tokens hne hwf hint
      (fun t ht c hc => hfin t ht c hc) _ [] (le_refl _)
    refine ⟨ids, by simpa [ByteBPE.encode_line] using hids, ?_⟩
    simp [ByteBPE.decode, decode_loop_eq, hren]
  · intro t ht
    obtain ⟨ids, hids, _, hren⟩ := encode_token_ok m hb hp t (hwf t ht).1 (hint t ht)
      (fun c hc => hfin t ht c hc)
    exact ⟨ids, hids, by simp [ByteBPE.decode, decode_loop_eq, hren]⟩

set_option maxRecDepth 8000 in
/-- Witness of C1: the line `ab b` on the model of `demo_table`. -/
theorem encode_decode_round_trip_witness :
    (∃ ids, demo_model.encode_line (cstr "ab b") = .ok ids ∧
      demo_model.decode ids = .ok (cstr "ab b ")) ∧
    ∀ t ∈ [cstr "ab", cstr "b"], ∃ ids, demo_model.encode_token t = .ok ids ∧
      demo_model.decode ids = .ok (t ++ [SPACE]) :=
  encode_decode_round_trip demo_table demo_model [cstr "ab", cstr "b"]
    (by decide) (by decide) (by decide) (by decide) (by decide)


/-! ## Loading a model file -/

theorem getline_chars_length (delim : CChar) (stream : CString) :
    (getline_chars delim stream).2.length ≤ stream.length - 1 := by
  induction stream with
  | nil => simp [getline_chars]
  | cons c cs ih =>
    simp only [getline_chars]
    split
    · simp
    · simp only [List.length_cons, Nat.add_sub_cancel]
      omega

theorem load_loop_eq_parse_lines :
    ∀ (fuel : Nat) (stream : CString) (symbol_id : Int) (sm : List Symbol),
      stream.length < fuel →
      load_loop fuel stream symbol_id sm =
        parse_lines ((read_lines fuel stream).map line_fields) symbol_id sm := by
  intro fuel
  induction fuel with
  | zero => intro stream _ _ h; omega
  | succ fuel ih =>
    intro stream symbol_id sm h
    simp only [load_loop, read_lines, getline]
    by_cases hs : stream = []
    · simp [hs, parse_lines]
    · simp only [hs, if_false, List.map_cons, parse_lines]
      have hlen := getline_chars_length NEWLINE stream
      have hpos : 0 < stream.length := List.length_pos.mpr hs
      cases hp : parse_symbol (line_fields (getline_chars NEWLINE stream).1) symbol_id with
      | error e => rfl
      | ok sym => exact ih _ _ _ (by omega)

theorem read_lines_fuel :
    ∀ (fuel fuel2 : Nat) (stream : CString), stream.length < fuel → stream.length < fuel2 →
      read_lines fuel stream = read_lines fuel2 stream := by
  intro fuel
  induction fuel with
  | zero => intro _ stream h; omega
  | succ fuel ih =>
    intro fuel2 stream h h2
    cases fuel2 with
    | zero => omega
    | succ fuel2 =>
      simp only [read_lines, getline]
      by_cases hs : stream = []
      · simp [hs]
      · simp only [hs, if_false]
        have hlen := getline_chars_length NEWLINE stream
        have hpos : 0 < stream.length := List.length_pos.mpr hs
        rw [ih fuel2 _ (by omega) (by omega)]

theorem parse_symbol_ok (f : List Int) (i : Nat) (sym : Symbol)
    (h : parse_symbol f i = .ok sym) : valid_line i f ∧ line_symbol f = some sym := by
  unfold parse_symbol at h
  split at h
  · rename_i t0 t1
    simp only [SymbolType.to_int] at h
    by_cases h0 : t1 = 0
    · subst h0
      simp only [ne_eq, not_true_eq_false, false_and, if_false, if_true, Except.ok.injEq] at h
      exact ⟨Or.inl ⟨t0, 0, rfl, Or.inl rfl⟩, by simp [line_symbol, h]⟩
    · by_cases h1 : t1 = 1
      · subst h1
        simp only [ne_eq, not_true_eq_false, and_false, if_false, one_ne_zero,
          Except.ok.injEq] at h
        exact ⟨Or.inl ⟨t0, 1, rfl, Or.inr rfl⟩, by simp [line_symbol, h]⟩
      · simp [h0, h1] at h
  · rename_i t0 t1 t2
    simp only [SymbolType.to_int] at h
    split at h
    · cases h
    · rename_i hc
      simp only [Except.ok.injEq] at h
      have h2 : t2 = 2 := by
        by_contra hne; exact hc (Or.inl hne)
      have hl : t0 < (i : Int) := by
        by_contra hne; exact hc (Or.inr (Or.inl (by omega)))
      have hr : t1 < (i : Int) := by
        by_contra hne; exact hc (Or.inr (Or.inr (by omega)))
      subst h2
      exact ⟨Or.inr ⟨t0, t1, rfl, hl, hr⟩, by simp [line_symbol, h]⟩
  · cases h

theorem parse_symbol_error (f : List Int) (i : Nat) (e : Error)
    (h : parse_symbol f i = .error e) : e = .malformatted ∧ ¬ valid_line i f := by
  unfold parse_symbol at h
  split at h
  · rename_i t0 t1
    simp only [SymbolType.to_int] at h
    split at h
    · rename_i hc
      simp only [Except.error.injEq] at h
      refine ⟨h.symm, ?_⟩
      rintro (⟨v, t, hf, ht⟩ | ⟨l, r, hf, _⟩)
      · simp only [List.cons.injEq, and_true] at hf
        obtain ⟨_, rfl⟩ := hf
        rcases ht with rfl | rfl
        · exact hc.1 rfl
        · exact hc.2 rfl
      · simp at hf
    · split at h <;> cases h
  · rename_i t0 t1 t2
    simp only [SymbolType.to_int] at h
    split at h
    · rename_i hc
      simp only [Except.error.injEq] at h
      refine ⟨h.symm, ?_⟩
      rintro (⟨v, t, hf, _⟩ | ⟨l, r, hf, hl, hr⟩)
      · simp at hf
      · simp only [List.cons.injEq, and_true] at hf
        obtain ⟨rfl, rfl, rfl⟩ := hf
        rcases hc with hc | hc | hc
        · exact hc rfl
        · omega
        · omega
    · cases h
  · rename_i hn2 hn3
    simp only [Except.error.injEq] at h
    refine ⟨h.symm, ?_⟩
    rintro (⟨v, t, hf, _⟩ | ⟨l, r, hf, _, _⟩)
    · exact hn2 v t hf
    · exact hn3 l r 2 hf

theorem parse_lines_spec :
    ∀ (fs : List (List Int)) (k : Nat) (sm : List Symbol),
      ((parse_lines fs k sm).1 = .ok () ∨ (parse_lines fs k sm).1 = .error .malformatted) ∧
      ((parse_lines fs k sm).1 = .error .malformatted ↔
        ∃ i f, fs[i]? = some f ∧ ¬ valid_line (k + i) f) ∧
      ((∀ i f, fs[i]? = some f → valid_line (k + i) f) →
        ((parse_lines fs k sm).2.map some = sm.map some ++ fs.map line_symbol)) := by
  intro fs
  induction fs with
  | nil =>
    intro k sm
    simp [parse_lines]
  | cons f rest ih =>
    intro k sm
    simp only [parse_lines]
    cases hp : parse_symbol f k with
    | error e =>
      obtain ⟨he, hbad⟩ := parse_symbol_error f k e hp
      subst he
      refine ⟨Or.inr rfl, ⟨fun _ => ⟨0, f, by simp, by simpa using hbad⟩, fun _ => rfl⟩, ?_⟩
      intro hall
      exact absurd (by simpa using hall 0 f (by simp)) hbad
    | ok sym =>
      obtain ⟨hv, hsym⟩ := parse_symbol_ok f k sym hp
      have key := ih (k + 1) (sm ++ [sym])
      have hcast : ((k : Int) + 1) = ((k + 1 : Nat) : Int) := by push_cast; rfl
      simp only [hcast]
      obtain ⟨k1, k2, k3⟩ := key
      refine ⟨k1, ?_, ?_⟩
      · rw [k2]
        constructor
        · rintro ⟨i, g, hg, hbad⟩
          exact ⟨i + 1, g, by simpa using hg, by
            have : k + (i + 1) = k + 1 + i := by omega
            rw [this]; exact hbad⟩
        · rintro ⟨i, g, hg, hbad⟩
          cases i with
          | zero =>
            simp only [List.getElem?_cons_zero, Option.some.injEq] at hg
            subst hg
            exact absurd hv (by simpa using hbad)
          | succ j =>
            refine ⟨j, g, by simpa using hg, ?_⟩
            have : k + 1 + j = k + (j + 1) := by omega
            rw [this]; exact hbad
      · intro hall
        rw [k3]
        · simp [hsym]
        · intro i g hg
          have := hall (i + 1) g (by simpa using hg)
          have e : k + 1 + i = k + (i + 1) := by omega
          rw [e]; exact this


theorem generate_loop_not_malformatted (table : List Symbol) :
    ∀ (strs : List CString),
      (generate_symbol_strings_loop table strs).1 ≠ .error .malformatted := by
  induction table with
  | nil => intro strs; simp [generate_symbol_strings_loop]
  | cons sym rest ih =>
    intro strs
    obtain ⟨value, type⟩ := sym
    cases type <;> cases value <;> simp only [generate_symbol_strings_loop]
    · simp
    · rename_i v
      cases hc : numeric_cast_char v with
      | ok c => exact ih _
      | error e =>
        unfold numeric_cast_char at hc
        split at hc
        · simp only [Except.error.injEq] at hc; subst hc; simp
        · cases hc
    · simp
    · rename_i v
      cases hc : numeric_cast_char v with
      | ok c => exact ih _
      | error e =>
        unfold numeric_cast_char at hc
        split at hc
        · simp only [Except.error.injEq] at hc; subst hc; simp
        · cases hc
    · rename_i bp
      obtain ⟨s1, s2⟩ := bp
      simp only []
      cases h1 : vec_index strs s1 <;> cases h2 : vec_index strs s2 <;> simp
      exact ih _
    · simp

theorem load_from_file_unfold (m : ByteBPE) (text : CString) (overwrite : Bool)
    (hgate : m.symbol_mapping = [] ∨ overwrite = true) :
    m.load_from_file (some text) overwrite =
      match parse_lines (file_fields text) 0 [] with
      | (.error e, symbol_mapping) => (.error e, ⟨symbol_mapping, [], []⟩)
      | (.ok (), symbol_mapping) => build_model symbol_mapping := by
  have hg : ¬ (m.symbol_mapping ≠ [] ∧ overwrite = false) := by
    rintro ⟨h1, h2⟩
    rcases hgate with h | h
    · exact h1 h
    · rw [h] at h2; cases h2
  simp only [ByteBPE.load_from_file, hg, if_false, ByteBPE.clear]
  rw [load_loop_eq_parse_lines _ _ _ _ (Nat.lt_succ_self _)]
  rfl

/-- C4: when the load reaches the parser (the file opens, and the object is
empty or `overwrite` is set), `load_from_file` raises the malformed-file error
if and only if some line, seen as its integer fields, at 0-based index `i` is
neither `[v, t]` with `t` in `{0, 1}` nor `[l, r, 2]` with `l < i` and `r < i`;
when no line is so, the symbol table it leaves holds exactly the symbols of the
lines, in line order; and a file whose third line reads `1 2 2` is rejected. -/
theorem load_validation_exact (m : ByteBPE) (text : CString) (overwrite : Bool)
    (hgate : m.symbol_mapping = [] ∨ overwrite = true) :
    ((m.load_from_file (some text) overwrite).1 = .error .malformatted ↔
      ∃ i f, (file_fields text)[i]? = some f ∧ ¬ valid_line i f) ∧
    ((∀ i f, (file_fields text)[i]? = some f → valid_line i f) →
      (m.load_from_file (some text) overwrite).2.symbol_mapping.map some =
        (file_fields text).map line_symbol) ∧
    ((file_fields text)[2]? = some [1, 2, 2] →
      (m.load_from_file (some text) overwrite).1 = .error .malformatted) := by
  have hspec := parse_lines_spec (file_fields text) 0 []
  simp only [Nat.cast_zero, Nat.zero_add, List.map_nil, List.nil_append] at hspec
  obtain ⟨h1, h2, h3⟩ := hspec
  have hiff : (m.load_from_file (some text) overwrite).1 = .error .malformatted ↔
      ∃ i f, (file_fields text)[i]? = some f ∧ ¬ valid_line i f := by
    rw [← h2, load_from_file_unfold m text overwrite hgate]
    generalize parse_lines (file_fields text) 0 [] = res
    obtain ⟨r, sm⟩ := res
    cases r with
    | error e => simp
    | ok u =>
      cases u
      simp only [build_model, ByteBPE.create_reverse_symbol_mapping,
        ByteBPE.generate_symbol_strings, ne_eq, not_true_eq_false, if_false]
      constructor
      · intro h
        exact absurd h (generate_loop_not_malformatted _ _)
      · intro h
        cases h
  refine ⟨hiff, ?_, ?_⟩
  · intro hall
    rw [← h3 hall, load_from_file_unfold m text overwrite hgate]
    have hok : (parse_lines (file_fields text) 0 []).1 = .ok () := by
      rcases h1 with h | h
      · exact h
      · obtain ⟨i, f, hf, hbad⟩ := h2.mp h
        exact absurd (hall i f hf) hbad
    generalize parse_lines (file_fields text) 0 [] = res at hok
    obtain ⟨r, sm⟩ := res
    simp only at hok
    subst hok
    simp [build_model, ByteBPE.create_reverse_symbol_mapping, ByteBPE.generate_symbol_strings]
  · intro h
    rw [hiff]
    refine ⟨2, [1, 2, 2], h, ?_⟩
    rintro (⟨v, t, hf, _⟩ | ⟨l, r, hf, _, hr⟩)
    · simp at hf
    · simp only [List.cons.injEq, and_true] at hf
      obtain ⟨_, rfl⟩ := hf
      simp at hr

/-- Witness of C4: the file `97 0`, `98 1`, `1 2 2` loaded into an empty object. -/
theorem load_validation_exact_witness :
    ((ByteBPE.empty.load_from_file (some (cstr "97 0\n98 1\n1 2 2\n")) false).1 =
        .error .malformatted ↔
      ∃ i f, (file_fields (cstr "97 0\n98 1\n1 2 2\n"))[i]? = some f ∧ ¬ valid_line i f) ∧
    ((∀ i f, (file_fields (cstr "97 0\n98 1\n1 2 2\n"))[i]? = some f → valid_line i f) →
      (ByteBPE.empty.load_from_file
          (some (cstr "97 0\n98 1\n1 2 2\n")) false).2.symbol_mapping.map some =
        (file_fields (cstr "97 0\n98 1\n1 2 2\n")).map line_symbol) ∧
    ((file_fields (cstr "97 0\n98 1\n1 2 2\n"))[2]? = some [1, 2, 2] →
      (ByteBPE.empty.load_from_file (some (cstr "97 0\n98 1\n1 2 2\n")) false).1 =
        .error .malformatted) :=
  load_validation_exact ByteBPE.empty (cstr "97 0\n98 1\n1 2 2\n") false (Or.inl rfl)

/-- C5: on an object whose symbol table is not empty, `load_from_file` with
`overwrite = false` fails with the refusal error and leaves the three members
as they were; with `overwrite = true` the outcome and the resulting object are
those of loading the same file into an empty object. -/
theorem overwrite_protection (m : ByteBPE) (text : CString) (h : m.symbol_mapping ≠ []) :
    m.load_from_file (some text) false = (.error .overwrite_refused, m) ∧
    m.load_from_file (some text) true = ByteBPE.empty.load_from_file (some text) false ∧
    m.load_from_file (some text) true = ByteBPE.empty.load_from_file (some text) true := by
  refine ⟨by simp [ByteBPE.load_from_file, h], ?_, ?_⟩
  · rw [load_from_file_unfold m text true (Or.inr rfl),
      load_from_file_unfold ByteBPE.empty text false (Or.inl rfl)]
  · rw [load_from_file_unfold m text true (Or.inr rfl),
      load_from_file_unfold ByteBPE.empty text true (Or.inr rfl)]

/-- Witness of C5: loading the file `120 1` over the model of `demo_table`. -/
theorem overwrite_protection_witness :
    demo_model.load_from_file (some (cstr "120 1\n")) false =
      (.error .overwrite_refused, demo_model) ∧
    demo_model.load_from_file (some (cstr "120 1\n")) true =
      ByteBPE.empty.load_from_file (some (cstr "120 1\n")) false ∧
    demo_model.load_from_file (some (cstr "120 1\n")) true =
      ByteBPE.empty.load_from_file (some (cstr "120 1\n")) true :=
  overwrite_protection demo_model (cstr "120 1\n") (by decide)


/-! ## Decimal text of integers -/

theorem digit_char_val (d : Nat) (h : d < 10) : (digit_char d).val = 48 + d := by
  simp only [digit_char, Fin.ofNat, Fin.val_mk]
  omega

theorem digit_char_is_digit (d : Nat) (h : d < 10) : is_digit (digit_char d) = true := by
  simp only [is_digit, digit_char_val d h, Bool.and_eq_true, decide_eq_true_eq]
  omega

theorem read_digits_append (rest : CString)
    (hrest : ∀ c cs, rest = c :: cs → is_digit c = false) :
    ∀ (xs : CString) (k : Nat), (∀ c ∈ xs, is_digit c = true) →
      read_digits (xs ++ rest) k = (digits_value xs k, rest) := by
  intro xs
  induction xs with
  | nil =>
    intro k _
    cases rest with
    | nil => simp [read_digits, digits_value]
    | cons c cs => simp [read_digits, digits_value, hrest c cs rfl]
  | cons x xs ih =>
    intro k hx
    simp only [List.cons_append, read_digits, hx x (by simp), if_true, List.append_eq]
    rw [ih _ (fun c hc => hx c (List.mem_cons_of_mem _ hc))]
    simp [digits_value]

theorem render_nat_loop_spec :
    ∀ (fuel n : Nat), n < fuel →
      (∀ c ∈ render_nat_loop fuel n, is_digit c = true) ∧
      render_nat_loop fuel n ≠ [] ∧
      digits_value (render_nat_loop fuel n) 0 = n := by
  intro fuel
  induction fuel with
  | zero => intro n h; omega
  | succ fuel ih =>
    intro n h
    simp only [render_nat_loop]
    by_cases h10 : n < 10
    · simp only [h10, if_true]
      refine ⟨?_, by simp, ?_⟩
      · intro c hc
        simp only [List.mem_singleton] at hc
        subst hc
        exact digit_char_is_digit n h10
      · simp [digits_value, digit_char_val n h10]
    · simp only [h10, if_false]
      obtain ⟨h1, h2, h3⟩ := ih (n / 10) (by omega)
      have hmod : n % 10 < 10 := Nat.mod_lt _ (by omega)
      refine ⟨?_, by simp, ?_⟩
      · intro c hc
        simp only [List.mem_append, List.mem_singleton] at hc
        rcases hc with hc | hc
        · exact h1 c hc
        · subst hc; exact digit_char_is_digit _ hmod
      · unfold digits_value at h3 ⊢
        rw [List.foldl_append, h3]
        simp only [List.foldl_cons, List.foldl_nil, digit_char_val _ hmod]
        omega

theorem is_digit_not_space (c : CChar) (h : is_digit c = true) : is_space c = false := by
  simp only [is_digit, Bool.and_eq_true, decide_eq_true_eq] at h
  simp only [is_space, Bool.or_eq_false_iff, decide_eq_false_iff_not, Bool.and_eq_false_iff]
  omega

theorem read_int_render (v : Int) (hlo : INT_MIN ≤ v) (hhi : v ≤ INT_MAX) (rest : CString)
    (hrest : ∀ c cs, rest = c :: cs → is_digit c = false) :
    read_int (render_int v ++ rest) = some (v, rest) := by
  obtain ⟨hd, hne, hval⟩ := render_nat_loop_spec (v.natAbs + 1) v.natAbs (Nat.lt_succ_self _)
  have hread := read_digits_append rest hrest _ 0 hd
  rw [hval] at hread
  unfold render_int
  by_cases hneg : v < 0
  · simp only [hneg, if_true, List.cons_append]
    have hms : is_space MINUS = false := by decide
    simp only [read_int, skip_space, hms, if_true, Bool.false_eq_true, if_false]
    obtain ⟨d, ds, hds⟩ := List.exists_cons_of_ne_nil hne
    have hdd : is_digit d = true := hd d (by rw [hds]; simp)
    simp only [read_signed]
    rw [hds] at hread ⊢
    simp only [List.cons_append] at hread ⊢
    simp only [hdd, if_true, hread]
    have e : -((v.natAbs : Nat) : Int) = v := by omega
    rw [e, if_pos hlo]
  · simp only [hneg, if_false]
    obtain ⟨d, ds, hds⟩ := List.exists_cons_of_ne_nil hne
    have hdd : is_digit d = true := hd d (by rw [hds]; simp)
    have hsp := is_digit_not_space d hdd
    have hdm : d ≠ MINUS := by
      intro e; rw [e] at hdd; revert hdd; decide
    have hdp : d ≠ PLUS := by
      intro e; rw [e] at hdd; revert hdd; decide
    rw [hds] at hread ⊢
    simp only [List.cons_append] at hread ⊢
    simp only [read_int, skip_space, hsp, Bool.false_eq_true, if_false, hdm, hdp, read_signed,
      hdd, if_true, hread]
    have e : ((v.natAbs : Nat) : Int) = v := by omega
    rw [e, if_pos hhi]

theorem read_int_space (s : CString) : read_int (SPACE :: s) = read_int s := by
  have h : is_space SPACE = true := by decide
  simp [read_int, skip_space, h]

theorem render_int_chars (v : Int) :
    render_int v ≠ [] ∧ ∀ c ∈ render_int v, c = MINUS ∨ is_digit c = true := by
  obtain ⟨hd, hne, _⟩ := render_nat_loop_spec (v.natAbs + 1) v.natAbs (Nat.lt_succ_self _)
  unfold render_int
  split
  · refine ⟨by simp, ?_⟩
    intro c hc
    simp only [List.mem_cons] at hc
    rcases hc with hc | hc
    · exact Or.inl hc
    · exact Or.inr (hd c hc)
  · exact ⟨hne, fun c hc => Or.inr (hd c hc)⟩

theorem fields_text_chars :
    ∀ (fs : List Int), ∀ c ∈ fields_text fs, c = MINUS ∨ c = SPACE ∨ is_digit c = true := by
  intro fs
  induction fs with
  | nil => simp [fields_text]
  | cons x rest ih =>
    cases rest with
    | nil =>
      intro c hc
      rcases (render_int_chars x).2 c hc with h | h
      · exact Or.inl h
      · exact Or.inr (Or.inr h)
    | cons y rest2 =>
      intro c hc
      simp only [fields_text, List.mem_append, List.mem_cons] at hc
      rcases hc with hc | hc | hc
      · rcases (render_int_chars x).2 c hc with h | h
        · exact Or.inl h
        · exact Or.inr (Or.inr h)
      · exact Or.inr (Or.inl hc)
      · exact ih c hc

theorem read_ints_fields_text :
    ∀ (fs : List Int) (fuel : Nat), fs.length < fuel →
      (∀ x ∈ fs, INT_MIN ≤ x ∧ x ≤ INT_MAX) →
      read_ints fuel (fields_text fs) = fs := by
  intro fs
  induction fs with
  | nil =>
    intro fuel hf _
    obtain ⟨f, rfl⟩ : ∃ f, fuel = f + 1 := ⟨fuel - 1, by simp at hf; omega⟩
    simp [read_ints, fields_text, read_int, skip_space]
  | cons x rest ih =>
    intro fuel hf hr
    obtain ⟨f, rfl⟩ : ∃ f, fuel = f + 1 := ⟨fuel - 1, by simp at hf; omega⟩
    obtain ⟨hlo, hhi⟩ := hr x (by simp)
    cases rest with
    | nil =>
      obtain ⟨g, rfl⟩ : ∃ g, f = g + 1 := ⟨f - 1, by simp at hf; omega⟩
      have h := read_int_render x hlo hhi [] (by simp)
      simp only [List.append_nil] at h
      have h0 : read_int [] = none := by simp [read_int, skip_space]
      simp only [read_ints, fields_text, h, h0]
    | cons y rest2 =>
      have hsp : ∀ c cs, SPACE :: fields_text (y :: rest2) = c :: cs → is_digit c = false := by
        intro c cs h
        simp only [List.cons.injEq] at h
        rw [← h.1]; decide
      have h := read_int_render x hlo hhi (SPACE :: fields_text (y :: rest2)) hsp
      simp only [read_ints, fields_text, h]
      have ih2 := ih f (by simp at hf ⊢; omega) (fun z hz => hr z (List.mem_cons_of_mem _ hz))
      cases f with
      | zero => simp at hf
      | succ g =>
        simp only [read_ints, read_int_space] at ih2 ⊢
        rw [ih2]


/-! ## Saving, and loading what was saved -/

theorem save_loop_ok :
    ∀ (table : List Symbol) (out : CString), (∀ s ∈ table, well_shaped s) →
      save_loop table out = (.ok (), out ++ table_text table) := by
  intro table
  induction table with
  | nil => intro out _; simp [save_loop, table_text]
  | cons sym rest ih =>
    intro out h
    have hs := h sym (by simp)
    have hrest := fun s hs => h s (List.mem_cons_of_mem _ hs)
    obtain ⟨value, type⟩ := sym
    cases type <;> cases value <;> simp only [well_shaped] at hs
    · simp only [save_loop, ih _ hrest, table_text, symbol_fields, fields_text]
      simp
    · simp only [save_loop, ih _ hrest, table_text, symbol_fields, fields_text]
      simp
    · rename_i bp
      obtain ⟨l, r⟩ := bp
      simp only [save_loop, ih _ hrest, table_text, symbol_fields, fields_text]
      simp

theorem fields_text_length : ∀ (fs : List Int), fs.length ≤ (fields_text fs).length := by
  intro fs
  induction fs with
  | nil => simp
  | cons x rest ih =>
    have hx : 0 < (render_int x).length := List.length_pos.mpr (render_int_chars x).1
    cases rest with
    | nil => simp only [fields_text, List.length_singleton]; omega
    | cons y rest2 =>
      simp only [fields_text, List.length_append, List.length_cons] at ih ⊢
      omega

theorem fields_text_no_newline (fs : List Int) : NEWLINE ∉ fields_text fs := by
  intro h
  rcases fields_text_chars fs NEWLINE h with h | h | h
  · revert h; decide
  · revert h; decide
  · revert h; decide

theorem read_lines_table_text :
    ∀ (table : List Symbol) (fuel : Nat), (table_text table).length < fuel →
      read_lines fuel (table_text table) =
        table.map (fun s => fields_text (symbol_fields s)) := by
  intro table
  induction table with
  | nil =>
    intro fuel h
    obtain ⟨f, rfl⟩ : ∃ f, fuel = f + 1 := ⟨fuel - 1, by simp [table_text] at h; omega⟩
    simp [read_lines, table_text, getline]
  | cons sym rest ih =>
    intro fuel h
    obtain ⟨f, rfl⟩ : ∃ f, fuel = f + 1 := ⟨fuel - 1, by omega⟩
    have g := (getline_chars_token NEWLINE (fields_text (symbol_fields sym)) (table_text rest)
      (fields_text_no_newline _)).2
    have hne : fields_text (symbol_fields sym) ++ NEWLINE :: table_text rest ≠ [] := by simp
    simp only [read_lines, table_text, getline, hne, if_false, g, List.map_cons]
    rw [ih f (by simp [table_text] at h; omega)]

theorem file_fields_table_text (table : List Symbol) (h : int32_table table) :
    file_fields (table_text table) = table.map symbol_fields := by
  unfold file_fields file_lines
  rw [read_lines_table_text table _ (Nat.lt_succ_self _), List.map_map]
  apply List.map_congr_left
  intro s hs
  simp only [Function.comp, line_fields]
  exact read_ints_fields_text _ _ (by have := fields_text_length (symbol_fields s); omega)
    (h s hs)

theorem parse_lines_symbol_fields :
    ∀ (table : List Symbol) (k : Nat) (sm : List Symbol),
      (∀ s ∈ table, well_shaped s) →
      (∀ (i : Nat) l r t, table[i]? = some (.pair (l, r), t) →
        l < ((k + i : Nat) : Int) ∧ r < ((k + i : Nat) : Int)) →
      parse_lines (table.map symbol_fields) k sm = (.ok (), sm ++ table) := by
  intro table
  induction table with
  | nil => intro k sm _ _; simp [parse_lines]
  | cons sym rest ih =>
    intro k sm hws hac
    have hs := hws sym (by simp)
    have hrest := fun s hs => hws s (List.mem_cons_of_mem _ hs)
    have hac2 : ∀ (i : Nat) l r t, rest[i]? = some (.pair (l, r), t) →
        l < ((k + 1 + i : Nat) : Int) ∧ r < ((k + 1 + i : Nat) : Int) := by
      intro i l r t hi
      have := hac (i + 1) l r t (by simpa using hi)
      have e : k + (i + 1) = k + 1 + i := by omega
      rwa [e] at this
    have hcast : ((k : Int) + 1) = ((k + 1 : Nat) : Int) := by push_cast; rfl
    obtain ⟨value, type⟩ := sym
    cases type <;> cases value <;> simp only [well_shaped] at hs
    · simp only [List.map_cons, parse_lines, symbol_fields, parse_symbol, SymbolType.to_int]
      simp only [ne_eq, not_true_eq_false, false_and, if_false, if_true, hcast]
      rw [ih (k + 1) _ hrest hac2]
      simp
    · simp only [List.map_cons, parse_lines, symbol_fields, parse_symbol, SymbolType.to_int]
      simp only [ne_eq, not_true_eq_false, and_false, if_false, one_ne_zero, hcast]
      rw [ih (k + 1) _ hrest hac2]
      simp
    · rename_i bp
      obtain ⟨l, r⟩ := bp
      obtain ⟨hl, hr⟩ := hac 0 l r .BYTE_PAIR (by simp)
      simp only [Nat.add_zero] at hl hr
      simp only [List.map_cons, parse_lines, symbol_fields, parse_symbol, SymbolType.to_int]
      have hc : ¬ ((2 : Int) ≠ 2 ∨ l ≥ (k : Int) ∨ r ≥ (k : Int)) := by
        rintro (h | h | h)
        · exact h rfl
        · omega
        · omega
      simp only [hc, if_false, hcast]
      rw [ih (k + 1) _ hrest hac2]
      simp

theorem generate_loop_acyclic (table : List Symbol) :
    ∀ (strs0 strs : List CString),
      generate_symbol_strings_loop table strs0 = (.ok (), strs) →
      (∀ s ∈ table, well_shaped s) ∧
      (∀ s ∈ table, ∀ v t, s = (.int v, t) → -128 ≤ v ∧ v ≤ 127) ∧
      ∀ (i : Nat) l r t, table[i]? = some (.pair (l, r), t) →
        (0 ≤ l ∧ l < ((strs0.length + i : Nat) : Int)) ∧
        (0 ≤ r ∧ r < ((strs0.length + i : Nat) : Int)) := by
  induction table with
  | nil => intro strs0 strs _; simp
  | cons sym rest ih =>
    intro strs0 strs h
    obtain ⟨value, type⟩ := sym
    have key : ∀ (s : CString), well_shaped (value, type) →
        (∀ v t, (value, type) = (.int v, t) → -128 ≤ v ∧ v ≤ 127) →
        (∀ l r t, (value, type) = (.pair (l, r), t) →
          (0 ≤ l ∧ l < (strs0.length : Int)) ∧ (0 ≤ r ∧ r < (strs0.length : Int))) →
        generate_symbol_strings_loop rest (strs0 ++ [s]) = (.ok (), strs) →
        (∀ s ∈ (value, type) :: rest, well_shaped s) ∧
        (∀ s ∈ (value, type) :: rest, ∀ v t, s = (.int v, t) → -128 ≤ v ∧ v ≤ 127) ∧
        ∀ (i : Nat) l r t, ((value, type) :: rest)[i]? = some (.pair (l, r), t) →
          (0 ≤ l ∧ l < ((strs0.length + i : Nat) : Int)) ∧
          (0 ≤ r ∧ r < ((strs0.length + i : Nat) : Int)) := by
      intro s hws hint hpair hloop
      obtain ⟨h1, h2, h3⟩ := ih _ _ hloop
      refine ⟨?_, ?_, ?_⟩
      · intro x hx
        rcases List.mem_cons.mp hx with rfl | hx
        · exact hws
        · exact h1 x hx
      · intro x hx v t hxe
        rcases List.mem_cons.mp hx with rfl | hx
        · exact hint v t hxe
        · exact h2 x hx v t hxe
      · intro i l r t hi
        cases i with
        | zero =>
          simp only [List.getElem?_cons_zero, Option.some.injEq] at hi
          simpa using hpair l r t hi
        | succ j =>
          have := h3 j l r t (by simpa using hi)
          simp only [List.length_append, List.length_singleton] at this
          have e : strs0.length + (j + 1) = strs0.length + 1 + j := by omega
          rw [e]; exact this
    have hcast : ∀ v c, numeric_cast_char v = .ok c → -128 ≤ v ∧ v ≤ 127 := by
      intro v c hc
      unfold numeric_cast_char at hc
      split at hc
      · cases hc
      · omega
    have hvi : ∀ (x : Int) (a : CString), vec_index strs0 x = some a →
        0 ≤ x ∧ x < (strs0.length : Int) := by
      intro x a hx
      unfold vec_index at hx
      split at hx
      · rename_i h0
        have hlt : x.toNat < strs0.length := by
          by_contra hc
          rw [List.getElem?_eq_none (by omega)] at hx
          cases hx
        omega
      · cases hx
    cases type with
    | INTERNAL =>
      cases value with
      | pair bp => simp [generate_symbol_strings_loop] at h
      | int v =>
        simp only [generate_symbol_strings_loop] at h
        cases hc : numeric_cast_char v with
        | error e => simp [hc] at h
        | ok c =>
          simp only [hc] at h
          refine key [c] trivial ?_ ?_ h
          · intro v2 t2 he
            simp only [Prod.mk.injEq, SymbolValue.int.injEq] at he
            rw [← he.1]; exact hcast v c hc
          · intro l r t he; simp at he
    | FINAL =>
      cases value with
      | pair bp => simp [generate_symbol_strings_loop] at h
      | int v =>
        simp only [generate_symbol_strings_loop] at h
        cases hc : numeric_cast_char v with
        | error e => simp [hc] at h
        | ok c =>
          simp only [hc] at h
          refine key ([c] ++ [SPACE]) trivial ?_ ?_ h
          · intro v2 t2 he
            simp only [Prod.mk.injEq, SymbolValue.int.injEq] at he
            rw [← he.1]; exact hcast v c hc
          · intro l r t he; simp at he
    | BYTE_PAIR =>
      cases value with
      | int v => simp [generate_symbol_strings_loop] at h
      | pair bp =>
        obtain ⟨s1, s2⟩ := bp
        simp only [generate_symbol_strings_loop] at h
        cases h1 : vec_index strs0 s1 with
        | none => simp [h1] at h
        | some a =>
          cases h2 : vec_index strs0 s2 with
          | none => simp [h1, h2] at h
          | some b =>
            simp only [h1, h2] at h
            refine key (a ++ b) trivial ?_ ?_ h
            · intro v2 t2 he; simp at he
            · intro l r t he
              simp only [Prod.mk.injEq, SymbolValue.pair.injEq] at he
              obtain ⟨⟨rfl, rfl⟩, _⟩ := he
              exact ⟨hvi _ _ h1, hvi _ _ h2⟩

theorem build_model_symbol_mapping (table : List Symbol) :
    (build_model table).2.symbol_mapping = table := by
  simp [build_model, ByteBPE.create_reverse_symbol_mapping, ByteBPE.generate_symbol_strings]

theorem save_load_core (M prev : ByteBPE) (overwrite : Bool)
    (hb : build_model M.symbol_mapping = (.ok (), M))
    (hr : ∀ l r t, (SymbolValue.pair (l, r), t) ∈ M.symbol_mapping → l ≤ INT_MAX ∧ r ≤ INT_MAX)
    (hgate : prev.symbol_mapping = [] ∨ overwrite = true) :
    M.save_to_file true = (.ok (), table_text M.symbol_mapping) ∧
    prev.load_from_file (some (table_text M.symbol_mapping)) overwrite = (.ok (), M) := by
  obtain ⟨_, _, hgen⟩ := build_model_ok _ _ hb
  obtain ⟨hws, hint, hac⟩ := generate_loop_acyclic _ _ _ hgen
  have h32 : int32_table M.symbol_mapping := by
    intro sym hsym x hx
    obtain ⟨value, type⟩ := sym
    have ht : INT_MIN ≤ type.to_int ∧ type.to_int ≤ INT_MAX := by
      cases type <;> simp [SymbolType.to_int, INT_MIN, INT_MAX]
    cases value with
    | int v =>
      obtain ⟨h1, h2⟩ := hint _ hsym v type rfl
      simp only [symbol_fields, List.mem_cons, List.mem_singleton, List.not_mem_nil,
        or_false] at hx
      rcases hx with rfl | rfl
      · simp only [INT_MIN, INT_MAX]; omega
      · exact ht
    | pair bp =>
      obtain ⟨l, r⟩ := bp
      obtain ⟨i, hi⟩ := List.getElem?_of_mem hsym
      obtain ⟨⟨hl0, _⟩, ⟨hr0, _⟩⟩ := hac i l r type hi
      obtain ⟨hl1, hr1⟩ := hr l r type hsym
      simp only [symbol_fields, List.mem_cons, List.mem_singleton, List.not_mem_nil,
        or_false] at hx
      rcases hx with rfl | rfl | rfl
      · simp only [INT_MIN]; omega
      · simp only [INT_MIN]; omega
      · exact ht
  refine ⟨by simp [ByteBPE.save_to_file, save_loop_ok _ _ hws], ?_⟩
  have hp := parse_lines_symbol_fields M.symbol_mapping 0 [] hws
  simp only [Nat.cast_zero, List.nil_append] at hp
  rw [load_from_file_unfold prev _ overwrite hgate, file_fields_table_text _ h32, hp]
  · simpa using hb
  · intro i l r t hi
    obtain ⟨⟨_, hl⟩, ⟨_, hr⟩⟩ := hac i l r t hi
    simp only [List.length_nil, Nat.zero_add] at hl hr
    simp only [Nat.zero_add]
    exact ⟨hl, hr⟩


theorem read_signed_range (negative : Bool) (body : CString) (v : Int) (rest : CString)
    (h : read_signed negative body = some (v, rest)) : INT_MIN ≤ v ∧ v ≤ INT_MAX := by
  unfold read_signed at h
  split at h
  · cases h
  · split at h
    · split at h
      · split at h
        · simp only [Option.some.injEq, Prod.mk.injEq] at h
          rename_i hlo
          rw [← h.1]
          refine ⟨hlo, ?_⟩
          simp only [INT_MAX]
          omega
        · cases h
      · split at h
        · simp only [Option.some.injEq, Prod.mk.injEq] at h
          rename_i hhi
          rw [← h.1]
          refine ⟨?_, hhi⟩
          simp only [INT_MIN]
          omega
        · cases h
    · cases h

theorem read_int_range (s : CString) (v : Int) (rest : CString)
    (h : read_int s = some (v, rest)) : INT_MIN ≤ v ∧ v ≤ INT_MAX := by
  unfold read_int at h
  split at h
  · cases h
  · split at h
    · exact read_signed_range _ _ _ _ h
    · split at h
      · exact read_signed_range _ _ _ _ h
      · exact read_signed_range _ _ _ _ h

theorem read_ints_range :
    ∀ (fuel : Nat) (s : CString), ∀ x ∈ read_ints fuel s, INT_MIN ≤ x ∧ x ≤ INT_MAX := by
  intro fuel
  induction fuel with
  | zero => intro s x hx; simp [read_ints] at hx
  | succ fuel ih =>
    intro s x hx
    simp only [read_ints] at hx
    cases hr : read_int s with
    | none => simp [hr] at hx
    | some p =>
      obtain ⟨v, rest⟩ := p
      simp only [hr, List.mem_cons] at hx
      rcases hx with rfl | hx
      · exact read_int_range s _ rest hr
      · exact ih rest x hx

theorem parse_symbol_line_symbol (f : List Int) (k : Int) (sym : Symbol)
    (hp : parse_symbol f k = .ok sym) : line_symbol f = some sym := by
  unfold parse_symbol at hp
  split at hp
  · rename_i t0 t1
    simp only [SymbolType.to_int] at hp
    split at hp
    · cases hp
    · split at hp
      · rename_i h0
        simp only [Except.ok.injEq] at hp
        simp [line_symbol, h0, hp]
      · rename_i hc h0
        simp only [Except.ok.injEq] at hp
        have h1 : t1 = (1 : Int) := by
          by_contra hne
          exact hc ⟨h0, hne⟩
        simp [line_symbol, h1, hp]
  · rename_i t0 t1 t2
    simp only [SymbolType.to_int] at hp
    split at hp
    · cases hp
    · rename_i hc
      simp only [Except.ok.injEq] at hp
      have h2 : t2 = (2 : Int) := by
        by_contra hne
        exact hc (Or.inl hne)
      simp [line_symbol, h2, hp]
  · cases hp

theorem parse_lines_mem :
    ∀ (fs : List (List Int)) (k : Int) (sm : List Symbol),
      ∀ sym ∈ (parse_lines fs k sm).2, sym ∈ sm ∨ ∃ f ∈ fs, line_symbol f = some sym := by
  intro fs
  induction fs with
  | nil => intro k sm sym h; exact Or.inl h
  | cons f rest ih =>
    intro k sm sym h
    simp only [parse_lines] at h
    cases hp : parse_symbol f k with
    | error e =>
      simp only [hp] at h
      exact Or.inl h
    | ok s0 =>
      simp only [hp] at h
      rcases ih _ _ sym h with h1 | ⟨g, hg, hsym⟩
      · simp only [List.mem_append, List.mem_singleton] at h1
        rcases h1 with h1 | rfl
        · exact Or.inl h1
        · right
          refine ⟨f, by simp, ?_⟩
          exact parse_symbol_line_symbol f k _ hp
      · exact Or.inr ⟨g, List.mem_cons_of_mem _ hg, hsym⟩

theorem load_from_file_ok (m0 M : ByteBPE) (file : Option CString) (ow : Bool)
    (h : m0.load_from_file file ow = (.ok (), M)) :
    build_model M.symbol_mapping = (.ok (), M) ∧
    ∀ l r t, (SymbolValue.pair (l, r), t) ∈ M.symbol_mapping → l ≤ INT_MAX ∧ r ≤ INT_MAX := by
  cases file with
  | none => simp [ByteBPE.load_from_file] at h
  | some text =>
    by_cases hg : m0.symbol_mapping ≠ [] ∧ ow = false
    · simp [ByteBPE.load_from_file, hg] at h
    · have hgate : m0.symbol_mapping = [] ∨ ow = true := by
        by_cases h1 : m0.symbol_mapping = []
        · exact Or.inl h1
        · right
          cases ow with
          | true => rfl
          | false => exact absurd ⟨h1, rfl⟩ hg
      rw [load_from_file_unfold m0 text ow hgate] at h
      have hmem := parse_lines_mem (file_fields text) 0 []
      generalize parse_lines (file_fields text) 0 [] = res at h hmem
      obtain ⟨r, sm⟩ := res
      cases r with
      | error e => simp at h
      | ok u =>
        cases u
        simp only at h hmem
        have hsm : M.symbol_mapping = sm := (build_model_ok sm M h).1
        rw [hsm]
        refine ⟨h, ?_⟩
        intro l r t hin
        rcases hmem _ hin with h0 | ⟨f, hf, hsym⟩
        · simp at h0
        · simp only [file_fields, List.mem_map] at hf
          obtain ⟨line, _, rfl⟩ := hf
          have hrange := read_ints_range (line.length + 1) line
          unfold line_symbol at hsym
          split at hsym
          · split at hsym
            · simp at hsym
            · split at hsym <;> simp at hsym
          · rename_i l2 r2 t2 heq
            split at hsym
            · simp only [Option.some.injEq, Prod.mk.injEq, SymbolValue.pair.injEq] at hsym
              obtain ⟨⟨rfl, rfl⟩, _⟩ := hsym
              unfold line_fields at heq
              rw [heq] at hrange
              exact ⟨(hrange l2 (by simp)).2, (hrange r2 (by simp)).2⟩
            · cases hsym
          · cases hsym


/-! ## More on association lists -/

theorem umap_find_some_mem {K V : Type} [DecidableEq K] (m : List (K × V)) (k : K) (v : V)
    (h : umap_find m k = some v) : (k, v) ∈ m := by
  induction m with
  | nil => simp [umap_find] at h
  | cons hd tl ih =>
    obtain ⟨a, w⟩ := hd
    simp only [umap_find] at h
    by_cases hk : a = k
    · simp only [hk, if_true, Option.some.injEq] at h
      simp [hk, h]
    · simp only [hk, if_false] at h
      exact List.mem_cons_of_mem _ (ih h)

theorem umap_find_none_iff {K V : Type} [DecidableEq K] (m : List (K × V)) (k : K) :
    umap_find m k = none ↔ k ∉ m.map Prod.fst := by
  induction m with
  | nil => simp [umap_find]
  | cons hd tl ih =>
    obtain ⟨a, w⟩ := hd
    simp only [umap_find, List.map_cons, List.mem_cons, not_or]
    by_cases hk : a = k
    · simp [hk]
    · simp only [hk, if_false, ih]
      constructor
      · intro h; exact ⟨fun e => hk e.symm, h⟩
      · intro h; exact h.2

theorem umap_mem_find {K V : Type} [DecidableEq K] (m : List (K × V)) (hn : keys_nodup m)
    (k : K) (v : V) (h : (k, v) ∈ m) : umap_find m k = some v := by
  induction m with
  | nil => simp at h
  | cons hd tl ih =>
    obtain ⟨a, w⟩ := hd
    simp only [keys_nodup, List.map_cons, List.nodup_cons] at hn
    simp only [umap_find]
    rcases List.mem_cons.mp h with h1 | h1
    · simp only [Prod.mk.injEq] at h1
      simp [h1.1, h1.2]
    · have hne : a ≠ k := by
        intro e
        apply hn.1
        rw [e]
        exact List.mem_map.mpr ⟨(k, v), h1, rfl⟩
      simp only [hne, if_false]
      exact ih hn.2 h1

theorem umap_set_keys {K V : Type} [DecidableEq K] (m : List (K × V)) (k : K) (v : V) :
    ∀ x, x ∈ (umap_set m k v).map Prod.fst ↔ x = k ∨ x ∈ m.map Prod.fst := by
  induction m with
  | nil => intro x; simp [umap_set]
  | cons hd tl ih =>
    intro x
    obtain ⟨a, w⟩ := hd
    simp only [umap_set]
    by_cases hk : a = k
    · simp only [hk, if_true, List.map_cons, List.mem_cons]
      tauto
    · simp only [hk, if_false, List.map_cons, List.mem_cons, ih]
      tauto

theorem umap_set_nodup {K V : Type} [DecidableEq K] (m : List (K × V)) (k : K) (v : V)
    (hn : keys_nodup m) : keys_nodup (umap_set m k v) := by
  induction m with
  | nil => simp [umap_set, keys_nodup]
  | cons hd tl ih =>
    obtain ⟨a, w⟩ := hd
    simp only [keys_nodup, List.map_cons, List.nodup_cons] at hn
    simp only [umap_set]
    by_cases hk : a = k
    · simp only [hk, if_true, keys_nodup, List.map_cons, List.nodup_cons]
      rw [← hk]; exact hn
    · simp only [hk, if_false, keys_nodup, List.map_cons, List.nodup_cons]
      refine ⟨?_, ih hn.2⟩
      rw [umap_set_keys]
      rintro (h | h)
      · exact hk h
      · exact hn.1 h

theorem umap_erase_keys {K V : Type} [DecidableEq K] (m : List (K × V)) (k : K) :
    ∀ x, x ∈ (umap_erase m k).map Prod.fst ↔ x ≠ k ∧ x ∈ m.map Prod.fst := by
  induction m with
  | nil => intro x; simp [umap_erase]
  | cons hd tl ih =>
    intro x
    obtain ⟨a, w⟩ := hd
    simp only [umap_erase]
    by_cases hk : a = k
    · simp only [hk, if_true, List.map_cons, List.mem_cons, ih]
      constructor
      · rintro ⟨h1, h2⟩; exact ⟨h1, Or.inr h2⟩
      · rintro ⟨h1, h2 | h2⟩
        · exact absurd h2 h1
        · exact ⟨h1, h2⟩
    · simp only [hk, if_false, List.map_cons, List.mem_cons, ih]
      constructor
      · rintro (h | ⟨h1, h2⟩)
        · exact ⟨by rw [h]; exact hk, Or.inl h⟩
        · exact ⟨h1, Or.inr h2⟩
      · rintro ⟨h1, h2 | h2⟩
        · exact Or.inl h2
        · exact Or.inr ⟨h1, h2⟩

theorem umap_erase_nodup {K V : Type} [DecidableEq K] (m : List (K × V)) (k : K)
    (hn : keys_nodup m) : keys_nodup (umap_erase m k) := by
  induction m with
  | nil => simp [umap_erase, keys_nodup]
  | cons hd tl ih =>
    obtain ⟨a, w⟩ := hd
    simp only [keys_nodup, List.map_cons, List.nodup_cons] at hn
    simp only [umap_erase]
    by_cases hk : a = k
    · simp only [hk, if_true]
      exact ih hn.2
    · simp only [hk, if_false, keys_nodup, List.map_cons, List.nodup_cons]
      refine ⟨?_, ih hn.2⟩
      rw [umap_erase_keys]
      rintro ⟨_, h⟩
      exact hn.1 h

theorem umap_value_eq {K : Type} [DecidableEq K] (m : List (K × Int)) (k : K) :
    umap_value m k = (umap_find m k).getD 0 := by
  unfold umap_value umap_index
  cases umap_find m k <;> rfl

/-! ## `increment_counter` -/

theorem increment_counter_spec {K : Type} [DecidableEq K] (counter : List (K × Int)) (key : K)
    (value : Int) (hv : value ≠ 0) :
    ∃ c, increment_counter counter key value = .ok c ∧
      (∀ q, umap_value c q = umap_value counter q + (if q = key then value else 0)) ∧
      (keys_nodup counter → keys_nodup c) ∧
      (∀ x, x ∈ c.map Prod.fst → x = key ∨ x ∈ counter.map Prod.fst) ∧
      (∀ x, x ∈ counter.map Prod.fst → x ≠ key → x ∈ c.map Prod.fst) ∧
      (0 < value → key ∈ c.map Prod.fst) := by
  unfold increment_counter
  simp only [hv, if_false]
  cases hf : umap_find counter key with
  | none =>
    refine ⟨_, rfl, ?_, umap_set_nodup _ _ _, ?_, ?_,
      fun _ => (umap_set_keys _ _ _ _).mpr (Or.inl rfl)⟩
    · intro q
      by_cases hq : q = key
      · subst hq
        simp [umap_value_eq, umap_find_set_self, hf]
      · simp [umap_value_eq, umap_find_set_ne _ _ _ _ (Ne.symm hq), hq]
    · intro x hx
      exact (umap_set_keys _ _ _ x).mp hx
    · intro x hx _
      exact (umap_set_keys _ _ _ x).mpr (Or.inr hx)
  | some old =>
    by_cases hc : value < 0 ∧ old + value = 0
    · simp only [hc, and_self, if_true]
      refine ⟨_, rfl, ?_, umap_erase_nodup _ _, ?_, ?_, fun h => by omega⟩
      · intro q
        by_cases hq : q = key
        · subst hq
          simp only [umap_value_eq, umap_find_erase_self, hf, if_true, Option.getD_none,
            Option.getD_some]
          omega
        · simp [umap_value_eq, umap_find_erase_ne _ _ _ (Ne.symm hq), hq]
      · intro x hx
        exact Or.inr ((umap_erase_keys _ _ x).mp hx).2
      · intro x hx hne
        exact (umap_erase_keys _ _ x).mpr ⟨hne, hx⟩
    · simp only [hc, if_false]
      refine ⟨_, rfl, ?_, umap_set_nodup _ _ _, ?_, ?_,
        fun _ => (umap_set_keys _ _ _ _).mpr (Or.inl rfl)⟩
      · intro q
        by_cases hq : q = key
        · subst hq
          simp [umap_value_eq, umap_find_set_self, hf]
        · simp [umap_value_eq, umap_find_set_ne _ _ _ _ (Ne.symm hq), hq]
      · intro x hx
        exact (umap_set_keys _ _ _ x).mp hx
      · intro x hx _
        exact (umap_set_keys _ _ _ x).mpr (Or.inr hx)


/-! ## The pair loops of `learn` -/

theorem index_count_set (b : List (BytePair × List (Int × Int))) (bp : BytePair)
    (inner : List (Int × Int)) (q : BytePair) (j : Int) :
    index_count (umap_set b bp inner) q j =
      if q = bp then umap_value inner j else index_count b q j := by
  unfold index_count
  by_cases h : q = bp
  · subst h; simp [umap_find_set_self]
  · simp [umap_find_set_ne _ _ _ _ (Ne.symm h), h]

theorem pair_occurrences_cons (q : BytePair) (a b : Int) (rest : List Int) :
    (pair_occurrences q (a :: b :: rest) : Int) =
      (if q = (a, b) then 1 else 0) + (pair_occurrences q (b :: rest) : Int) := by
  simp only [pair_occurrences]
  by_cases h : (a, b) = q
  · subst h; simp
  · have h2 : ¬ q = (a, b) := fun e => h e.symm
    simp [h, h2]

theorem add_pairs_spec (freq i : Int) (hf : freq ≠ 0) :
    ∀ (n : Nat) (v : List Int), v.length ≤ n →
      ∀ (cnt : List (BytePair × Int)) (b : List (BytePair × List (Int × Int))),
        ∃ cnt2 b2, add_pairs freq i v (cnt, b) = .ok (cnt2, b2) ∧
          (∀ q, umap_value cnt2 q = umap_value cnt q + freq * (pair_occurrences q v : Int)) ∧
          (∀ q j, index_count b2 q j =
            index_count b q j + if j = i then (pair_occurrences q v : Int) else 0) ∧
          (keys_nodup cnt → keys_nodup cnt2) ∧
          (∀ x, x ∈ cnt2.map Prod.fst → x ∈ cnt.map Prod.fst ∨ 0 < pair_occurrences x v) ∧
          (∀ m : Nat, 0 ≤ i → i < (m : Int) → inner_keys_valid b m → inner_keys_valid b2 m) ∧
          (∀ q, umap_find b q ≠ none → umap_find b2 q ≠ none) ∧
          (∀ q, 0 < pair_occurrences q v → umap_find b2 q ≠ none) := by
  intro n
  induction n with
  | zero =>
    intro v hv cnt b
    cases v with
    | nil => exact ⟨cnt, b, rfl, by simp [pair_occurrences], by simp [pair_occurrences],
        id, fun x hx => Or.inl hx, fun _ _ _ h => h, fun _ h => h,
        by simp [pair_occurrences]⟩
    | cons x xs => simp at hv
  | succ n ih =>
    intro v hv cnt b
    match v with
    | [] => exact ⟨cnt, b, rfl, by simp [pair_occurrences], by simp [pair_occurrences],
        id, fun x hx => Or.inl hx, fun _ _ _ h => h, fun _ h => h,
        by simp [pair_occurrences]⟩
    | [x] => exact ⟨cnt, b, rfl, by simp [pair_occurrences], by simp [pair_occurrences],
        id, fun x hx => Or.inl hx, fun _ _ _ h => h, fun _ h => h,
        by simp [pair_occurrences]⟩
    | x :: y :: rest =>
      obtain ⟨c1, hc1, hval1, hnd1, hk1, _, _⟩ := increment_counter_spec cnt (x, y) freq hf
      have hlen : (y :: rest).length ≤ n := by simp at hv ⊢; omega
      have hocc : ∀ q : BytePair, pair_occurrences q (y :: rest) ≤
          pair_occurrences q (x :: y :: rest) := by
        intro q; simp only [pair_occurrences]; omega
      have finish : ∀ (inner2 : List (Int × Int)),
          (∀ j, umap_value inner2 j = index_count b (x, y) j + if j = i then 1 else 0) →
          (∀ m : Nat, 0 ≤ i → i < (m : Int) → inner_keys_valid b m →
            ∀ z ∈ inner2.map Prod.fst, 0 ≤ z ∧ z < (m : Int)) →
          ∃ cnt2 b2, add_pairs freq i (y :: rest) (c1, umap_set b (x, y) inner2) =
              .ok (cnt2, b2) ∧
            (∀ q, umap_value cnt2 q =
              umap_value cnt q + freq * (pair_occurrences q (x :: y :: rest) : Int)) ∧
            (∀ q j, index_count b2 q j = index_count b q j +
              if j = i then (pair_occurrences q (x :: y :: rest) : Int) else 0) ∧
            (keys_nodup cnt → keys_nodup cnt2) ∧
            (∀ z, z ∈ cnt2.map Prod.fst →
              z ∈ cnt.map Prod.fst ∨ 0 < pair_occurrences z (x :: y :: rest)) ∧
            (∀ m : Nat, 0 ≤ i → i < (m : Int) → inner_keys_valid b m →
              inner_keys_valid b2 m) ∧
            (∀ q, umap_find b q ≠ none → umap_find b2 q ≠ none) ∧
            (∀ q, 0 < pair_occurrences q (x :: y :: rest) → umap_find b2 q ≠ none) := by
        intro inner2 hinner hvalid
        obtain ⟨cnt2, b2, hres, h1, h2, h3, h4, h5, h6, h7⟩ :=
          ih (y :: rest) hlen c1 (umap_set b (x, y) inner2)
        refine ⟨cnt2, b2, hres, ?_, ?_, fun hn => h3 (hnd1 hn), ?_, ?_, ?_, ?_⟩
        · intro q
          rw [h1, hval1, pair_occurrences_cons]
          split <;> ring
        · intro q j
          rw [h2, index_count_set, pair_occurrences_cons]
          by_cases hq : q = (x, y)
          · subst hq
            simp only [if_true, hinner]
            split <;> ring
          · simp only [hq, if_false]
            split <;> ring
        · intro z hz
          rcases h4 z hz with h | h
          · rcases hk1 z h with rfl | h
            · right; simp [pair_occurrences]
            · exact Or.inl h
          · exact Or.inr (lt_of_lt_of_le h (hocc z))
        · intro m hi0 him hb
          apply h5 m hi0 him
          intro q inner hq z hz
          by_cases hqe : (x, y) = q
          · subst hqe
            rw [umap_find_set_self] at hq
            simp only [Option.some.injEq] at hq
            subst hq
            exact hvalid m hi0 him hb z hz
          · rw [umap_find_set_ne _ _ _ _ hqe] at hq
            exact hb q inner hq z hz
        · intro q hq
          apply h6
          by_cases hqe : (x, y) = q
          · subst hqe; simp [umap_find_set_self]
          · rw [umap_find_set_ne _ _ _ _ hqe]; exact hq
        · intro q hq
          by_cases hqe : (x, y) = q
          · subst hqe
            apply h6
            simp [umap_find_set_self]
          · apply h7
            simp only [pair_occurrences, hqe, if_false, Nat.zero_add] at hq
            exact hq
      simp only [add_pairs, hc1]
      cases hfb : umap_find b (x, y) with
      | none =>
        simp only []
        apply finish
        · intro j
          simp only [index_count, hfb, umap_value_eq, umap_find]
          by_cases hj : i = j
          · subst hj; simp
          · have : ¬ j = i := fun e => hj e.symm
            simp [hj, this]
        · intro m hi0 him _ z hz
          simp only [List.map_cons, List.map_nil, List.mem_singleton] at hz
          subst hz
          exact ⟨hi0, him⟩
      | some inner =>
        obtain ⟨inner2, hi2, hvi, _, hki, _, _⟩ := increment_counter_spec inner i 1 one_ne_zero
        simp only [hi2]
        apply finish
        · intro j
          simp only [index_count, hfb, hvi]
        · intro m hi0 him hb z hz
          rcases hki z hz with rfl | h
          · exact ⟨hi0, him⟩
          · exact hb (x, y) inner hfb z h


theorem remove_pairs_spec (freq i : Int) (hf : freq ≠ 0) :
    ∀ (n : Nat) (v : List Int), v.length ≤ n →
      ∀ (cnt : List (BytePair × Int)) (b : List (BytePair × List (Int × Int))),
        (∀ q, 0 < pair_occurrences q v → umap_find b q ≠ none) →
        ∃ cnt2 b2, remove_pairs freq i v (cnt, b) = .ok (cnt2, b2) ∧
          (∀ q, umap_value cnt2 q = umap_value cnt q - freq * (pair_occurrences q v : Int)) ∧
          (∀ q j, index_count b2 q j =
            index_count b q j - if j = i then (pair_occurrences q v : Int) else 0) ∧
          (keys_nodup cnt → keys_nodup cnt2) ∧
          (∀ x, x ∈ cnt2.map Prod.fst → x ∈ cnt.map Prod.fst ∨ 0 < pair_occurrences x v) ∧
          (∀ m : Nat, 0 ≤ i → i < (m : Int) → inner_keys_valid b m → inner_keys_valid b2 m) ∧
          (∀ q, umap_find b q ≠ none → umap_find b2 q ≠ none) := by
  intro n
  induction n with
  | zero =>
    intro v hv cnt b _
    cases v with
    | nil => exact ⟨cnt, b, rfl, by simp [pair_occurrences], by simp [pair_occurrences],
        id, fun x hx => Or.inl hx, fun _ _ _ h => h, fun _ h => h⟩
    | cons x xs => simp at hv
  | succ n ih =>
    intro v hv cnt b hpre
    match v with
    | [] => exact ⟨cnt, b, rfl, by simp [pair_occurrences], by simp [pair_occurrences],
        id, fun x hx => Or.inl hx, fun _ _ _ h => h, fun _ h => h⟩
    | [x] => exact ⟨cnt, b, rfl, by simp [pair_occurrences], by simp [pair_occurrences],
        id, fun x hx => Or.inl hx, fun _ _ _ h => h, fun _ h => h⟩
    | x :: y :: rest =>
      have hnf : -freq ≠ 0 := by omega
      obtain ⟨c1, hc1, hval1, hnd1, hk1, _, _⟩ := increment_counter_spec cnt (x, y) (-freq) hnf
      have hlen : (y :: rest).length ≤ n := by simp at hv ⊢; omega
      have hocc : ∀ q : BytePair, pair_occurrences q (y :: rest) ≤
          pair_occurrences q (x :: y :: rest) := by
        intro q; simp only [pair_occurrences]; omega
      have hxy : umap_find b (x, y) ≠ none := hpre (x, y) (by simp [pair_occurrences])
      obtain ⟨inner, hfb⟩ := Option.ne_none_iff_exists'.mp hxy
      obtain ⟨inner2, hi2, hvi, _, hki, _, _⟩ :=
        increment_counter_spec inner i (-1) (by omega)
      have hpre2 : ∀ q, 0 < pair_occurrences q (y :: rest) →
          umap_find (umap_set b (x, y) inner2) q ≠ none := by
        intro q hq
        by_cases hqe : (x, y) = q
        · subst hqe; simp [umap_find_set_self]
        · rw [umap_find_set_ne _ _ _ _ hqe]
          exact hpre q (lt_of_lt_of_le hq (hocc q))
      obtain ⟨cnt2, b2, hres, h1, h2, h3, h4, h5, h6⟩ :=
        ih (y :: rest) hlen c1 (umap_set b (x, y) inner2) hpre2
      refine ⟨cnt2, b2, ?_, ?_, ?_, fun hn => h3 (hnd1 hn), ?_, ?_, ?_⟩
      · simp only [remove_pairs, hc1, hfb, hi2]
        exact hres
      · intro q
        rw [h1, hval1, pair_occurrences_cons]
        split <;> ring
      · intro q j
        rw [h2, index_count_set, pair_occurrences_cons]
        by_cases hq : q = (x, y)
        · subst hq
          simp only [if_true, hvi, index_count, hfb]
          split <;> ring
        · simp only [hq, if_false]
          split <;> ring
      · intro z hz
        rcases h4 z hz with h | h
        · rcases hk1 z h with rfl | h
          · right; simp [pair_occurrences]
          · exact Or.inl h
        · exact Or.inr (lt_of_lt_of_le h (hocc z))
      · intro m hi0 him hb
        apply h5 m hi0 him
        intro q inner3 hq z hz
        by_cases hqe : (x, y) = q
        · subst hqe
          rw [umap_find_set_self] at hq
          simp only [Option.some.injEq] at hq
          subst hq
          rcases hki z hz with rfl | h
          · exact ⟨hi0, him⟩
          · exact hb (x, y) inner hfb z h
        · rw [umap_find_set_ne _ _ _ _ hqe] at hq
          exact hb q inner3 hq z hz
      · intro q hq
        apply h6
        by_cases hqe : (x, y) = q
        · subst hqe; simp [umap_find_set_self]
        · rw [umap_find_set_ne _ _ _ _ hqe]; exact hq


/-! ## Substitution and occurrences -/

theorem substitute_id_of_no_occurrence (bp : BytePair) (s : Int) :
    ∀ (n : Nat) (v : List Int), v.length ≤ n → pair_occurrences bp v = 0 →
      substitute_byte_pair v bp s = v := by
  intro n
  induction n with
  | zero =>
    intro v hv _
    cases v with
    | nil => rfl
    | cons x xs => simp at hv
  | succ n ih =>
    intro v hv h0
    match v with
    | [] => rfl
    | [x] => rfl
    | x :: y :: rest =>
      simp only [pair_occurrences] at h0
      have hne : ¬ (x, y) = bp := by
        intro e; simp [e] at h0
      simp only [hne, if_false, Nat.zero_add] at h0
      simp only [substitute_byte_pair, hne, if_false]
      rw [ih (y :: rest) (by simp at hv ⊢; omega) h0]

theorem substitute_mem (bp : BytePair) (s : Int) :
    ∀ (n : Nat) (v : List Int), v.length ≤ n →
      ∀ x ∈ substitute_byte_pair v bp s, x = s ∨ x ∈ v := by
  intro n
  induction n with
  | zero =>
    intro v hv x hx
    cases v with
    | nil => simp [substitute_byte_pair] at hx
    | cons y ys => simp at hv
  | succ n ih =>
    intro v hv x hx
    match v with
    | [] => simp [substitute_byte_pair] at hx
    | [y] => exact Or.inr (by simpa [substitute_byte_pair] using hx)
    | y :: z :: rest =>
      simp only [substitute_byte_pair] at hx
      split at hx
      · rcases List.mem_cons.mp hx with h | h
        · exact Or.inl h
        · rcases ih rest (by simp at hv; omega) x h with h | h
          · exact Or.inl h
          · exact Or.inr (List.mem_cons_of_mem _ (List.mem_cons_of_mem _ h))
      · rcases List.mem_cons.mp hx with h | h
        · exact Or.inr (by simp [h])
        · rcases ih (z :: rest) (by simp at hv ⊢; omega) x h with h | h
          · exact Or.inl h
          · exact Or.inr (List.mem_cons_of_mem _ h)

theorem pair_occurrences_cons_head (bp : BytePair) (x : Int) (w : List Int) :
    pair_occurrences bp (x :: w) =
      (match w with
        | [] => 0
        | y :: _ => if (x, y) = bp then 1 else 0) + pair_occurrences bp w := by
  cases w with
  | nil => simp [pair_occurrences]
  | cons y ys => simp [pair_occurrences]

theorem substitute_head (bp : BytePair) (s : Int) (b : Int) (rest : List Int) :
    ∃ w, substitute_byte_pair (b :: rest) bp s = b :: w ∨
      substitute_byte_pair (b :: rest) bp s = s :: w := by
  cases rest with
  | nil => exact ⟨[], Or.inl rfl⟩
  | cons c cs =>
    simp only [substitute_byte_pair]
    split
    · exact ⟨_, Or.inr rfl⟩
    · exact ⟨_, Or.inl rfl⟩

theorem substitute_no_occurrence (l r s : Int) (hl : s ≠ l) (hr : s ≠ r) :
    ∀ (n : Nat) (v : List Int), v.length ≤ n →
      pair_occurrences (l, r) (substitute_byte_pair v (l, r) s) = 0 := by
  intro n
  induction n with
  | zero =>
    intro v hv
    cases v with
    | nil => rfl
    | cons x xs => simp at hv
  | succ n ih =>
    intro v hv
    match v with
    | [] => rfl
    | [x] => rfl
    | x :: y :: rest =>
      simp only [substitute_byte_pair]
      by_cases hxy : (x, y) = (l, r)
      · simp only [hxy, if_true]
        rw [pair_occurrences_cons_head, ih rest (by simp at hv; omega)]
        cases substitute_byte_pair rest (l, r) s with
        | nil => rfl
        | cons z zs =>
          have : ¬ (s, z) = (l, r) := by
            intro e; simp only [Prod.mk.injEq] at e; exact hl e.1
          simp [this]
      · simp only [hxy, if_false]
        rw [pair_occurrences_cons_head, ih (y :: rest) (by simp at hv ⊢; omega)]
        obtain ⟨w, hw | hw⟩ := substitute_head (l, r) s y rest
        · rw [hw]; simp [hxy]
        · rw [hw]
          have : ¬ (x, s) = (l, r) := by
            intro e; simp only [Prod.mk.injEq] at e; exact hr e.2
          simp [this]

theorem substitute_idempotent (l r s : Int) (hl : s ≠ l) (hr : s ≠ r) (v : List Int) :
    substitute_byte_pair (substitute_byte_pair v (l, r) s) (l, r) s =
      substitute_byte_pair v (l, r) s :=
  substitute_id_of_no_occurrence _ _ _ _ (le_refl _)
    (substitute_no_occurrence l r s hl hr _ v (le_refl _))


/-! ## Vectors indexed by `int` -/

theorem vec_index_lt {α : Type} (v : List α) (j : Int) (a : α) (h : vec_index v j = some a) :
    0 ≤ j ∧ j < (v.length : Int) ∧ v[j.toNat]? = some a := by
  unfold vec_index at h
  split at h
  · rename_i h0
    have hlt : j.toNat < v.length := by
      by_contra hc
      rw [List.getElem?_eq_none (by omega)] at h
      cases h
    exact ⟨h0, by omega, h⟩
  · cases h

theorem vec_index_of_lt {α : Type} (v : List α) (j : Int) (h0 : 0 ≤ j)
    (h1 : j < (v.length : Int)) : ∃ a, vec_index v j = some a := by
  unfold vec_index
  simp only [h0, if_true]
  have hlt : j.toNat < v.length := by omega
  exact ⟨v[j.toNat], List.getElem?_eq_getElem hlt⟩

theorem vec_set_length {α : Type} (v : List α) (j : Int) (x : α) :
    (vec_set v j x).length = v.length := by
  unfold vec_set
  split <;> simp

theorem vec_index_vec_set {α : Type} (v : List α) (j k : Int) (x a : α)
    (h : vec_index v j = some a) :
    vec_index (vec_set v j x) k = if k = j then some x else vec_index v k := by
  obtain ⟨h0, h1, _⟩ := vec_index_lt v j a h
  unfold vec_index vec_set
  simp only [h0, if_true]
  by_cases hk : k = j
  · subst hk
    simp only [h0, if_true]
    rw [List.getElem?_set_self (by omega)]
  · simp only [hk, if_false]
    split
    · rename_i hk0
      rw [List.getElem?_set_ne (by omega)]
    · rfl

theorem true_count_set (q : BytePair) :
    ∀ (table : List (List Int × Int)) (j : Nat) (vec v2 : List Int) (f : Int),
      table[j]? = some (vec, f) →
      true_count (table.set j (v2, f)) q =
        true_count table q + f * (pair_occurrences q v2 : Int) -
          f * (pair_occurrences q vec : Int) := by
  intro table
  induction table with
  | nil => intro j vec v2 f h; simp at h
  | cons e rest ih =>
    intro j vec v2 f h
    cases j with
    | zero =>
      simp only [List.getElem?_cons_zero, Option.some.injEq] at h
      subst h
      simp only [List.set_cons_zero, true_count, List.map_cons, List.sum_cons]
      ring
    | succ k =>
      simp only [List.getElem?_cons_succ] at h
      have := ih k vec v2 f h
      simp only [true_count] at this
      simp only [List.set_cons_succ, true_count, List.map_cons, List.sum_cons, this]
      ring

theorem true_count_vec_set (q : BytePair) (table : List (List Int × Int)) (j : Int)
    (vec v2 : List Int) (f : Int) (h : vec_index table j = some (vec, f)) :
    true_count (vec_set table j (v2, f)) q =
      true_count table q + f * (pair_occurrences q v2 : Int) -
        f * (pair_occurrences q vec : Int) := by
  obtain ⟨h0, _, h2⟩ := vec_index_lt _ _ _ h
  unfold vec_set
  simp only [h0, if_true]
  exact true_count_set q table _ vec v2 f h2


theorem vec_index_mem {α : Type} (v : List α) (j : Int) (a : α) (h : vec_index v j = some a) :
    a ∈ v := by
  obtain ⟨_, _, h2⟩ := vec_index_lt v j a h
  exact List.getElem?_mem h2

theorem mem_vec_set {α : Type} (v : List α) (j : Int) (x a : α) (h : a ∈ vec_set v j x) :
    a = x ∨ a ∈ v := by
  unfold vec_set at h
  split at h
  · rcases List.mem_or_eq_of_mem_set h with h | h
    · exact Or.inr h
    · exact Or.inl h
  · exact Or.inr h

theorem occurrences_at_vec_set (table : List (List Int × Int)) (j k : Int) (vec v2 : List Int)
    (f : Int) (q : BytePair) (h : vec_index table j = some (vec, f)) :
    occurrences_at (vec_set table j (v2, f)) q k =
      occurrences_at table q k +
        (if k = j then (pair_occurrences q v2 : Int) else 0) -
        (if k = j then (pair_occurrences q vec : Int) else 0) := by
  unfold occurrences_at
  rw [vec_index_vec_set _ _ _ _ _ h]
  by_cases hk : k = j
  · subst hk
    simp [h]
  · simp [hk]

/-! ## The loop over the affected tokens -/

theorem merge_tokens_spec (l r s : Int) (hl : s ≠ l) (hr : s ≠ r) :
    ∀ (L : List (Int × Int)) (T : List (List Int × Int)) (delta : List (BytePair × Int))
      (B : List (BytePair × List (Int × Int))),
      (∀ e ∈ L, 0 ≤ e.1 ∧ e.1 < (T.length : Int)) →
      (∀ e ∈ T, e.2 ≠ 0) →
      (∀ q j, index_count B q j = occurrences_at T q j) →
      ∃ T2 delta2 B2, merge_tokens (l, r) s L (T, delta, B) = .ok (T2, delta2, B2) ∧
        T2.length = T.length ∧
        (∀ j : Int, vec_index T2 j =
          if j ∈ L.map Prod.fst then (vec_index T j).map (substitute_entry (l, r) s)
          else vec_index T j) ∧
        (∀ q, umap_value delta2 q = umap_value delta q + true_count T2 q - true_count T q) ∧
        (∀ q j, index_count B2 q j = occurrences_at T2 q j) ∧
        (keys_nodup delta → keys_nodup delta2) ∧
        (∀ x, x ∈ delta2.map Prod.fst → x ∈ delta.map Prod.fst ∨
          ∃ e ∈ T, 0 < pair_occurrences x e.1 ∨
            0 < pair_occurrences x (substitute_byte_pair e.1 (l, r) s)) ∧
        (inner_keys_valid B T.length → inner_keys_valid B2 T.length) ∧
        (∀ q, umap_find B q ≠ none → umap_find B2 q ≠ none) := by
  intro L
  induction L with
  | nil =>
    intro T delta B _ _ hidx
    exact ⟨T, delta, B, rfl, rfl, by simp, by intro q; ring, hidx, id,
      fun x hx => Or.inl hx, id, fun _ h => h⟩
  | cons e0 rest ih =>
    intro T delta B hL hT hidx
    obtain ⟨j, c0⟩ := e0
    obtain ⟨hj0, hj1⟩ := hL (j, c0) (by simp)
    obtain ⟨⟨vec, f⟩, hvj⟩ := vec_index_of_lt T j hj0 hj1
    have hmem : (vec, f) ∈ T := vec_index_mem _ _ _ hvj
    have hf : f ≠ 0 := hT _ hmem
    obtain ⟨d1, B1, hadd, a1, a2, a3, a4, a5, a6, _⟩ :=
      add_pairs_spec f j hf _ (substitute_byte_pair vec (l, r) s) (le_refl _) delta B
    have hpre : ∀ q, 0 < pair_occurrences q vec → umap_find B1 q ≠ none := by
      intro q hq
      apply a6
      intro hnone
      have := hidx q j
      simp only [index_count, hnone, occurrences_at, hvj] at this
      omega
    obtain ⟨d2, B2, hrem, r1, r2, r3, r4, r5, r6⟩ :=
      remove_pairs_spec f j hf _ vec (le_refl _) d1 B1 hpre
    have hlen1 : (vec_set T j (substitute_byte_pair vec (l, r) s, f)).length = T.length :=
      vec_set_length _ _ _
    have hL1 : ∀ e ∈ rest, 0 ≤ e.1 ∧
        e.1 < ((vec_set T j (substitute_byte_pair vec (l, r) s, f)).length : Int) := by
      intro e he
      rw [hlen1]
      exact hL e (List.mem_cons_of_mem _ he)
    have hT1 : ∀ e ∈ vec_set T j (substitute_byte_pair vec (l, r) s, f), e.2 ≠ 0 := by
      intro e he
      rcases mem_vec_set _ _ _ _ he with h | h
      · rw [h]; exact hf
      · exact hT e h
    have hidx1 : ∀ q k, index_count B2 q k =
        occurrences_at (vec_set T j (substitute_byte_pair vec (l, r) s, f)) q k := by
      intro q k
      rw [r2, a2, hidx, occurrences_at_vec_set _ _ _ _ _ _ _ hvj]
    obtain ⟨T3, d3, B3, hres, i1, i2, i3, i4, i5, i6, i7, i8⟩ :=
      ih (vec_set T j (substitute_byte_pair vec (l, r) s, f)) d2 B2 hL1 hT1 hidx1
    refine ⟨T3, d3, B3, ?_, by rw [i1, hlen1], ?_, ?_, i4, fun h => i5 (r3 (a3 h)), ?_, ?_,
      fun q hq => i8 q (r6 q (a6 q hq))⟩
    · simp only [merge_tokens, hvj, hadd, hrem]
      exact hres
    · intro k
      rw [i2 k, vec_index_vec_set _ _ _ _ _ hvj]
      simp only [List.map_cons, List.mem_cons]
      by_cases hk : k = j
      · subst hk
        simp only [if_true, true_or, hvj, Option.map_some', substitute_entry]
        split
        · simp only [Option.map_some', substitute_entry, substitute_idempotent l r s hl hr]
        · rfl
      · simp only [hk, if_false, false_or]
    · intro q
      rw [i3 q, r1 q, a1 q, true_count_vec_set q T j vec _ f hvj]
      ring
    · intro x hx
      rcases i6 x hx with h | ⟨e, he, h⟩
      · rcases r4 x h with h | h
        · rcases a4 x h with h | h
          · exact Or.inl h
          · exact Or.inr ⟨(vec, f), hmem, Or.inr h⟩
        · exact Or.inr ⟨(vec, f), hmem, Or.inl h⟩
      · rcases mem_vec_set _ _ _ _ he with h2 | h2
        · right
          refine ⟨(vec, f), hmem, Or.inr ?_⟩
          rw [h2] at h
          simp only [substitute_idempotent l r s hl hr] at h
          rcases h with h | h <;> exact h
        · exact Or.inr ⟨e, h2, h⟩
    · intro hB
      rw [hlen1] at i7
      exact i7 (r5 T.length hj0 hj1 (a5 T.length hj0 hj1 hB))


/-! ## The heap -/

theorem heap_max_spec :
    ∀ (l : List (Nat × (Int × BytePair))) (m : Nat × (Int × BytePair)),
      heap_max l = some m → m ∈ l ∧ ∀ e ∈ l, value_less m.2 e.2 = false := by
  intro l
  induction l with
  | nil => intro m h; simp [heap_max] at h
  | cons e rest ih =>
    intro m h
    simp only [heap_max] at h
    cases hr : heap_max rest with
    | none =>
      simp only [hr, Option.some.injEq] at h
      subst h
      have hnil : rest = [] := by
        cases rest with
        | nil => rfl
        | cons x xs =>
          simp only [heap_max] at hr
          split at hr
          · cases hr
          · split at hr <;> cases hr
      subst hnil
      refine ⟨by simp, ?_⟩
      intro x hx
      simp only [List.mem_singleton] at hx
      subst hx
      simp [value_less]
    | some m0 =>
      obtain ⟨hm0, hall⟩ := ih m0 hr
      simp only [hr] at h
      by_cases hlt : value_less e.2 m0.2 = true
      · simp only [hlt, if_true, Option.some.injEq] at h
        subst h
        refine ⟨List.mem_cons_of_mem _ hm0, ?_⟩
        intro x hx
        rcases List.mem_cons.mp hx with rfl | hx
        · have := hall m0 hm0
          revert hlt this
          simp only [value_less, Bool.or_eq_true, Bool.and_eq_true, decide_eq_true_eq,
            Bool.not_eq_true', decide_eq_false_iff_not, Bool.or_eq_false_iff,
            Bool.and_eq_false_iff, Bool.not_eq_false']
          omega
        · exact hall x hx
      · simp only [hlt, Bool.false_eq_true, if_false, Option.some.injEq] at h
        subst h
        refine ⟨by simp, ?_⟩
        intro x hx
        rcases List.mem_cons.mp hx with rfl | hx
        · simp [value_less]
        · have := hall x hx
          revert hlt this
          simp only [value_less, Bool.or_eq_true, Bool.and_eq_true, decide_eq_true_eq,
            Bool.not_eq_true', decide_eq_false_iff_not, Bool.or_eq_false_iff,
            Bool.and_eq_false_iff, Bool.not_eq_false']
          omega

theorem heap_max_none (l : List (Nat × (Int × BytePair))) (h : heap_max l = none) : l = [] := by
  cases l with
  | nil => rfl
  | cons x xs =>
    simp only [heap_max] at h
    split at h
    · cases h
    · split at h <;> cases h

theorem nodup_fst_unique {α β : Type} (l : List (α × β)) (hn : (l.map Prod.fst).Nodup)
    (a : α) (b1 b2 : β) (h1 : (a, b1) ∈ l) (h2 : (a, b2) ∈ l) : b1 = b2 := by
  induction l with
  | nil => simp at h1
  | cons hd tl ih =>
    simp only [List.map_cons, List.nodup_cons] at hn
    rcases List.mem_cons.mp h1 with e1 | e1
    · rcases List.mem_cons.mp h2 with e2 | e2
      · rw [← e1] at e2
        simp only [Prod.mk.injEq] at e2
        exact e2.2.symm
      · exfalso
        apply hn.1
        rw [← e1]
        exact List.mem_map.mpr ⟨(a, b2), e2, rfl⟩
    · rcases List.mem_cons.mp h2 with e2 | e2
      · exfalso
        apply hn.1
        rw [← e2]
        exact List.mem_map.mpr ⟨(a, b1), e1, rfl⟩
      · exact ih hn.2 e1 e2

theorem heap_inv_push (c : List (BytePair × Int)) (h : FibHeap) (hh : List (BytePair × Nat))
    (q : BytePair) (f : Int) (hinv : heap_inv c h hh) (hq : umap_find c q = none) :
    heap_inv (umap_set c q f) (h.push (f, q)).2 (umap_set hh q (h.push (f, q)).1) := by
  obtain ⟨ha, hb, hc, hd, he⟩ := hinv
  have hhq : umap_find hh q = none := by
    by_contra hne
    exact (ha q).mp hne hq
  refine ⟨?_, ?_, ?_, ?_, ?_⟩
  · intro q2
    by_cases e : q = q2
    · subst e; simp [umap_find_set_self]
    · rw [umap_find_set_ne _ _ _ _ e, umap_find_set_ne _ _ _ _ e]; exact ha q2
  · intro q2 k hk
    by_cases e : q = q2
    · subst e
      rw [umap_find_set_self] at hk
      simp only [Option.some.injEq] at hk
      subst hk
      exact ⟨f, umap_find_set_self _ _ _, by simp [FibHeap.push]⟩
    · rw [umap_find_set_ne _ _ _ _ e] at hk
      obtain ⟨f2, h1, h2⟩ := hb q2 k hk
      refine ⟨f2, by rw [umap_find_set_ne _ _ _ _ e]; exact h1, ?_⟩
      simp only [FibHeap.push, List.mem_append]
      exact Or.inl h2
  · intro e he2
    simp only [FibHeap.push, List.mem_append, List.mem_singleton] at he2
    rcases he2 with he2 | he2
    · have h1 := hc e he2
      have hne : q ≠ e.2.2 := by
        intro e2; rw [← e2, hhq] at h1; cases h1
      rw [umap_find_set_ne _ _ _ _ hne]; exact h1
    · subst he2
      simp [umap_find_set_self, FibHeap.push]
  · simp only [FibHeap.push, List.map_append, List.map_cons, List.map_nil]
    rw [List.nodup_append]
    refine ⟨hd, by simp, ?_⟩
    intro a ha1 ha2
    simp only [List.mem_singleton] at ha2
    subst ha2
    obtain ⟨e, he1, he2⟩ := List.mem_map.mp ha1
    have := he e he1
    omega
  · intro e he2
    simp only [FibHeap.push, List.mem_append, List.mem_singleton] at he2 ⊢
    rcases he2 with he2 | he2
    · have := he e he2; omega
    · subst he2; simp

theorem heap_inv_update (c : List (BytePair × Int)) (h : FibHeap) (hh : List (BytePair × Nat))
    (q : BytePair) (f : Int) (k : Nat) (hinv : heap_inv c h hh)
    (hk : umap_find hh q = some k) :
    heap_inv (umap_set c q f) (h.update k (f, q)) hh := by
  obtain ⟨ha, hb, hc, hd, he⟩ := hinv
  obtain ⟨f0, hf0, hmem0⟩ := hb q k hk
  refine ⟨?_, ?_, ?_, ?_, ?_⟩
  · intro q2
    by_cases e : q = q2
    · subst e; simp [umap_find_set_self, hk]
    · rw [umap_find_set_ne _ _ _ _ e]; exact ha q2
  · intro q2 k2 hk2
    by_cases e : q = q2
    · subst e
      rw [hk] at hk2
      simp only [Option.some.injEq] at hk2
      subst hk2
      refine ⟨f, umap_find_set_self _ _ _, ?_⟩
      simp only [FibHeap.update, List.mem_map]
      exact ⟨(k, (f0, q)), hmem0, by simp⟩
    · obtain ⟨f2, h1, h2⟩ := hb q2 k2 hk2
      refine ⟨f2, by rw [umap_find_set_ne _ _ _ _ e]; exact h1, ?_⟩
      have hne : k2 ≠ k := by
        intro e2
        subst e2
        have := nodup_fst_unique _ hd k2 _ _ hmem0 h2
        simp only [Prod.mk.injEq] at this
        exact e this.2
      simp only [FibHeap.update, List.mem_map]
      exact ⟨(k2, (f2, q2)), h2, by simp [hne]⟩
  · intro e he2
    simp only [FibHeap.update, List.mem_map] at he2
    obtain ⟨e0, he0, rfl⟩ := he2
    by_cases hk0 : e0.1 = k
    · simp only [hk0, if_true]; exact hk
    · simp only [hk0, if_false]; exact hc e0 he0
  · have : (h.update k (f, q)).elems.map Prod.fst = h.elems.map Prod.fst := by
      simp only [FibHeap.update, List.map_map]
      apply List.map_congr_left
      intro e _
      simp only [Function.comp]
      split
      · rename_i h1; exact h1.symm
      · rfl
    rw [this]; exact hd
  · intro e he2
    simp only [FibHeap.update, List.mem_map] at he2
    obtain ⟨e0, he0, rfl⟩ := he2
    have := he e0 he0
    by_cases hk0 : e0.1 = k
    · simp only [hk0, if_true]; rw [← hk0]; exact this
    · simp only [hk0, if_false]; exact this

theorem heap_inv_pop (c : List (BytePair × Int)) (h : FibHeap) (hh : List (BytePair × Nat))
    (k : Nat) (f : Int) (q : BytePair) (hinv : heap_inv c h hh)
    (htop : h.top = some (k, (f, q))) :
    heap_inv (umap_erase c q) h.pop (umap_erase hh q) := by
  obtain ⟨ha, hb, hc, hd, he⟩ := hinv
  have hmem : (k, (f, q)) ∈ h.elems := (heap_max_spec _ _ htop).1
  have hkq : umap_find hh q = some k := hc _ hmem
  have hpop : h.pop.elems = h.elems.filter (fun e => e.1 ≠ k) := by
    simp only [FibHeap.pop, htop]
  have hnext : h.pop.next_handle = h.next_handle := by
    simp only [FibHeap.pop, htop]
  refine ⟨?_, ?_, ?_, ?_, ?_⟩
  · intro q2
    by_cases e : q = q2
    · subst e; simp [umap_find_erase_self]
    · rw [umap_find_erase_ne _ _ _ e, umap_find_erase_ne _ _ _ e]; exact ha q2
  · intro q2 k2 hk2
    by_cases e : q = q2
    · subst e; rw [umap_find_erase_self] at hk2; cases hk2
    · rw [umap_find_erase_ne _ _ _ e] at hk2
      obtain ⟨f2, h1, h2⟩ := hb q2 k2 hk2
      refine ⟨f2, by rw [umap_find_erase_ne _ _ _ e]; exact h1, ?_⟩
      have hne : k2 ≠ k := by
        intro e2
        subst e2
        have := nodup_fst_unique _ hd k2 _ _ hmem h2
        simp only [Prod.mk.injEq] at this
        exact e this.2
      rw [hpop, List.mem_filter]
      exact ⟨h2, by simp [hne]⟩
  · intro e he2
    rw [hpop, List.mem_filter] at he2
    obtain ⟨he0, hne⟩ := he2
    simp only [ne_eq, decide_not, Bool.not_eq_true', decide_eq_false_iff_not] at hne
    have h1 := hc e he0
    have hq : q ≠ e.2.2 := by
      intro e2
      rw [← e2, hkq] at h1
      simp only [Option.some.injEq] at h1
      exact hne h1.symm
    rw [umap_find_erase_ne _ _ _ hq]; exact h1
  · rw [hpop]
    exact List.Nodup.sublist (List.Sublist.map _ (List.filter_sublist _)) hd
  · intro e he2
    rw [hpop, List.mem_filter] at he2
    rw [hnext]
    exact he e he2.1


/-! ## Applying the delta map -/

theorem umap_value_cons {K : Type} [DecidableEq K] (k : K) (v : Int) (rest : List (K × Int))
    (q : K) : umap_value ((k, v) :: rest) q = if k = q then v else umap_value rest q := by
  simp only [umap_value_eq, umap_find]
  split <;> rfl

theorem umap_value_of_not_mem {K : Type} [DecidableEq K] (m : List (K × Int)) (q : K)
    (h : q ∉ m.map Prod.fst) : umap_value m q = 0 := by
  rw [umap_value_eq, (umap_find_none_iff m q).mpr h]
  rfl

theorem apply_delta_spec :
    ∀ (D : List (BytePair × Int)) (c : List (BytePair × Int)) (h : FibHeap)
      (hh : List (BytePair × Nat)),
      keys_nodup D → heap_inv c h hh →
      (∀ q, umap_find c q = none → 0 ≤ umap_value D q) →
      ∃ c2 h2 hh2, apply_delta D (c, h, hh) = .ok (c2, h2, hh2) ∧
        heap_inv c2 h2 hh2 ∧
        (∀ q, umap_value c2 q = umap_value c q + umap_value D q) ∧
        (keys_nodup c → keys_nodup c2) ∧
        (∀ x, x ∈ c2.map Prod.fst → x ∈ c.map Prod.fst ∨
          (x ∈ D.map Prod.fst ∧ umap_value D x ≠ 0)) ∧
        (∀ x, x ∈ c.map Prod.fst → x ∈ c2.map Prod.fst) := by
  intro D
  induction D with
  | nil =>
    intro c h hh _ hinv _
    exact ⟨c, h, hh, rfl, hinv, by intro q; simp [umap_value_eq, umap_find], id,
      fun x hx => Or.inl hx, fun x hx => hx⟩
  | cons e rest ih =>
    intro c h hh hnd hinv hpos
    obtain ⟨q0, d⟩ := e
    simp only [keys_nodup, List.map_cons, List.nodup_cons] at hnd
    obtain ⟨hq0, hndr⟩ := hnd
    have hrest0 : umap_value rest q0 = 0 := umap_value_of_not_mem _ _ hq0
    have finish : ∀ (c1 : List (BytePair × Int)) (h1 : FibHeap) (hh1 : List (BytePair × Nat)),
        heap_inv c1 h1 hh1 →
        (∀ q, umap_value c1 q = umap_value c q + if q0 = q then d else 0) →
        (∀ q, q0 ≠ q → umap_find c1 q = umap_find c q) →
        (keys_nodup c → keys_nodup c1) →
        (∀ x, x ∈ c1.map Prod.fst → (x = q0 ∧ d ≠ 0) ∨ x ∈ c.map Prod.fst) →
        (∀ x, x ∈ c.map Prod.fst → x ∈ c1.map Prod.fst) →
        ∃ c2 h2 hh2, apply_delta rest (c1, h1, hh1) = .ok (c2, h2, hh2) ∧
          heap_inv c2 h2 hh2 ∧
          (∀ q, umap_value c2 q = umap_value c q + umap_value ((q0, d) :: rest) q) ∧
          (keys_nodup c → keys_nodup c2) ∧
          (∀ x, x ∈ c2.map Prod.fst →
            x ∈ c.map Prod.fst ∨ (x ∈ ((q0, d) :: rest).map Prod.fst ∧
              umap_value ((q0, d) :: rest) x ≠ 0)) ∧
          (∀ x, x ∈ c.map Prod.fst → x ∈ c2.map Prod.fst) := by
      intro c1 h1 hh1 hinv1 hval1 hfind1 hnd1 hk1 hk2
      have hpos1 : ∀ q, umap_find c1 q = none → 0 ≤ umap_value rest q := by
        intro q hq
        by_cases e : q0 = q
        · subst e; rw [hrest0]
        · have := hpos q (by rw [← hfind1 q e]; exact hq)
          rw [umap_value_cons] at this
          simpa [e] using this
      obtain ⟨c2, h2, hh2, hres, g1, g2, g3, g4, g5⟩ := ih c1 h1 hh1 hndr hinv1 hpos1
      refine ⟨c2, h2, hh2, hres, g1, ?_, fun hn => g3 (hnd1 hn), ?_, fun x hx => g5 x (hk2 x hx)⟩
      · intro q
        rw [g2 q, hval1 q, umap_value_cons]
        by_cases e : q0 = q
        · subst e; simp [hrest0]
        · simp [e]
      · intro x hx
        simp only [List.map_cons, List.mem_cons]
        rcases g4 x hx with h | ⟨h, hv⟩
        · rcases hk1 x h with ⟨h, hd0⟩ | h
          · subst h
            exact Or.inr ⟨Or.inl rfl, by rw [umap_value_cons]; simpa using hd0⟩
          · exact Or.inl h
        · refine Or.inr ⟨Or.inr h, ?_⟩
          have hne : q0 ≠ x := by
            intro e; subst e; exact hq0 h
          rw [umap_value_cons]
          simpa [hne] using hv
    by_cases hd : d = 0
    · subst hd
      simp only [apply_delta, ne_eq, not_true_eq_false, if_false]
      exact finish c h hh hinv (by intro q; simp) (fun _ _ => rfl) id
        (fun x hx => Or.inr hx) (fun x hx => hx)
    · simp only [apply_delta, ne_eq, hd, not_false_eq_true, if_true]
      cases hf : umap_find c q0 with
      | none =>
        have hdpos : d > 0 := by
          have := hpos q0 hf
          rw [umap_value_cons] at this
          simp only [if_true] at this
          omega
        simp only [hdpos, if_true]
        apply finish _ _ _ (heap_inv_push c h hh q0 d hinv hf)
        · intro q
          by_cases e : q0 = q
          · subst e; simp [umap_value_eq, umap_find_set_self, hf]
          · simp [umap_value_eq, umap_find_set_ne _ _ _ _ e, e]
        · intro q e; exact umap_find_set_ne _ _ _ _ e
        · exact umap_set_nodup _ _ _
        · intro x hx
          rcases (umap_set_keys _ _ _ x).mp hx with h | h
          · exact Or.inl ⟨h, hd⟩
          · exact Or.inr h
        · intro x hx; exact (umap_set_keys _ _ _ x).mpr (Or.inr hx)
      | some old =>
        have hne : umap_find hh q0 ≠ none := (hinv.1 q0).mpr (by rw [hf]; simp)
        obtain ⟨k, hk⟩ := Option.ne_none_iff_exists'.mp hne
        simp only [hk]
        apply finish _ _ _ (heap_inv_update c h hh q0 (old + d) k hinv hk)
        · intro q
          by_cases e : q0 = q
          · subst e; simp [umap_value_eq, umap_find_set_self, hf]
          · simp [umap_value_eq, umap_find_set_ne _ _ _ _ e, e]
        · intro q e; exact umap_find_set_ne _ _ _ _ e
        · exact umap_set_nodup _ _ _
        · intro x hx
          rcases (umap_set_keys _ _ _ x).mp hx with h | h
          · exact Or.inl ⟨h, hd⟩
          · exact Or.inr h
        · intro x hx; exact (umap_set_keys _ _ _ x).mpr (Or.inr hx)

theorem umap_set_append_of_not_mem {K V : Type} [DecidableEq K] (m : List (K × V)) (k : K)
    (v : V) (h : k ∉ m.map Prod.fst) : umap_set m k v = m ++ [(k, v)] := by
  induction m with
  | nil => rfl
  | cons hd tl ih =>
    obtain ⟨a, w⟩ := hd
    simp only [List.map_cons, List.mem_cons, not_or] at h
    have hne : ¬ a = k := fun e => h.1 e.symm
    simp only [umap_set, hne, if_false, List.cons_append, ih h.2]

theorem build_heap_spec :
    ∀ (rest done : List (BytePair × Int)) (h : FibHeap) (hh : List (BytePair × Nat)),
      keys_nodup (done ++ rest) → heap_inv done h hh →
      heap_inv (done ++ rest) (build_heap rest (h, hh)).1 (build_heap rest (h, hh)).2 := by
  intro rest
  induction rest with
  | nil => intro done h hh _ hinv; simpa [build_heap] using hinv
  | cons e rest ih =>
    intro done h hh hnd hinv
    obtain ⟨q, f⟩ := e
    have hq : q ∉ done.map Prod.fst := by
      intro hmem
      simp only [keys_nodup, List.map_append, List.map_cons] at hnd
      have := (List.nodup_append.mp hnd).2.2
      exact this hmem (by simp)
    have hfind : umap_find done q = none := (umap_find_none_iff _ _).mpr hq
    have hpush := heap_inv_push done h hh q f hinv hfind
    rw [umap_set_append_of_not_mem _ _ _ hq] at hpush
    have := ih (done ++ [(q, f)]) _ _ (by simpa using hnd) hpush
    simpa [build_heap] using this


/-! ## One iteration of the merge loop -/

theorem true_count_nonneg (T : List (List Int × Int)) (q : BytePair)
    (h : ∀ e ∈ T, 0 < e.2) : 0 ≤ true_count T q := by
  unfold true_count
  apply List.sum_nonneg
  intro x hx
  obtain ⟨e, he, rfl⟩ := List.mem_map.mp hx
  have := h e he
  positivity

theorem true_count_substituted (l r s : Int) (hl : s ≠ l) (hr : s ≠ r)
    (T : List (List Int × Int)) :
    true_count (T.map (substitute_entry (l, r) s)) (l, r) = 0 := by
  unfold true_count
  rw [List.map_map]
  apply List.sum_eq_zero
  intro x hx
  obtain ⟨e, _, rfl⟩ := List.mem_map.mp hx
  simp [Function.comp, substitute_entry, substitute_no_occurrence l r s hl hr _ e.1 (le_refl _)]

theorem pair_occurrences_pos_mem (q : BytePair) :
    ∀ (v : List Int), 0 < pair_occurrences q v → q.1 ∈ v ∧ q.2 ∈ v := by
  intro v
  induction v with
  | nil => intro h; simp [pair_occurrences] at h
  | cons x rest ih =>
    intro h
    cases rest with
    | nil => simp [pair_occurrences] at h
    | cons y rest2 =>
      simp only [pair_occurrences] at h
      by_cases e : (x, y) = q
      · subst e; simp
      · simp only [e, if_false, Nat.zero_add] at h
        obtain ⟨h1, h2⟩ := ih h
        exact ⟨List.mem_cons_of_mem _ h1, List.mem_cons_of_mem _ h2⟩

theorem vec_index_nat {α : Type} (v : List α) (n : Nat) : vec_index v (n : Int) = v[n]? := by
  simp [vec_index]

theorem merge_iteration_spec (st : LearnState) (hinv : LearnInv st) (k : Nat) (f : Int)
    (top_bp : BytePair) (htop : st.bp_heap.top = some (k, (f, top_bp))) :
    ∃ st2, merge_iteration st (st.symbol_mapping.length : Int) = .ok st2 ∧
      LearnInv st2 ∧
      st2.symbol_mapping = st.symbol_mapping ++ [(.pair top_bp, .BYTE_PAIR)] ∧
      st2.token_index_to_token_vec_and_freq =
        st.token_index_to_token_vec_and_freq.map
          (substitute_entry top_bp (st.symbol_mapping.length : Int)) ∧
      st2.token_counter = st.token_counter ∧
      umap_find st.bp_counter top_bp = some f ∧
      umap_find st2.bp_counter top_bp = none ∧
      (∀ q, umap_find st.bp_counter q = none → umap_find st2.bp_counter q ≠ none →
        0 < true_count st2.token_index_to_token_vec_and_freq q) := by
  obtain ⟨l, r⟩ := top_bp
  have hmem : (k, (f, (l, r))) ∈ st.bp_heap.elems := (heap_max_spec _ _ htop).1
  have hhk : umap_find st.bp_heap_handles (l, r) = some k := hinv.heap.2.2.1 _ hmem
  obtain ⟨f1, hcf, hmem1⟩ := hinv.heap.2.1 _ _ hhk
  have hff : f1 = f := by
    have := nodup_fst_unique _ hinv.heap.2.2.2.1 k _ _ hmem1 hmem
    simp only [Prod.mk.injEq] at this
    exact this.1
  subst hff
  have hkey : (l, r) ∈ st.bp_counter.map Prod.fst :=
    List.mem_map.mpr ⟨((l, r), f1), umap_find_some_mem _ _ _ hcf, rfl⟩
  obtain ⟨⟨_, hl1⟩, ⟨_, hr1⟩⟩ := hinv.keys _ hkey
  simp only at hl1 hr1
  have hsl : (st.symbol_mapping.length : Int) ≠ l := by omega
  have hsr : (st.symbol_mapping.length : Int) ≠ r := by omega
  -- the affected tokens
  have hL : ∀ e ∈ (umap_index st.bp_to_token_index_counter (l, r) []).1,
      0 ≤ e.1 ∧ e.1 < (st.token_index_to_token_vec_and_freq.length : Int) := by
    intro e he
    unfold umap_index at he
    cases hfb : umap_find st.bp_to_token_index_counter (l, r) with
    | none => simp [hfb] at he
    | some inner =>
      simp only [hfb] at he
      exact hinv.inner _ inner hfb e.1 (List.mem_map.mpr ⟨e, he, rfl⟩)
  have hidx0 : ∀ q j, index_count (umap_index st.bp_to_token_index_counter (l, r) []).2 q j =
      occurrences_at st.token_index_to_token_vec_and_freq q j := by
    intro q j
    rw [← hinv.index q j]
    unfold umap_index
    cases hfb : umap_find st.bp_to_token_index_counter (l, r) with
    | none =>
      simp only []
      rw [index_count_set]
      by_cases e : q = (l, r)
      · subst e
        simp [index_count, hfb, umap_value_eq, umap_find]
      · simp [e]
    | some inner => rfl
  have hLval : ∀ j, umap_value (umap_index st.bp_to_token_index_counter (l, r) []).1 j =
      occurrences_at st.token_index_to_token_vec_and_freq (l, r) j := by
    intro j
    rw [← hinv.index (l, r) j]
    unfold umap_index index_count
    cases hfb : umap_find st.bp_to_token_index_counter (l, r) with
    | none => simp [umap_value_eq, umap_find]
    | some inner => rfl
  obtain ⟨T2, d2, B2, hres, m1, m2, m3, m4, m5, m6, m7, _⟩ :=
    merge_tokens_spec l r (st.symbol_mapping.length : Int) hsl hsr
      (umap_index st.bp_to_token_index_counter (l, r) []).1
      st.token_index_to_token_vec_and_freq []
      (umap_index st.bp_to_token_index_counter (l, r) []).2 hL
      (fun e he => by have := hinv.freq_pos e he; omega) hidx0
  -- the token table after the loop
  have hT2 : T2 = st.token_index_to_token_vec_and_freq.map
      (substitute_entry (l, r) (st.symbol_mapping.length : Int)) := by
    apply List.ext_getElem?
    intro n
    rw [← vec_index_nat, m2, List.getElem?_map, ← vec_index_nat]
    split
    · rfl
    · rename_i hn
      cases hv : vec_index st.token_index_to_token_vec_and_freq (n : Int) with
      | none => rfl
      | some e =>
        obtain ⟨vec, fr⟩ := e
        have h0 := hLval (n : Int)
        rw [umap_value_of_not_mem _ _ hn] at h0
        simp only [occurrences_at, hv] at h0
        have h0' : pair_occurrences (l, r) vec = 0 := by omega
        simp only [Option.map_some', substitute_entry,
          substitute_id_of_no_occurrence _ _ _ vec (le_refl _) h0']
  subst hT2
  have hfp2 : ∀ e ∈ st.token_index_to_token_vec_and_freq.map
      (substitute_entry (l, r) (st.symbol_mapping.length : Int)), 0 < e.2 := by
    intro e he
    obtain ⟨e0, he0, rfl⟩ := List.mem_map.mp he
    exact hinv.freq_pos e0 he0
  have hd2top : umap_value d2 (l, r) = - umap_value st.bp_counter (l, r) := by
    rw [m3, true_count_substituted l r _ hsl hsr, hinv.count]
    simp [umap_value_eq, umap_find]
  -- applying the delta map
  have hpre : ∀ q, umap_find (umap_erase st.bp_counter (l, r)) q = none →
      0 ≤ umap_value (umap_erase d2 (l, r)) q := by
    intro q hq
    by_cases e : (l, r) = q
    · subst e; simp [umap_value_eq, umap_find_erase_self]
    · rw [umap_find_erase_ne _ _ _ e] at hq
      have hc0 : umap_value st.bp_counter q = 0 := by simp [umap_value_eq, hq]
      have := m3 q
      rw [← hinv.count, hc0] at this
      simp only [umap_value_eq, umap_find_erase_ne _ _ _ e] at this ⊢
      rw [this]
      have := true_count_nonneg _ q hfp2
      simp [umap_find]
      exact this
  obtain ⟨c2, h2, hh2, hres2, a1, a2, a3, a4, a5⟩ :=
    apply_delta_spec (umap_erase d2 (l, r)) (umap_erase st.bp_counter (l, r)) st.bp_heap.pop
      (umap_erase st.bp_heap_handles (l, r)) (umap_erase_nodup _ _ (m5 (by simp [keys_nodup])))
      (heap_inv_pop _ _ _ k f1 (l, r) hinv.heap htop) hpre
  have hcount2 : ∀ q, umap_value c2 q = true_count
      (st.token_index_to_token_vec_and_freq.map
        (substitute_entry (l, r) (st.symbol_mapping.length : Int))) q := by
    intro q
    rw [a2 q]
    by_cases e : (l, r) = q
    · subst e
      rw [true_count_substituted l r _ hsl hsr]
      simp [umap_value_eq, umap_find_erase_self]
    · have := m3 q
      rw [← hinv.count] at this
      simp only [umap_value_eq, umap_find_erase_ne _ _ _ e] at this ⊢
      rw [this]
      simp [umap_find]
  refine ⟨{ st with
      symbol_mapping := st.symbol_mapping ++ [(.pair (l, r), .BYTE_PAIR)]
      bp_counter := c2
      bp_to_token_index_counter := B2
      token_index_to_token_vec_and_freq := st.token_index_to_token_vec_and_freq.map
        (substitute_entry (l, r) (st.symbol_mapping.length : Int))
      bp_heap := h2
      bp_heap_handles := hh2 }, ?_, ?_, rfl, rfl, rfl, hcf, ?_, ?_⟩
  · simp only [merge_iteration, htop, hres, hd2top, neg_add_cancel, if_true, hres2]
  · constructor
    · exact hcount2
    · exact m4
    · exact a1
    · exact hfp2
    · intro e he x hx
      obtain ⟨e0, he0, rfl⟩ := List.mem_map.mp he
      simp only [substitute_entry] at hx
      simp only [List.length_append, List.length_singleton, Nat.cast_add, Nat.cast_one]
      rcases substitute_mem _ _ _ _ (le_refl _) x hx with h | h
      · subst h; omega
      · have := hinv.ids e0 he0 x h; omega
    · intro q hq
      simp only [List.length_append, List.length_singleton, Nat.cast_add, Nat.cast_one]
      rcases a4 q hq with h | ⟨h, _⟩
      · have h1 := ((umap_erase_keys _ _ q).mp h).2
        have := hinv.keys q h1
        omega
      · have h1 := ((umap_erase_keys _ _ q).mp h).2
        rcases m6 q h1 with h2 | ⟨e, he, h2⟩
        · simp at h2
        · have hb : ∀ x ∈ e.1, 0 ≤ x ∧ x < (st.symbol_mapping.length : Int) := hinv.ids e he
          have hb2 : ∀ x ∈ substitute_byte_pair e.1 (l, r) (st.symbol_mapping.length : Int),
              0 ≤ x ∧ x < (st.symbol_mapping.length : Int) + 1 := by
            intro x hx
            rcases substitute_mem _ _ _ _ (le_refl _) x hx with h | h
            · subst h; omega
            · have := hb x h; omega
          rcases h2 with h2 | h2
          · obtain ⟨g1, g2⟩ := pair_occurrences_pos_mem q _ h2
            have := hb _ g1
            have := hb _ g2
            omega
          · obtain ⟨g1, g2⟩ := pair_occurrences_pos_mem q _ h2
            have := hb2 _ g1
            have := hb2 _ g2
            omega
    · have hin0 : inner_keys_valid (umap_index st.bp_to_token_index_counter (l, r) []).2
          st.token_index_to_token_vec_and_freq.length := by
        unfold umap_index
        cases hfb : umap_find st.bp_to_token_index_counter (l, r) with
        | some inner => exact hinv.inner
        | none =>
          intro q inner hq x hx
          by_cases e : (l, r) = q
          · subst e
            rw [umap_find_set_self] at hq
            simp only [Option.some.injEq] at hq
            subst hq
            simp at hx
          · rw [umap_find_set_ne _ _ _ _ e] at hq
            exact hinv.inner q inner hq x hx
      have := m7 hin0
      simpa using this
    · exact a3 (umap_erase_nodup _ _ hinv.counter_nodup)
  · simp only []
    rw [umap_find_none_iff]
    intro hmem2
    rcases a4 _ hmem2 with h | ⟨h, _⟩
    · exact ((umap_erase_keys _ _ _).mp h).1 rfl
    · exact ((umap_erase_keys _ _ _).mp h).1 rfl
  · intro q hq hq2
    simp only [] at hq2 ⊢
    have hmem2 : q ∈ c2.map Prod.fst := by
      by_contra hne
      exact hq2 ((umap_find_none_iff _ _).mpr hne)
    have hqC : q ∉ st.bp_counter.map Prod.fst := (umap_find_none_iff _ _).mp hq
    rcases a4 _ hmem2 with h | ⟨h, hv⟩
    · exact absurd ((umap_erase_keys _ _ _).mp h).2 hqC
    · have hne : (l, r) ≠ q := fun e => ((umap_erase_keys _ _ _).mp h).1 e.symm
      have h3 := m3 q
      rw [← hinv.count, umap_value_of_not_mem _ _ hqC] at h3
      simp only [umap_value_eq, umap_find_erase_ne _ _ _ hne] at hv h3
      simp only [umap_find, Option.getD_none] at h3
      have := true_count_nonneg _ q hfp2
      omega


/-! ## The first pass of `learn` -/

theorem index_token_list_append :
    ∀ (a b : List CString) (idx : TokenIndex),
      index_token_list (a ++ b) idx =
        match index_token_list a idx with
        | .ok idx2 => index_token_list b idx2
        | .error e => .error e := by
  intro a
  induction a with
  | nil => intro b idx; rfl
  | cons t rest ih =>
    intro b idx
    simp only [List.cons_append, index_token_list]
    cases index_token idx t with
    | error e => rfl
    | ok idx2 => exact ih b idx2

theorem index_line_eq :
    ∀ (fuel : Nat) (stream : CString) (idx : TokenIndex), stream.length < fuel →
      index_line fuel stream idx = index_token_list (read_tokens fuel stream) idx := by
  intro fuel
  induction fuel with
  | zero => intro stream _ h; omega
  | succ fuel ih =>
    intro stream idx h
    simp only [index_line, read_tokens, getline]
    by_cases hs : stream = []
    · simp [hs, index_token_list]
    · simp only [hs, if_false, index_token_list]
      have hlen := getline_chars_length SPACE stream
      have hpos : 0 < stream.length := List.length_pos.mpr hs
      cases index_token idx (getline_chars SPACE stream).1 with
      | error e => rfl
      | ok idx2 => exact ih _ _ (by omega)

theorem index_file_eq :
    ∀ (fuel : Nat) (stream : CString) (idx : TokenIndex), stream.length < fuel →
      index_file fuel stream idx =
        index_token_list ((read_lines fuel stream).flatMap line_tokens) idx := by
  intro fuel
  induction fuel with
  | zero => intro stream _ h; omega
  | succ fuel ih =>
    intro stream idx h
    simp only [index_file, read_lines, getline]
    by_cases hs : stream = []
    · simp [hs, index_token_list]
    · simp only [hs, if_false, List.flatMap_cons]
      have hlen := getline_chars_length NEWLINE stream
      have hpos : 0 < stream.length := List.length_pos.mpr hs
      rw [index_token_list_append, index_line_eq _ _ _ (Nat.lt_succ_self _)]
      simp only [line_tokens]
      cases index_token_list
          (read_tokens ((getline_chars NEWLINE stream).1.length + 1)
            (getline_chars NEWLINE stream).1) idx with
      | error e => rfl
      | ok idx2 => exact ih _ _ (by omega)

theorem umap_value_mem_pos {K : Type} [DecidableEq K] (m : List (K × Int))
    (hpos : ∀ e ∈ m, 0 < e.2) (k : K) : 0 ≤ umap_value m k := by
  rw [umap_value_eq]
  cases h : umap_find m k with
  | none => simp
  | some v =>
    have := hpos _ (umap_find_some_mem _ _ _ h)
    simp only [Option.getD_some]
    omega

theorem foldl_uset_insert_mem (l : List CChar) :
    ∀ (s : List CChar) (b : CChar),
      b ∈ l.foldl uset_insert s ↔ b ∈ s ∨ b ∈ l := by
  induction l with
  | nil => intro s b; simp
  | cons x rest ih =>
    intro s b
    simp only [List.foldl_cons, ih, List.mem_cons]
    unfold uset_insert
    split
    · rename_i hx
      constructor
      · rintro (h | h)
        · exact Or.inl h
        · exact Or.inr (Or.inr h)
      · rintro (h | h | h)
        · exact Or.inl h
        · subst h; exact Or.inl hx
        · exact Or.inr h
    · simp only [List.mem_append, List.mem_singleton]
      tauto

theorem uset_insert_nodup (s : List CChar) (c : CChar) (h : s.Nodup) :
    (uset_insert s c).Nodup := by
  unfold uset_insert
  split
  · exact h
  · rename_i hc
    rw [List.nodup_append]
    exact ⟨h, by simp, by
      intro a ha hb
      simp only [List.mem_singleton] at hb
      subst hb
      exact hc ha⟩

theorem foldl_uset_insert_nodup (l : List CChar) :
    ∀ (s : List CChar), s.Nodup → (l.foldl uset_insert s).Nodup := by
  induction l with
  | nil => intro s h; exact h
  | cons x rest ih =>
    intro s h
    exact ih _ (uset_insert_nodup s x h)

/-- What the first pass has recorded after a list of tokens. -/
theorem index_token_list_spec :
    ∀ (tokens : List CString) (idx0 idx : TokenIndex),
      index_token_list tokens idx0 = .ok idx →
      (∀ e ∈ idx0.token_counter, 0 < e.2) →
      keys_nodup idx0.token_counter →
      (∀ t ∈ tokens, t ≠ []) ∧
      (∀ e ∈ idx.token_counter, 0 < e.2) ∧
      keys_nodup idx.token_counter ∧
      (∀ t, t ∈ idx.token_counter.map Prod.fst ↔
        t ∈ idx0.token_counter.map Prod.fst ∨ t ∈ tokens) ∧
      (∀ b, b ∈ idx.unique_internal_bytes ↔
        b ∈ idx0.unique_internal_bytes ∨ ∃ t ∈ tokens, b ∈ t.dropLast) ∧
      (∀ b, b ∈ idx.unique_final_bytes ↔
        b ∈ idx0.unique_final_bytes ∨ ∃ t ∈ tokens, t.getLast? = some b) ∧
      (idx0.unique_internal_bytes.Nodup → idx.unique_internal_bytes.Nodup) ∧
      (idx0.unique_final_bytes.Nodup → idx.unique_final_bytes.Nodup) := by
  intro tokens
  induction tokens with
  | nil =>
    intro idx0 idx h hpos hnd0
    simp only [index_token_list, Except.ok.injEq] at h
    subst h
    exact ⟨by simp, hpos, hnd0, by simp, by simp, by simp, id, id⟩
  | cons t rest ih =>
    intro idx0 idx h hpos hnd0
    simp only [index_token_list] at h
    cases h1 : index_token idx0 t with
    | error e => simp [h1] at h
    | ok idx1 =>
      simp only [h1] at h
      unfold index_token at h1
      obtain ⟨tc, htc, hval, hnd, hk1, hk2, hk3⟩ :=
        increment_counter_spec idx0.token_counter t 1 one_ne_zero
      simp only [htc] at h1
      cases hlast : t.getLast? with
      | none => simp [hlast] at h1
      | some back =>
        simp only [hlast, Except.ok.injEq] at h1
        subst h1
        have hne : t ≠ [] := by
          intro e; simp [e] at hlast
        have hpos1 : ∀ e ∈ tc, 0 < e.2 := by
          intro e he
          have hf := umap_mem_find tc (hnd hnd0) e.1 e.2 he
          have hv := hval e.1
          have h0 := umap_value_mem_pos _ hpos e.1
          rw [umap_value_eq, hf] at hv
          simp only [Option.getD_some] at hv
          by_cases hk : e.1 = t
          · simp only [hk, if_true] at hv; rw [hk] at h0; omega
          · simp only [hk, if_false, add_zero] at hv
            have hmem : e.1 ∈ idx0.token_counter.map Prod.fst := by
              rcases hk1 e.1 (List.mem_map.mpr ⟨e, he, rfl⟩) with h | h
              · exact absurd h hk
              · exact h
            obtain ⟨e0, he0, he0k⟩ := List.mem_map.mp hmem
            have hf0 := umap_mem_find _ hnd0 e0.1 e0.2 he0
            rw [he0k] at hf0
            rw [umap_value_eq, hf0] at hv
            simp only [Option.getD_some] at hv
            have := hpos e0 he0
            omega
        obtain ⟨g1, g2, g3, g4, g5, g6, g7, g8⟩ := ih _ idx h hpos1 (hnd hnd0)
        refine ⟨?_, g2, g3, ?_, ?_, ?_, ?_, ?_⟩
        · intro x hx
          rcases List.mem_cons.mp hx with rfl | hx
          · exact hne
          · exact g1 x hx
        · intro x
          rw [g4 x]
          simp only [List.mem_cons]
          constructor
          · rintro (h | h)
            · rcases hk1 x h with h | h
              · exact Or.inr (Or.inl h)
              · exact Or.inl h
            · exact Or.inr (Or.inr h)
          · rintro (h | h | h)
            · by_cases e : x = t
              · subst e
                exact Or.inl (hk3 one_pos)
              · exact Or.inl (hk2 x h e)
            · subst h
              exact Or.inl (hk3 one_pos)
            · exact Or.inr h
        · intro b
          rw [g5 b]
          simp only [foldl_uset_insert_mem, List.mem_cons, exists_eq_or_imp]
          tauto
        · intro b
          rw [g6 b]
          simp only [List.mem_cons, exists_eq_or_imp, hlast, Option.some.injEq]
          unfold uset_insert
          split
          · rename_i hb
            constructor
            · rintro (h | h)
              · exact Or.inl h
              · exact Or.inr (Or.inr h)
            · rintro (h | h | h)
              · exact Or.inl h
              · subst h; exact Or.inl hb
              · exact Or.inr h
          · simp only [List.mem_append, List.mem_singleton]
            constructor
            · rintro ((h | h) | h)
              · exact Or.inl h
              · exact Or.inr (Or.inl h.symm)
              · exact Or.inr (Or.inr h)
            · rintro (h | h | h)
              · exact Or.inl (Or.inl h)
              · exact Or.inl (Or.inr h.symm)
              · exact Or.inr h
        · intro hn
          exact g7 (foldl_uset_insert_nodup _ _ hn)
        · intro hn
          exact g8 (uset_insert_nodup _ _ hn)

theorem index_token_list_ok :
    ∀ (tokens : List CString) (idx0 : TokenIndex), (∀ t ∈ tokens, t ≠ []) →
      ∃ idx, index_token_list tokens idx0 = .ok idx := by
  intro tokens
  induction tokens with
  | nil => intro idx0 _; exact ⟨idx0, rfl⟩
  | cons t rest ih =>
    intro idx0 h
    obtain ⟨tc, htc, _⟩ := increment_counter_spec idx0.token_counter t 1 one_ne_zero
    have hne := h t (by simp)
    obtain ⟨back, hback⟩ : ∃ b, t.getLast? = some b := by
      cases hl : t.getLast? with
      | none => simp [List.getLast?_eq_none_iff] at hl; exact absurd hl hne
      | some b => exact ⟨b, rfl⟩
    simp only [index_token_list, index_token, htc, hback]
    exact ih _ (fun x hx => h x (List.mem_cons_of_mem _ hx))


/-! ## The base vocabulary -/

theorem char_to_int_injective (a b : CChar) (h : char_to_int a = char_to_int b) : a = b := by
  obtain ⟨x, hx⟩ := a
  obtain ⟨y, hy⟩ := b
  unfold char_to_int at h
  simp only at h
  apply Fin.ext
  simp only
  split at h <;> split at h <;> omega

theorem char_to_int_range (c : CChar) : -128 ≤ char_to_int c ∧ char_to_int c ≤ 127 := by
  obtain ⟨x, hx⟩ := c
  unfold char_to_int
  simp only
  split <;> omega

theorem set_insert_mem (c : CChar) :
    ∀ (s : List CChar) (x : CChar), x ∈ set_insert c s ↔ x = c ∨ x ∈ s := by
  intro s
  induction s with
  | nil => intro x; simp [set_insert]
  | cons y ys ih =>
    intro x
    simp only [set_insert]
    split
    · simp
    · split
      · simp only [List.mem_cons, ih]
        tauto
      · rename_i h1 h2
        have : c = y := char_to_int_injective _ _ (by omega)
        subst this
        simp

theorem set_insert_sorted (c : CChar) :
    ∀ (s : List CChar), strictly_increasing s → strictly_increasing (set_insert c s) := by
  intro s
  induction s with
  | nil => intro _; simp [set_insert, strictly_increasing]
  | cons y ys ih =>
    intro h
    simp only [strictly_increasing, List.pairwise_cons] at h
    obtain ⟨h1, h2⟩ := h
    simp only [set_insert]
    split
    · rename_i hlt
      simp only [strictly_increasing, List.pairwise_cons, List.mem_cons]
      refine ⟨?_, h1, h2⟩
      rintro x (rfl | hx)
      · exact hlt
      · have := h1 x hx; omega
    · split
      · rename_i hlt
        simp only [strictly_increasing, List.pairwise_cons]
        refine ⟨?_, ih h2⟩
        intro x hx
        rcases (set_insert_mem c ys x).mp hx with rfl | hx
        · exact hlt
        · exact h1 x hx
      · simp only [strictly_increasing, List.pairwise_cons]
        exact ⟨h1, h2⟩

theorem set_of_range_spec (bytes : List CChar) :
    strictly_increasing (set_of_range bytes) ∧
      ∀ x, x ∈ set_of_range bytes ↔ x ∈ bytes := by
  have key : ∀ (l s : List CChar), strictly_increasing s →
      strictly_increasing (l.foldl (fun s c => set_insert c s) s) ∧
        ∀ x, x ∈ l.foldl (fun s c => set_insert c s) s ↔ x ∈ s ∨ x ∈ l := by
    intro l
    induction l with
    | nil => intro s hs; exact ⟨hs, by simp⟩
    | cons c rest ih =>
      intro s hs
      obtain ⟨g1, g2⟩ := ih (set_insert c s) (set_insert_sorted c s hs)
      refine ⟨g1, ?_⟩
      intro x
      simp only [List.foldl_cons, g2, set_insert_mem, List.mem_cons]
      tauto
  obtain ⟨g1, g2⟩ := key bytes [] (by simp [strictly_increasing])
  exact ⟨g1, by intro x; rw [set_of_range, g2]; simp⟩

theorem strictly_increasing_nodup (s : List CChar) (h : strictly_increasing s) : s.Nodup := by
  unfold strictly_increasing at h
  exact h.imp (fun hab e => by rw [e] at hab; omega)

theorem emit_base_symbols_spec (type : SymbolType) :
    ∀ (bytes : List CChar) (sm : List Symbol) (b2s : List ((Int × SymbolType) × Int)),
      (emit_base_symbols type bytes (sm, b2s)).1 =
        sm ++ bytes.map (fun b => (SymbolValue.int (char_to_int b), type)) ∧
      (∀ key, key.2 ≠ type →
        umap_find (emit_base_symbols type bytes (sm, b2s)).2 key = umap_find b2s key) ∧
      (∀ b ∈ bytes, ∃ id, umap_find (emit_base_symbols type bytes (sm, b2s)).2
          (char_to_int b, type) = some id ∧
        vec_index (emit_base_symbols type bytes (sm, b2s)).1 id =
          some (SymbolValue.int (char_to_int b), type)) ∧
      (∀ key id, umap_find b2s key = some id → key.2 = type →
        vec_index sm id = some (SymbolValue.int key.1, type) →
        ∃ id2, umap_find (emit_base_symbols type bytes (sm, b2s)).2 key = some id2 ∧
          vec_index (emit_base_symbols type bytes (sm, b2s)).1 id2 =
            some (SymbolValue.int key.1, type)) := by
  intro bytes
  induction bytes with
  | nil =>
    intro sm b2s
    refine ⟨by simp [emit_base_symbols], fun _ _ => rfl, by simp, ?_⟩
    intro key id h _ hv
    exact ⟨id, h, hv⟩
  | cons b rest ih =>
    intro sm b2s
    simp only [emit_base_symbols]
    obtain ⟨g1, g2, g3, g4⟩ := ih (sm ++ [(.int (char_to_int b), type)])
      (umap_set b2s (char_to_int b, type) (sm.length : Int))
    have hnew : vec_index (sm ++ [(SymbolValue.int (char_to_int b), type)]) (sm.length : Int) =
        some (SymbolValue.int (char_to_int b), type) := by
      rw [vec_index_nat]
      simp
    refine ⟨by rw [g1]; simp, ?_, ?_, ?_⟩
    · intro key hk
      rw [g2 key hk]
      apply umap_find_set_ne
      intro e
      rw [← e] at hk
      exact hk rfl
    · intro x hx
      rcases List.mem_cons.mp hx with rfl | hx
      · exact g4 (char_to_int x, type) _ (umap_find_set_self _ _ _) rfl hnew
      · exact g3 x hx
    · intro key id h hk hv
      by_cases e : (char_to_int b, type) = key
      · subst e
        exact g4 _ _ (umap_find_set_self _ _ _) rfl hnew
      · exact g4 key id (by rw [umap_find_set_ne _ _ _ _ e]; exact h) hk
          (vec_index_append_left _ _ _ _ hv)


/-! ## The second pass of `learn` -/

theorem build_token_vec_spec (b2s : List ((Int × SymbolType) × Int)) (P : Int → Prop) :
    ∀ (token : CString), token ≠ [] →
      (∀ b ∈ token.dropLast, ∃ id, umap_find b2s (char_to_int b, .INTERNAL) = some id ∧ P id) →
      (∀ b, token.getLast? = some b →
        ∃ id, umap_find b2s (char_to_int b, .FINAL) = some id ∧ P id) →
      ∃ vec, build_token_vec token b2s = .ok (vec, b2s) ∧ ∀ x ∈ vec, P x := by
  intro token
  induction token with
  | nil => intro h; exact absurd rfl h
  | cons c rest ih =>
    intro _ hint hfin
    cases rest with
    | nil =>
      obtain ⟨id, hid, hp⟩ := hfin c (by simp)
      refine ⟨[id], ?_, by simpa using hp⟩
      simp [build_token_vec, umap_index, hid]
    | cons c2 rest2 =>
      obtain ⟨id, hid, hp⟩ := hint c (by simp [List.dropLast])
      obtain ⟨vec, hvec, hall⟩ := ih (by simp)
        (fun d hd => hint d (by simp only [List.dropLast_cons₂]; exact List.mem_cons_of_mem _ hd))
        (fun d hd => hfin d (by simpa using hd))
      refine ⟨id :: vec, ?_, ?_⟩
      · simp [build_token_vec, umap_index, hid, hvec]
      · intro x hx
        rcases List.mem_cons.mp hx with rfl | hx
        · exact hp
        · exact hall x hx

theorem true_count_append (T : List (List Int × Int)) (e : List Int × Int) (q : BytePair) :
    true_count (T ++ [e]) q = true_count T q + e.2 * (pair_occurrences q e.1 : Int) := by
  simp [true_count]

theorem occurrences_at_append (T : List (List Int × Int)) (e : List Int × Int) (q : BytePair)
    (j : Int) :
    occurrences_at (T ++ [e]) q j =
      occurrences_at T q j + if j = (T.length : Int) then (pair_occurrences q e.1 : Int) else 0 := by
  unfold occurrences_at vec_index
  by_cases h0 : 0 ≤ j
  · simp only [h0, if_true]
    by_cases hlt : j.toNat < T.length
    · rw [List.getElem?_append_left hlt]
      have : ¬ j = (T.length : Int) := by omega
      simp [this]
    · by_cases heq : j = (T.length : Int)
      · subst heq
        simp
      · have hgt : T.length < j.toNat := by omega
        rw [List.getElem?_eq_none (by simp; omega), List.getElem?_eq_none (by omega)]
        simp [heq]
  · have : ¬ j = (T.length : Int) := by omega
    simp [h0, this]

theorem index_tokens_spec (n : Nat) (b2s : List ((Int × SymbolType) × Int)) :
    ∀ (tc : List (CString × Int)) (C : List (BytePair × Int))
      (B : List (BytePair × List (Int × Int))) (T : List (List Int × Int)),
      (∀ e ∈ tc, e.1 ≠ [] ∧ 0 < e.2 ∧
        (∀ b ∈ e.1.dropLast, ∃ id, umap_find b2s (char_to_int b, .INTERNAL) = some id ∧
          (0 ≤ id ∧ id < (n : Int))) ∧
        (∀ b, e.1.getLast? = some b →
          ∃ id, umap_find b2s (char_to_int b, .FINAL) = some id ∧ (0 ≤ id ∧ id < (n : Int)))) →
      IndexInv n C B T →
      ∃ C2 B2 T2, index_tokens tc (b2s, C, B, T) = .ok (b2s, C2, B2, T2) ∧
        IndexInv n C2 B2 T2 ∧
        ∃ ext, T2 = T ++ ext ∧
          List.Forall₂ (fun e x => x.2 = e.2 ∧ build_token_vec e.1 b2s = .ok (x.1, b2s))
            tc ext := by
  intro tc
  induction tc with
  | nil =>
    intro C B T _ hinv
    exact ⟨C, B, T, rfl, hinv, [], by simp, List.Forall₂.nil⟩
  | cons e rest ih =>
    intro C B T htc hinv
    obtain ⟨token, cnt⟩ := e
    obtain ⟨hne, hcnt, hint, hfin⟩ := htc (token, cnt) (by simp)
    obtain ⟨vec, hvec, hvall⟩ := build_token_vec_spec b2s (fun id => 0 ≤ id ∧ id < (n : Int))
      token hne hint hfin
    obtain ⟨C1, B1, hadd, a1, a2, a3, a4, a5, a6, a7⟩ :=
      add_pairs_spec cnt (T.length : Int) (by omega) _ vec (le_refl _) C B
    have hinv1 : IndexInv n C1 B1 (T ++ [(vec, cnt)]) := by
      constructor
      · intro q
        rw [a1, hinv.count, true_count_append]
      · intro q j
        rw [a2, hinv.index, occurrences_at_append]
      · intro x hx
        rcases List.mem_append.mp hx with h | h
        · exact hinv.freq_pos x h
        · simp only [List.mem_singleton] at h
          subst h; exact hcnt
      · intro x hx
        rcases List.mem_append.mp hx with h | h
        · exact hinv.ids x h
        · simp only [List.mem_singleton] at h
          subst h; exact hvall
      · intro q hq
        rcases a4 q hq with h | h
        · exact hinv.keys q h
        · obtain ⟨g1, g2⟩ := pair_occurrences_pos_mem q vec h
          exact ⟨hvall _ g1, hvall _ g2⟩
      · have hmono : inner_keys_valid B (T.length + 1) := by
          intro q inner hq x hx
          have := hinv.inner q inner hq x hx
          push_cast
          omega
        have := a5 (T.length + 1) (by omega) (by push_cast; omega) hmono
        simpa using this
      · exact a3 hinv.counter_nodup
    obtain ⟨C2, B2, T2, hres, g1, ext, g2, g3⟩ :=
      ih C1 B1 (T ++ [(vec, cnt)]) (fun x hx => htc x (List.mem_cons_of_mem _ hx)) hinv1
    refine ⟨C2, B2, T2, ?_, g1, (vec, cnt) :: ext, by rw [g2]; simp, ?_⟩
    · simp only [index_tokens, hvec, hadd]
      exact hres
    · exact List.Forall₂.cons ⟨rfl, hvec⟩ g3

/-! ## The state at the start of the merge loop -/

theorem first_pass_spec (text : CString) (idx : TokenIndex)
    (h : index_file (text.length + 1) text ⟨[], [], []⟩ = .ok idx) :
    (∀ t ∈ corpus_tokens text, t ≠ []) ∧
    (∀ e ∈ idx.token_counter, 0 < e.2) ∧
    keys_nodup idx.token_counter ∧
    (∀ t, t ∈ idx.token_counter.map Prod.fst ↔ t ∈ corpus_tokens text) ∧
    (∀ b, b ∈ idx.unique_internal_bytes ↔ ∃ t ∈ corpus_tokens text, b ∈ t.dropLast) ∧
    (∀ b, b ∈ idx.unique_final_bytes ↔ ∃ t ∈ corpus_tokens text, t.getLast? = some b) ∧
    idx.unique_internal_bytes.Nodup ∧ idx.unique_final_bytes.Nodup := by
  rw [index_file_eq _ _ _ (Nat.lt_succ_self _)] at h
  obtain ⟨g1, g2, g3, g4, g5, g6, g7, g8⟩ :=
    index_token_list_spec _ ⟨[], [], []⟩ idx h (by simp) (by simp [keys_nodup])
  refine ⟨g1, g2, g3, ?_, ?_, ?_, g7 (by simp), g8 (by simp)⟩
  · intro t; rw [g4]; simp [corpus_tokens, file_lines]
  · intro b; rw [g5]; simp [corpus_tokens, file_lines]
  · intro b; rw [g6]; simp [corpus_tokens, file_lines]

theorem base_vocab_table (idx : TokenIndex) :
    (base_vocab idx).1 =
      (set_of_range idx.unique_internal_bytes).map
          (fun b => (SymbolValue.int (char_to_int b), SymbolType.INTERNAL)) ++
        (set_of_range idx.unique_final_bytes).map
          (fun b => (SymbolValue.int (char_to_int b), SymbolType.FINAL)) := by
  unfold base_vocab
  rw [(emit_base_symbols_spec .FINAL _ _ _).1]
  have := (emit_base_symbols_spec .INTERNAL (set_of_range idx.unique_internal_bytes) [] []).1
  rw [this]
  simp

theorem base_vocab_lookup (idx : TokenIndex) :
    (∀ b ∈ idx.unique_internal_bytes, ∃ id,
      umap_find (base_vocab idx).2 (char_to_int b, .INTERNAL) = some id ∧
      vec_index (base_vocab idx).1 id = some (.int (char_to_int b), .INTERNAL)) ∧
    (∀ b ∈ idx.unique_final_bytes, ∃ id,
      umap_find (base_vocab idx).2 (char_to_int b, .FINAL) = some id ∧
      vec_index (base_vocab idx).1 id = some (.int (char_to_int b), .FINAL)) := by
  constructor
  · intro b hb
    have hmem : b ∈ set_of_range idx.unique_internal_bytes :=
      ((set_of_range_spec _).2 b).mpr hb
    obtain ⟨id, h1, h2⟩ :=
      (emit_base_symbols_spec .INTERNAL (set_of_range idx.unique_internal_bytes) [] []).2.2.1
        b hmem
    refine ⟨id, ?_, ?_⟩
    · unfold base_vocab
      rw [← Prod.eta (emit_base_symbols .INTERNAL (set_of_range idx.unique_internal_bytes)
        ([], []))]
      rw [(emit_base_symbols_spec .FINAL _ _ _).2.1 _ (by simp)]
      exact h1
    · unfold base_vocab
      rw [← Prod.eta (emit_base_symbols .INTERNAL (set_of_range idx.unique_internal_bytes)
        ([], []))]
      rw [(emit_base_symbols_spec .FINAL _ _ _).1]
      exact vec_index_append_left _ _ _ _ h2
  · intro b hb
    have hmem : b ∈ set_of_range idx.unique_final_bytes :=
      ((set_of_range_spec _).2 b).mpr hb
    unfold base_vocab
    rw [← Prod.eta (emit_base_symbols .INTERNAL (set_of_range idx.unique_internal_bytes)
      ([], []))]
    exact (emit_base_symbols_spec .FINAL (set_of_range idx.unique_final_bytes) _ _).2.2.1
      b hmem

theorem learn_init_spec (text : CString) (st : LearnState) (h : learn_init text = .ok st) :
    ∃ idx, index_file (text.length + 1) text ⟨[], [], []⟩ = .ok idx ∧
      st.symbol_mapping = (base_vocab idx).1 ∧
      st.token_counter = idx.token_counter ∧
      LearnInv st ∧
      List.Forall₂
        (fun e x => x.2 = e.2 ∧
          build_token_vec e.1 (base_vocab idx).2 = .ok (x.1, (base_vocab idx).2))
        st.token_counter st.token_index_to_token_vec_and_freq := by
  unfold learn_init at h
  cases hidx : index_file (text.length + 1) text ⟨[], [], []⟩ with
  | error e => simp [hidx] at h
  | ok idx =>
    simp only [hidx] at h
    obtain ⟨g1, g2, g3, g4, g5, g6, _, _⟩ := first_pass_spec text idx hidx
    obtain ⟨l1, l2⟩ := base_vocab_lookup idx
    have hbound : ∀ (id : Int) (sym : Symbol), vec_index (base_vocab idx).1 id = some sym →
        0 ≤ id ∧ id < ((base_vocab idx).1.length : Int) := by
      intro id sym hv
      obtain ⟨h0, h1, _⟩ := vec_index_lt _ _ _ hv
      exact ⟨h0, h1⟩
    have htc : ∀ e ∈ idx.token_counter, e.1 ≠ [] ∧ 0 < e.2 ∧
        (∀ b ∈ e.1.dropLast, ∃ id,
          umap_find (base_vocab idx).2 (char_to_int b, .INTERNAL) = some id ∧
          (0 ≤ id ∧ id < ((base_vocab idx).1.length : Int))) ∧
        (∀ b, e.1.getLast? = some b →
          ∃ id, umap_find (base_vocab idx).2 (char_to_int b, .FINAL) = some id ∧
            (0 ≤ id ∧ id < ((base_vocab idx).1.length : Int))) := by
      intro e he
      have hkey : e.1 ∈ corpus_tokens text :=
        (g4 e.1).mp (List.mem_map.mpr ⟨e, he, rfl⟩)
      refine ⟨g1 _ hkey, g2 e he, ?_, ?_⟩
      · intro b hb
        obtain ⟨id, h1, h2⟩ := l1 b ((g5 b).mpr ⟨e.1, hkey, hb⟩)
        exact ⟨id, h1, hbound _ _ h2⟩
      · intro b hb
        obtain ⟨id, h1, h2⟩ := l2 b ((g6 b).mpr ⟨e.1, hkey, hb⟩)
        exact ⟨id, h1, hbound _ _ h2⟩
    have hinv0 : IndexInv (base_vocab idx).1.length [] [] [] := by
      constructor
      · intro q; simp [umap_value_eq, umap_find, true_count]
      · intro q j; simp [index_count, umap_find, occurrences_at, vec_index]
      · simp
      · simp
      · simp
      · intro q inner hq; simp [umap_find] at hq
      · simp [keys_nodup]
    obtain ⟨C2, B2, T2, hres, hinv, ext, hext, hfa⟩ :=
      index_tokens_spec _ (base_vocab idx).2 idx.token_counter [] [] [] htc hinv0
    simp only [hres, Except.ok.injEq] at h
    subst h
    simp only [List.nil_append] at hext
    subst hext
    refine ⟨idx, rfl, rfl, rfl, ?_, hfa⟩
    constructor
    · exact hinv.count
    · exact hinv.index
    · have := build_heap_spec C2 [] ⟨[], 0⟩ [] (by simpa using hinv.counter_nodup)
        ⟨by simp [umap_find], by simp [umap_find], by simp, by simp, by simp⟩
      simpa using this
    · exact hinv.freq_pos
    · exact hinv.ids
    · exact hinv.keys
    · exact hinv.inner
    · exact hinv.counter_nodup


/-! ## The merge loop -/

theorem merge_iteration_top (st st2 : LearnState) (s : Int)
    (h : merge_iteration st s = .ok st2) :
    ∃ k f q, st.bp_heap.top = some (k, (f, q)) := by
  unfold merge_iteration at h
  cases ht : st.bp_heap.top with
  | none => simp [ht] at h
  | some e => exact ⟨e.1, e.2.1, e.2.2, rfl⟩

theorem merge_loop_spec :
    ∀ (n : Nat) (st st2 : LearnState), LearnInv st →
      merge_loop n (st.symbol_mapping.length : Int) st = (.ok (), st2) →
      LearnInv st2 ∧
      st2.symbol_mapping.length = st.symbol_mapping.length + n ∧
      st2.token_counter = st.token_counter := by
  intro n
  induction n with
  | zero =>
    intro st st2 hinv h
    simp only [merge_loop, Prod.mk.injEq, true_and] at h
    subst h
    exact ⟨hinv, rfl, rfl⟩
  | succ n ih =>
    intro st st2 hinv h
    simp only [merge_loop] at h
    cases hit : merge_iteration st (st.symbol_mapping.length : Int) with
    | error e => simp [hit] at h
    | ok st1 =>
      simp only [hit] at h
      obtain ⟨k, f, q, htop⟩ := merge_iteration_top _ _ _ hit
      obtain ⟨st1b, h1, hinv1, hsm, _, htc, _⟩ := merge_iteration_spec st hinv k f q htop
      rw [hit] at h1
      simp only [Except.ok.injEq] at h1
      subst h1
      have hlen : ((st.symbol_mapping.length : Int) + 1) = (st1.symbol_mapping.length : Int) := by
        rw [hsm]; simp
      rw [hlen] at h
      obtain ⟨g1, g2, g3⟩ := ih st1 st2 hinv1 h
      refine ⟨g1, ?_, by rw [g3, htc]⟩
      rw [g2, hsm]; simp; omega

theorem merge_loop_error_state :
    ∀ (n : Nat) (s : Int) (st st2 : LearnState) (r : Except Error Unit),
      merge_loop n s st = (r, st2) →
      st.symbol_mapping.length ≤ st2.symbol_mapping.length := by
  intro n
  induction n with
  | zero =>
    intro s st st2 r h
    simp only [merge_loop, Prod.mk.injEq] at h
    rw [h.2]
  | succ n ih =>
    intro s st st2 r h
    simp only [merge_loop] at h
    cases hit : merge_iteration st s with
    | error e =>
      simp only [hit, Prod.mk.injEq] at h
      rw [h.2]
    | ok st1 =>
      simp only [hit] at h
      have := ih _ _ _ _ h
      have h1 : st.symbol_mapping.length ≤ st1.symbol_mapping.length := by
        unfold merge_iteration at hit
        split at hit
        · cases hit
        · split at hit
          · cases hit
          · split at hit
            · split at hit
              · cases hit
              · simp only [Except.ok.injEq] at hit
                rw [← hit]; simp
            · cases hit
      omega

/-- Every state reached after `k` completed merge iterations satisfies the
training invariant. -/
theorem reachable_inv (text : CString) (k : Nat) (st0 st : LearnState)
    (h0 : learn_init text = .ok st0)
    (hk : merge_loop k (st0.symbol_mapping.length : Int) st0 = (.ok (), st)) :
    LearnInv st := by
  obtain ⟨_, _, _, _, hinv, _⟩ := learn_init_spec text st0 h0
  exact (merge_loop_spec k st0 st hinv hk).1


/-! ## Claims on the merge loop -/

/-- C9: after the initial index construction (`k = 0`) and after every completed
merge iteration of `learn`, for every pair `p` the value of `p` in `bp_counter`
(0 when `p` is absent) equals the sum over the unique tokens of the token
frequency times the number of adjacent occurrences of `p` in the token's
current vector. -/
theorem count_consistency (text : CString) (k : Nat) (st0 st : LearnState)
    (h0 : learn_init text = .ok st0)
    (hk : merge_loop k (st0.symbol_mapping.length : Int) st0 = (.ok (), st)) :
    ∀ p : BytePair, (umap_find st.bp_counter p).getD 0 =
      true_count st.token_index_to_token_vec_and_freq p := by
  intro p
  rw [← umap_value_eq]
  exact (reachable_inv text k st0 st h0 hk).count p

/-- Witness of C9: the corpus `abab abab` after two merges, at the pair `(0, 4)`
(which then occurs once in the only token, of frequency 2). -/
theorem count_consistency_witness :
    (umap_find (state_after demo_corpus 2).bp_counter (0, 4)).getD 0 =
        true_count (state_after demo_corpus 2).token_index_to_token_vec_and_freq (0, 4) ∧
      true_count (state_after demo_corpus 2).token_index_to_token_vec_and_freq (0, 4) = 2 :=
  ⟨count_consistency demo_corpus 2 (state_after demo_corpus 0) (state_after demo_corpus 2)
    (by decide) (by decide) (0, 4), by decide⟩

theorem filter_singleton_of_nodup {β : Type} (p : Nat × β → Bool) :
    ∀ (l : List (Nat × β)) (x : Nat × β), (l.map Prod.fst).Nodup → x ∈ l → p x = true →
      (∀ e ∈ l, p e = true → e.1 = x.1) → l.filter p = [x] := by
  intro l
  induction l with
  | nil => intro x _ hx; simp at hx
  | cons y ys ih =>
    intro x hnd hx hpx hall
    simp only [List.map_cons, List.nodup_cons] at hnd
    rcases List.mem_cons.mp hx with rfl | hx
    · have hnone : ys.filter p = [] := by
        rw [List.filter_eq_nil_iff]
        intro e he hpe
        have := hall e (List.mem_cons_of_mem _ he) hpe
        apply hnd.1
        rw [← this]
        exact List.mem_map.mpr ⟨e, he, rfl⟩
      simp [List.filter_cons, hpx, hnone]
    · have hpy : p y = false := by
        by_contra hne
        have hy : p y = true := by simpa using hne
        have := hall y (by simp) hy
        apply hnd.1
        rw [this]
        exact List.mem_map.mpr ⟨x, hx, rfl⟩
      simp only [List.filter_cons, hpy, Bool.false_eq_true, if_false]
      exact ih x hnd.2 hx hpx (fun e he => hall e (List.mem_cons_of_mem _ he))

/-- C10: after the heap is built (`k = 0`) and after every completed merge
iteration of `learn`, a pair has a handle in `bp_heap_handles` if and only if
it is a key of `bp_counter`; the heap elements that carry a pair are exactly
one when the pair is a key of `bp_counter`, with that key's count as frequency,
and none otherwise; and the handle of a pair names that element. -/
theorem heap_frequency_agreement (text : CString) (k : Nat) (st0 st : LearnState)
    (h0 : learn_init text = .ok st0)
    (hk : merge_loop k (st0.symbol_mapping.length : Int) st0 = (.ok (), st)) :
    (∀ q : BytePair, (umap_find st.bp_heap_handles q).isSome ↔
      (umap_find st.bp_counter q).isSome) ∧
    (∀ q : BytePair, (st.bp_heap.elems.filter (fun e => decide (e.2.2 = q))).map
        (fun e => e.2.1) =
      match umap_find st.bp_counter q with
      | some f => [f]
      | none => []) ∧
    (∀ (q : BytePair) (handle : Nat), umap_find st.bp_heap_handles q = some handle →
      ∃ f, umap_find st.bp_counter q = some f ∧ (handle, (f, q)) ∈ st.bp_heap.elems) := by
  obtain ⟨ha, hb, hc, hd, _⟩ := (reachable_inv text k st0 st h0 hk).heap
  refine ⟨?_, ?_, hb⟩
  · intro q
    have := ha q
    simp only [ne_eq, ← Option.isSome_iff_ne_none] at this
    exact this
  · intro q
    cases hf : umap_find st.bp_counter q with
    | none =>
      simp only []
      rw [List.map_eq_nil_iff, List.filter_eq_nil_iff]
      intro e he hq
      simp only [decide_eq_true_eq] at hq
      have h1 := hc e he
      rw [hq] at h1
      have := (ha q).mp (by rw [h1]; simp)
      exact this hf
    | some f =>
      simp only []
      have hne : umap_find st.bp_heap_handles q ≠ none := (ha q).mpr (by rw [hf]; simp)
      obtain ⟨handle, hh⟩ := Option.ne_none_iff_exists'.mp hne
      obtain ⟨f2, hf2, hmem⟩ := hb q handle hh
      rw [hf] at hf2
      simp only [Option.some.injEq] at hf2
      subst hf2
      rw [filter_singleton_of_nodup _ _ (handle, (f, q)) hd hmem (by simp)]
      · rfl
      · intro e he hq
        simp only [decide_eq_true_eq] at hq
        have h1 := hc e he
        rw [hq, hh] at h1
        simp only [Option.some.injEq] at h1
        exact h1.symm

/-- Witness of C10: the corpus `abab abab` after one merge. -/
theorem heap_frequency_agreement_witness :
    (∀ q : BytePair, (umap_find (state_after demo_corpus 1).bp_heap_handles q).isSome ↔
      (umap_find (state_after demo_corpus 1).bp_counter q).isSome) ∧
    (∀ q : BytePair, ((state_after demo_corpus 1).bp_heap.elems.filter
        (fun e => decide (e.2.2 = q))).map (fun e => e.2.1) =
      match umap_find (state_after demo_corpus 1).bp_counter q with
      | some f => [f]
      | none => []) ∧
    (∀ (q : BytePair) (handle : Nat),
      umap_find (state_after demo_corpus 1).bp_heap_handles q = some handle →
      ∃ f, umap_find (state_after demo_corpus 1).bp_counter q = some f ∧
        (handle, (f, q)) ∈ (state_after demo_corpus 1).bp_heap.elems) :=
  heap_frequency_agreement demo_corpus 1 (state_after demo_corpus 0)
    (state_after demo_corpus 1) (by decide) (by decide)

/-- C8: in every iteration of the merge loop of `learn` that completes (the
iteration with loop variable `new_symbol = n_base_vocab + k`, run on the state
left by `k` completed iterations), the appended symbol is `Pair(l, r)` for a
pair whose true corpus count at that moment is greater than or equal to the
true corpus count of every pair. -/
theorem merge_takes_most_frequent (text : CString) (k : Nat) (st0 st st2 : LearnState)
    (h0 : learn_init text = .ok st0)
    (hk : merge_loop k (st0.symbol_mapping.length : Int) st0 = (.ok (), st))
    (hit : merge_iteration st ((st0.symbol_mapping.length : Int) + (k : Int)) = .ok st2) :
    ∃ top : BytePair,
      st2.symbol_mapping = st.symbol_mapping ++ [(.pair top, .BYTE_PAIR)] ∧
      ∀ q : BytePair, true_count st.token_index_to_token_vec_and_freq q ≤
        true_count st.token_index_to_token_vec_and_freq top := by
  have hinv := reachable_inv text k st0 st h0 hk
  have hlen : (st0.symbol_mapping.length : Int) + (k : Int) = (st.symbol_mapping.length : Int) := by
    obtain ⟨_, _, _, _, hinv0, _⟩ := learn_init_spec text st0 h0
    rw [(merge_loop_spec k st0 st hinv0 hk).2.1]
    push_cast; rfl
  rw [hlen] at hit
  obtain ⟨handle, f, top, htop⟩ := merge_iteration_top _ _ _ hit
  obtain ⟨st2b, h1, _, hsm, _, _, hcf, _⟩ := merge_iteration_spec st hinv handle f top htop
  rw [hit] at h1
  simp only [Except.ok.injEq] at h1
  subst h1
  refine ⟨top, hsm, ?_⟩
  intro q
  have htopc : true_count st.token_index_to_token_vec_and_freq top = f := by
    rw [← hinv.count, umap_value_eq, hcf]; rfl
  have hnn : 0 ≤ true_count st.token_index_to_token_vec_and_freq top :=
    true_count_nonneg _ _ hinv.freq_pos
  rw [htopc] at hnn ⊢
  rw [← hinv.count, umap_value_eq]
  cases hq : umap_find st.bp_counter q with
  | none => simpa using hnn
  | some f2 =>
    simp only [Option.getD_some]
    obtain ⟨ha, hb, _, _, _⟩ := hinv.heap
    have hne : umap_find st.bp_heap_handles q ≠ none := (ha q).mpr (by rw [hq]; simp)
    obtain ⟨h2, hh2⟩ := Option.ne_none_iff_exists'.mp hne
    obtain ⟨f3, hf3, hmem⟩ := hb q h2 hh2
    rw [hq] at hf3
    simp only [Option.some.injEq] at hf3
    subst hf3
    have := (heap_max_spec _ _ htop).2 _ hmem
    revert this
    simp only [value_less, Bool.or_eq_false_iff, decide_eq_false_iff_not,
      Bool.and_eq_false_iff, Bool.not_eq_false', decide_eq_true_eq]
    omega

/-- Witness of C8: the second merge on the corpus `abab abab`. -/
theorem merge_takes_most_frequent_witness :
    ∃ top : BytePair,
      (state_after demo_corpus 2).symbol_mapping =
        (state_after demo_corpus 1).symbol_mapping ++ [(.pair top, .BYTE_PAIR)] ∧
      ∀ q : BytePair,
        true_count (state_after demo_corpus 1).token_index_to_token_vec_and_freq q ≤
          true_count (state_after demo_corpus 1).token_index_to_token_vec_and_freq top :=
  merge_takes_most_frequent demo_corpus 1 (state_after demo_corpus 0)
    (state_after demo_corpus 1) (state_after demo_corpus 2)
    (by decide) (by decide) (by decide)


/-! ## Vocabulary size -/

theorem length_eq_of_nodup_of_mem_iff {α : Type} (l1 l2 : List α) (h1 : l1.Nodup)
    (h2 : l2.Nodup) (h : ∀ a, a ∈ l1 ↔ a ∈ l2) : l1.length = l2.length :=
  ((List.perm_ext_iff_of_nodup h1 h2).mpr h).length_eq

theorem n_base_vocab_eq (text : CString) (st0 : LearnState) (h0 : learn_init text = .ok st0) :
    st0.symbol_mapping.length = base_size text := by
  obtain ⟨idx, hidx, hsm, _, _, _⟩ := learn_init_spec text st0 h0
  obtain ⟨_, _, _, _, g5, g6, _, _⟩ := first_pass_spec text idx hidx
  rw [hsm, base_vocab_table]
  simp only [List.length_append, List.length_map, base_size]
  congr 1
  · apply length_eq_of_nodup_of_mem_iff _ _
      (strictly_increasing_nodup _ (set_of_range_spec _).1) (List.nodup_dedup _)
    intro b
    rw [(set_of_range_spec _).2, g5, List.mem_dedup, List.mem_flatMap]
  · apply length_eq_of_nodup_of_mem_iff _ _
      (strictly_increasing_nodup _ (set_of_range_spec _).1) (List.nodup_dedup _)
    intro b
    rw [(set_of_range_spec _).2, g6, List.mem_dedup, List.mem_filterMap]

theorem learn_init_ok (text : CString) (h : ∀ t ∈ corpus_tokens text, t ≠ []) :
    ∃ st0, learn_init text = .ok st0 := by
  obtain ⟨idx, hidx⟩ := index_token_list_ok (corpus_tokens text) ⟨[], [], []⟩ h
  have hfile : index_file (text.length + 1) text ⟨[], [], []⟩ = .ok idx := by
    rw [index_file_eq _ _ _ (Nat.lt_succ_self _)]
    exact hidx
  obtain ⟨g1, g2, g3, g4, g5, g6, _, _⟩ := first_pass_spec text idx hfile
  obtain ⟨l1, l2⟩ := base_vocab_lookup idx
  have htc : ∀ e ∈ idx.token_counter, e.1 ≠ [] ∧ 0 < e.2 ∧
      (∀ b ∈ e.1.dropLast, ∃ id,
        umap_find (base_vocab idx).2 (char_to_int b, .INTERNAL) = some id ∧
        (0 ≤ id ∧ id < ((base_vocab idx).1.length : Int))) ∧
      (∀ b, e.1.getLast? = some b →
        ∃ id, umap_find (base_vocab idx).2 (char_to_int b, .FINAL) = some id ∧
          (0 ≤ id ∧ id < ((base_vocab idx).1.length : Int))) := by
    intro e he
    have hkey : e.1 ∈ corpus_tokens text :=
      (g4 e.1).mp (List.mem_map.mpr ⟨e, he, rfl⟩)
    refine ⟨g1 _ hkey, g2 e he, ?_, ?_⟩
    · intro b hb
      obtain ⟨id, h1, h2⟩ := l1 b ((g5 b).mpr ⟨e.1, hkey, hb⟩)
      obtain ⟨h3, h4, _⟩ := vec_index_lt _ _ _ h2
      exact ⟨id, h1, h3, h4⟩
    · intro b hb
      obtain ⟨id, h1, h2⟩ := l2 b ((g6 b).mpr ⟨e.1, hkey, hb⟩)
      obtain ⟨h3, h4, _⟩ := vec_index_lt _ _ _ h2
      exact ⟨id, h1, h3, h4⟩
  have hinv0 : IndexInv (base_vocab idx).1.length [] [] [] := by
    constructor
    · intro q; simp [umap_value_eq, umap_find, true_count]
    · intro q j; simp [index_count, umap_find, occurrences_at, vec_index]
    · simp
    · simp
    · simp
    · intro q inner hq; simp [umap_find] at hq
    · simp [keys_nodup]
  obtain ⟨C2, B2, T2, hres, _⟩ :=
    index_tokens_spec _ (base_vocab idx).2 idx.token_counter [] [] [] htc hinv0
  refine ⟨{ symbol_mapping := (base_vocab idx).1
            token_counter := idx.token_counter
            bp_counter := C2
            bp_to_token_index_counter := B2
            token_index_to_token_vec_and_freq := T2
            bp_heap := (build_heap C2 (⟨[], 0⟩, [])).1
            bp_heap_handles := (build_heap C2 (⟨[], 0⟩, [])).2 }, ?_⟩
  simp only [learn_init, hfile, hres]

theorem generate_loop_base (type : SymbolType) (ht : type = .INTERNAL ∨ type = .FINAL) :
    ∀ (bytes : List CChar) (rest : List Symbol) (strs : List CString),
      ∃ strs2, generate_symbol_strings_loop
          (bytes.map (fun b => (SymbolValue.int (char_to_int b), type)) ++ rest) strs =
        generate_symbol_strings_loop rest strs2 := by
  intro bytes
  induction bytes with
  | nil => intro rest strs; exact ⟨strs, rfl⟩
  | cons b bs ih =>
    intro rest strs
    rcases ht with rfl | rfl
    · obtain ⟨s2, hs2⟩ := ih rest (strs ++ [[b]])
      exact ⟨s2, by
        simp only [List.map_cons, List.cons_append, generate_symbol_strings_loop,
          numeric_cast_char_to_int]
        exact hs2⟩
    · obtain ⟨s2, hs2⟩ := ih rest (strs ++ [[b] ++ [SPACE]])
      exact ⟨s2, by
        simp only [List.map_cons, List.cons_append, generate_symbol_strings_loop,
          numeric_cast_char_to_int]
        exact hs2⟩

theorem build_model_base (idx : TokenIndex) : (build_model (base_vocab idx).1).1 = .ok () := by
  simp only [build_model, ByteBPE.create_reverse_symbol_mapping, ByteBPE.generate_symbol_strings,
    ne_eq, not_true_eq_false, if_false]
  rw [base_vocab_table]
  obtain ⟨s1, h1⟩ := generate_loop_base .INTERNAL (Or.inl rfl)
    (set_of_range idx.unique_internal_bytes)
    ((set_of_range idx.unique_final_bytes).map
      (fun b => (SymbolValue.int (char_to_int b), SymbolType.FINAL))) []
  obtain ⟨s2, h2⟩ := generate_loop_base .FINAL (Or.inr rfl)
    (set_of_range idx.unique_final_bytes) [] s1
  rw [h1]
  rw [List.append_nil] at h2
  rw [h2]
  rfl

theorem learn_unfold_ok (m : ByteBPE) (text : CString) (vocab_size : Int) (st0 : LearnState)
    (h0 : learn_init text = .ok st0) :
    m.learn (some text) vocab_size =
      match merge_loop (merge_count vocab_size st0) (st0.symbol_mapping.length : Int) st0 with
      | (.error e, st) => (.error e, ⟨st.symbol_mapping, [], []⟩)
      | (.ok (), st) => build_model st.symbol_mapping := by
  simp only [ByteBPE.learn, learn_run, h0, ByteBPE.clear]
  generalize merge_loop (merge_count vocab_size st0) (st0.symbol_mapping.length : Int) st0 = res
  obtain ⟨r, st⟩ := res
  cases r with
  | error e => rfl
  | ok u => cases u; rfl

/-- C6 (amended): whenever `learn` completes without error, the symbol table
has exactly `vocab_size` entries if `vocab_size >= base_size` and exactly
`base_size` entries otherwise; and when all corpus tokens are non-empty and
`vocab_size <= base_size`, `learn` does complete (the merge loop runs zero
times) with exactly `base_size` entries. -/
theorem vocabulary_size (m : ByteBPE) (text : CString) (vocab_size : Int) :
    ((m.learn (some text) vocab_size).1 = .ok () →
      ((m.learn (some text) vocab_size).2.symbol_mapping.length : Int) =
        if vocab_size ≥ (base_size text : Int) then vocab_size else (base_size text : Int)) ∧
    ((∀ t ∈ corpus_tokens text, t ≠ []) → vocab_size ≤ (base_size text : Int) →
      (m.learn (some text) vocab_size).1 = .ok () ∧
      (m.learn (some text) vocab_size).2.symbol_mapping.length = base_size text) := by
  constructor
  · intro hok
    cases h0 : learn_init text with
    | error e => simp [ByteBPE.learn, learn_run, h0] at hok
    | ok st0 =>
      rw [learn_unfold_ok m text vocab_size st0 h0] at hok ⊢
      obtain ⟨_, _, _, _, hinv0, _⟩ := learn_init_spec text st0 h0
      have hn := n_base_vocab_eq text st0 h0
      cases hl : merge_loop (merge_count vocab_size st0) (st0.symbol_mapping.length : Int) st0 with
      | mk r st =>
        cases r with
        | error e => simp [hl] at hok
        | ok u =>
          cases u
          simp only [build_model_symbol_mapping]
          rw [(merge_loop_spec _ st0 st hinv0 hl).2.1, merge_count, hn]
          split <;> omega
  · intro hne hle
    obtain ⟨st0, h0⟩ := learn_init_ok text hne
    obtain ⟨idx, _, hsm, _, _, _⟩ := learn_init_spec text st0 h0
    have hn := n_base_vocab_eq text st0 h0
    have hc : merge_count vocab_size st0 = 0 := by
      unfold merge_count; rw [hn]; omega
    rw [learn_unfold_ok m text vocab_size st0 h0, hc]
    simp only [merge_loop, build_model_symbol_mapping]
    rw [hsm] at hn ⊢
    exact ⟨build_model_base idx, hn⟩

/-- Counterexample to C6 as stated: on the corpus `a b c` (base size 3) with
`vocab_size = 6`, `learn` does not end with 6 symbols: the merge loop pops the
empty heap in its first iteration, with the table still at 3 entries. -/
theorem vocabulary_size_counterexample :
    base_size (cstr "a b c\n") = 3 ∧
    (ByteBPE.empty.learn (some (cstr "a b c\n")) 6).1 = .error .undefined_behaviour ∧
    (ByteBPE.empty.learn (some (cstr "a b c\n")) 6).2.symbol_mapping.length = 3 := by
  decide

/-- C7 (the code's defect): an iteration of the merge loop that starts with an
empty heap does not halt the loop, it reads `bp_heap.top()` of the empty heap,
which is undefined; so `learn` on the corpus `a b c` with `vocab_size = 6` and
on the corpus `ab ab ab` with `vocab_size = 4` ends in undefined behaviour
instead of a model with 3 symbols. -/
theorem empty_heap_is_undefined :
    (∀ (st : LearnState) (new_symbol : Int), st.bp_heap.elems = [] →
      merge_iteration st new_symbol = .error .undefined_behaviour) ∧
    (ByteBPE.empty.learn (some (cstr "a b c\n")) 6).1 = .error .undefined_behaviour ∧
    (ByteBPE.empty.learn (some (cstr "ab ab ab\n")) 4).1 = .error .undefined_behaviour := by
  refine ⟨?_, by decide, by decide⟩
  intro st s h
  simp [merge_iteration, FibHeap.top, h, heap_max]


/-! ## Save/load round trip -/

theorem base_size_le (text : CString) : base_size text ≤ 512 := by
  unfold base_size
  have h1 := List.Nodup.length_le_card
    (List.nodup_dedup ((corpus_tokens text).flatMap List.dropLast))
  have h2 := List.Nodup.length_le_card
    (List.nodup_dedup ((corpus_tokens text).filterMap List.getLast?))
  simp only [Fintype.card_fin] at h1 h2
  omega

theorem learn_ok (m0 M : ByteBPE) (file : Option CString) (vocab_size : Int)
    (hV : vocab_size ≤ INT_MAX) (h : m0.learn file vocab_size = (.ok (), M)) :
    build_model M.symbol_mapping = (.ok (), M) ∧
    ∀ l r t, (SymbolValue.pair (l, r), t) ∈ M.symbol_mapping → l ≤ INT_MAX ∧ r ≤ INT_MAX := by
  cases file with
  | none => simp [ByteBPE.learn] at h
  | some text =>
    cases h0 : learn_init text with
    | error e => simp [ByteBPE.learn, learn_run, h0] at h
    | ok st0 =>
      rw [learn_unfold_ok m0 text vocab_size st0 h0] at h
      obtain ⟨_, _, _, _, hinv0, _⟩ := learn_init_spec text st0 h0
      have hn := n_base_vocab_eq text st0 h0
      have hb := base_size_le text
      cases hl : merge_loop (merge_count vocab_size st0) (st0.symbol_mapping.length : Int) st0 with
      | mk r st =>
        cases r with
        | error e => simp [hl] at h
        | ok u =>
          cases u
          simp only [hl] at h
          have hlen := (merge_loop_spec _ st0 st hinv0 hl).2.1
          obtain ⟨hsm, _, hgen⟩ := build_model_ok _ _ h
          rw [hsm]
          refine ⟨h, ?_⟩
          intro l r t hin
          obtain ⟨_, _, hac⟩ := generate_loop_acyclic _ _ _ hgen
          obtain ⟨i, hi⟩ := List.getElem?_of_mem hin
          obtain ⟨⟨_, hl1⟩, ⟨_, hr1⟩⟩ := hac i l r t hi
          have hi2 : i < st.symbol_mapping.length := by
            by_contra hc
            rw [List.getElem?_eq_none (by omega)] at hi
            cases hi
          simp only [List.length_nil, Nat.zero_add] at hl1 hr1
          unfold merge_count at hlen
          simp only [INT_MAX] at hV ⊢
          omega

/-- C3: for every model `M` produced by a successful `load_from_file` or by a
successful `learn` (with a `vocab_size` that is a 32-bit `int`), `save_to_file`
succeeds, and loading the text it writes, into an empty object or with
`overwrite = true`, succeeds and yields a model equal to `M` in
`symbol_mapping`, `bp_to_symbol` and `symbol_to_string`. -/
theorem save_load_round_trip (M prev : ByteBPE) (overwrite : Bool)
    (hM : (∃ (m0 : ByteBPE) (file : Option CString) (ow : Bool),
            m0.load_from_file file ow = (.ok (), M)) ∨
          (∃ (m0 : ByteBPE) (file : Option CString) (vocab_size : Int),
            vocab_size ≤ INT_MAX ∧ m0.learn file vocab_size = (.ok (), M)))
    (hprev : prev.symbol_mapping = [] ∨ overwrite = true) :
    (M.save_to_file true).1 = .ok () ∧
    prev.load_from_file (some (M.save_to_file true).2) overwrite = (.ok (), M) := by
  have key : build_model M.symbol_mapping = (.ok (), M) ∧
      ∀ l r t, (SymbolValue.pair (l, r), t) ∈ M.symbol_mapping → l ≤ INT_MAX ∧ r ≤ INT_MAX := by
    rcases hM with ⟨m0, file, ow, h⟩ | ⟨m0, file, V, hV, h⟩
    · exact load_from_file_ok m0 M file ow h
    · exact learn_ok m0 M file V hV h
  obtain ⟨h1, h2⟩ := save_load_core M prev overwrite key.1 key.2 hprev
  rw [h1]
  exact ⟨rfl, h2⟩

/-- Witness of C3: the model learned from the corpus `abab abab` with
`vocab_size = 6`, saved and loaded over the model of `demo_table`. -/
theorem save_load_round_trip_witness :
    ((ByteBPE.empty.learn (some demo_corpus) 6).2.save_to_file true).1 = .ok () ∧
    demo_model.load_from_file
        (some ((ByteBPE.empty.learn (some demo_corpus) 6).2.save_to_file true).2) true =
      (.ok (), (ByteBPE.empty.learn (some demo_corpus) 6).2) :=
  save_load_round_trip (ByteBPE.empty.learn (some demo_corpus) 6).2 demo_model true
    (Or.inr ⟨ByteBPE.empty, some demo_corpus, 6, by decide, by decide⟩) (Or.inr rfl)


/-! ## Training and inference -/

theorem pair_occurrences_cons_of_ne (q : BytePair) (x : Int) (w : List Int) (h : q.1 ≠ x) :
    pair_occurrences q (x :: w) = pair_occurrences q w := by
  cases w with
  | nil => simp [pair_occurrences]
  | cons y ys =>
    have : ¬ (x, y) = q := by
      intro e; rw [← e] at h; exact h rfl
    simp [pair_occurrences, this]

theorem pair_occurrences_tail_le (q : BytePair) (x : Int) (w : List Int) :
    pair_occurrences q w ≤ pair_occurrences q (x :: w) := by
  cases w with
  | nil => simp [pair_occurrences]
  | cons y ys => simp only [pair_occurrences]; omega

theorem pair_occurrences_substitute_le (q bp : BytePair) (s : Int) (h1 : q.1 ≠ s)
    (h2 : q.2 ≠ s) :
    ∀ (n : Nat) (v : List Int), v.length ≤ n →
      pair_occurrences q (substitute_byte_pair v bp s) ≤ pair_occurrences q v := by
  intro n
  induction n with
  | zero =>
    intro v hv
    cases v with
    | nil => simp [substitute_byte_pair]
    | cons x xs => simp at hv
  | succ n ih =>
    intro v hv
    match v with
    | [] => simp [substitute_byte_pair]
    | [x] => simp [substitute_byte_pair]
    | x :: y :: rest =>
      have ihr := ih rest (by simp at hv; omega)
      have ihy := ih (y :: rest) (by simp at hv ⊢; omega)
      have hm1 := pair_occurrences_tail_le q y rest
      have hm2 := pair_occurrences_tail_le q x (y :: rest)
      simp only [substitute_byte_pair]
      by_cases hxy : (x, y) = bp
      · simp only [hxy, if_true]
        rw [pair_occurrences_cons_of_ne q s _ h1]
        omega
      · simp only [hxy, if_false]
        obtain ⟨w, hw | hw⟩ := substitute_head bp s y rest
        · rw [hw] at ihy ⊢
          simp only [pair_occurrences] at ihy ⊢
          omega
        · rw [hw] at ihy ⊢
          have : ¬ (x, s) = q := by
            intro e; rw [← e] at h2; exact h2 rfl
          simp only [pair_occurrences, this, if_false, Nat.zero_add] at ihy ⊢
          omega

theorem true_count_zero (q : BytePair) :
    ∀ (T : List (List Int × Int)), (∀ e ∈ T, 0 < e.2) → true_count T q = 0 →
      ∀ e ∈ T, pair_occurrences q e.1 = 0 := by
  intro T
  induction T with
  | nil => intro _ _ e he; simp at he
  | cons x rest ih =>
    intro hpos h0 e he
    have hx := hpos x (by simp)
    have hrest := fun e he => hpos e (List.mem_cons_of_mem _ he)
    have hnn := true_count_nonneg rest q hrest
    simp only [true_count, List.map_cons, List.sum_cons] at h0 hnn
    have hterm : 0 ≤ x.2 * (pair_occurrences q x.1 : Int) := by positivity
    have h1 : x.2 * (pair_occurrences q x.1 : Int) = 0 := by omega
    have h2 : (rest.map (fun e => e.2 * (pair_occurrences q e.1 : Int))).sum = 0 := by omega
    rcases List.mem_cons.mp he with rfl | he
    · rcases Int.mul_eq_zero.mp h1 with h | h
      · omega
      · exact_mod_cast h
    · exact ih hrest h2 e he

theorem create_reverse_loop_absent (sym : Symbol) :
    ∀ (table : List Symbol) (k : Int) (mp : List (Symbol × Int)), sym ∉ table →
      umap_find (create_reverse_symbol_mapping_loop table k mp) sym = umap_find mp sym := by
  intro table
  induction table with
  | nil => intro k mp _; rfl
  | cons x rest ih =>
    intro k mp h
    simp only [List.mem_cons, not_or] at h
    simp only [create_reverse_symbol_mapping_loop]
    rw [ih _ _ h.2, umap_find_set_ne _ _ _ _ (fun e => h.1 e.symm)]

theorem create_reverse_loop_last (sym : Symbol) :
    ∀ (table : List Symbol) (k : Int) (mp : List (Symbol × Int)) (i : Nat),
      table[i]? = some sym → (∀ j, i < j → table[j]? ≠ some sym) →
      umap_find (create_reverse_symbol_mapping_loop table k mp) sym = some (k + i) := by
  intro table
  induction table with
  | nil => intro k mp i h; simp at h
  | cons x rest ih =>
    intro k mp i h hlast
    simp only [create_reverse_symbol_mapping_loop]
    cases i with
    | zero =>
      simp only [List.getElem?_cons_zero, Option.some.injEq] at h
      subst h
      have hnot : x ∉ rest := by
        intro hmem
        obtain ⟨j, hj⟩ := List.getElem?_of_mem hmem
        exact hlast (j + 1) (by omega) (by simpa using hj)
      rw [create_reverse_loop_absent x rest _ _ hnot, umap_find_set_self]
      simp
    | succ j =>
      simp only [List.getElem?_cons_succ] at h
      rw [ih (k + 1) _ j h (fun j2 hj2 => by
        have := hlast (j2 + 1) (by omega)
        simpa using this)]
      congr 1
      push_cast
      ring

theorem create_reverse_loop_nodup (table : List Symbol) (hn : table.Nodup) (i : Nat)
    (sym : Symbol) (h : table[i]? = some sym) :
    umap_find (create_reverse_symbol_mapping_loop table 0 []) sym = some (i : Int) := by
  have := create_reverse_loop_last sym table 0 [] i h (by
    intro j hj hj2
    have hi : i < table.length := by
      by_contra hc
      rw [List.getElem?_eq_none (by omega)] at h
      cases h
    have hjl : j < table.length := by
      by_contra hc
      rw [List.getElem?_eq_none (by omega)] at hj2
      cases hj2
    rw [List.getElem?_eq_getElem hi] at h
    rw [List.getElem?_eq_getElem hjl] at hj2
    simp only [Option.some.injEq] at h hj2
    have := (List.Nodup.getElem_inj_iff hn).mp (h.trans hj2.symm)
    omega)
  simpa using this

theorem min_bp_scan_min (mp : List (Symbol × Int)) :
    ∀ (n : Nat) (v : List Int) (acc : BytePair × Int), v.length ≤ n →
      (min_bp_scan mp v acc).2 ≤ acc.2 ∧
      ∀ q s, 0 < pair_occurrences q v → umap_find mp (.pair q, .BYTE_PAIR) = some s →
        (min_bp_scan mp v acc).2 ≤ s := by
  intro n
  induction n with
  | zero =>
    intro v acc hv
    cases v with
    | nil => simp [min_bp_scan, pair_occurrences]
    | cons x xs => simp at hv
  | succ n ih =>
    intro v acc hv
    obtain ⟨min_bp, min_bp_symbol⟩ := acc
    match v with
    | [] => simp [min_bp_scan, pair_occurrences]
    | [x] => simp [min_bp_scan, pair_occurrences]
    | x :: y :: rest =>
      have hlen : (y :: rest).length ≤ n := by simp at hv ⊢; omega
      have hq : ∀ (acc2 : BytePair × Int),
          (∀ s, umap_find mp (.pair (x, y), .BYTE_PAIR) = some s → acc2.2 ≤ s) →
          acc2.2 ≤ min_bp_symbol →
          (min_bp_scan mp (y :: rest) acc2).2 ≤ min_bp_symbol ∧
          ∀ q s, 0 < pair_occurrences q (x :: y :: rest) →
            umap_find mp (.pair q, .BYTE_PAIR) = some s →
            (min_bp_scan mp (y :: rest) acc2).2 ≤ s := by
        intro acc2 h1 h2
        obtain ⟨g1, g2⟩ := ih (y :: rest) acc2 hlen
        refine ⟨le_trans g1 h2, ?_⟩
        intro q s hocc hf
        simp only [pair_occurrences] at hocc
        by_cases e : (x, y) = q
        · subst e
          exact le_trans g1 (h1 s hf)
        · simp only [e, if_false, Nat.zero_add] at hocc
          exact g2 q s hocc hf
      cases hf : umap_find mp (.pair (x, y), .BYTE_PAIR) with
      | none =>
        have e : min_bp_scan mp (x :: y :: rest) (min_bp, min_bp_symbol) =
            min_bp_scan mp (y :: rest) (min_bp, min_bp_symbol) := by
          simp only [min_bp_scan, hf]
        rw [e]
        exact hq _ (by intro s hs; rw [hf] at hs; cases hs) (le_refl _)
      | some s0 =>
        by_cases hlt : s0 < min_bp_symbol
        · have e : min_bp_scan mp (x :: y :: rest) (min_bp, min_bp_symbol) =
              min_bp_scan mp (y :: rest) ((x, y), s0) := by
            simp only [min_bp_scan, hf, hlt, if_true]
          rw [e]
          exact hq _ (by
            intro s hs
            rw [hf] at hs
            simp only [Option.some.injEq] at hs
            simp only; omega) (by simp only; omega)
        · have e : min_bp_scan mp (x :: y :: rest) (min_bp, min_bp_symbol) =
              min_bp_scan mp (y :: rest) (min_bp, min_bp_symbol) := by
            simp only [min_bp_scan, hf, hlt, if_false]
          rw [e]
          exact hq _ (by
            intro s hs
            rw [hf] at hs
            simp only [Option.some.injEq] at hs
            simp only; omega) (le_refl _)


theorem apply_merges_append :
    ∀ (a b : List Symbol) (start : Int) (v : List Int),
      apply_merges start (a ++ b) v =
        apply_merges (start + (a.length : Int)) b (apply_merges start a v) := by
  intro a
  induction a with
  | nil => intro b start v; simp [apply_merges]
  | cons x rest ih =>
    intro b start v
    obtain ⟨value, type⟩ := x
    have e : start + 1 + (rest.length : Int) = start + ((rest.length + 1 : Nat) : Int) := by
      push_cast; ring
    cases value with
    | pair q =>
      simp only [List.cons_append, apply_merges, List.length_cons, List.append_eq]
      rw [ih, e]
    | int c =>
      simp only [List.cons_append, apply_merges, List.length_cons, List.append_eq]
      rw [ih, e]

theorem apply_merges_no_occurrence :
    ∀ (ms : List Symbol) (start : Int) (v : List Int),
      (∀ q t, (SymbolValue.pair q, t) ∈ ms → pair_occurrences q v = 0) →
      apply_merges start ms v = v := by
  intro ms
  induction ms with
  | nil => intro start v _; rfl
  | cons x rest ih =>
    intro start v h
    obtain ⟨value, type⟩ := x
    cases value with
    | pair q =>
      simp only [apply_merges]
      rw [substitute_id_of_no_occurrence q start _ v (le_refl _) (h q type (by simp))]
      exact ih _ _ (fun q2 t2 h2 => h q2 t2 (List.mem_cons_of_mem _ h2))
    | int c =>
      simp only [apply_merges]
      exact ih _ _ (fun q2 t2 h2 => h q2 t2 (List.mem_cons_of_mem _ h2))

theorem pair_occurrences_short (q : BytePair) (v : List Int) (h : v.length ≤ 1) :
    pair_occurrences q v = 0 := by
  match v with
  | [] => rfl
  | [x] => rfl
  | x :: y :: rest => simp at h

theorem getElem?_append3 {α : Type} (a b c d : List α) (x : α) :
    (a ++ (b ++ (c ++ x :: d)))[a.length + b.length + c.length]? = some x := by
  rw [List.getElem?_append_right (by omega), List.getElem?_append_right (by omega),
    List.getElem?_append_right (by omega)]
  have : a.length + b.length + c.length - a.length - b.length - c.length = 0 := by omega
  rw [this]
  simp

theorem encode_replay (base merges : List Symbol)
    (hn : (base ++ merges).Nodup)
    (hbase : ∀ s ∈ base, ∀ q t, s ≠ (SymbolValue.pair q, t))
    (hm : ∀ s ∈ merges, ∃ q, s = (SymbolValue.pair q, SymbolType.BYTE_PAIR))
    (hac : ∀ (i : Nat) q t, (base ++ merges)[i]? = some (SymbolValue.pair q, t) →
      (0 ≤ q.1 ∧ q.1 < (i : Int)) ∧ (0 ≤ q.2 ∧ q.2 < (i : Int)))
    (hlen : ((base ++ merges).length : Int) ≤ INT_MAX) :
    ∀ (fuel : Nat) (done rest : List Symbol) (v : List Int),
      merges = done ++ rest → v.length ≤ fuel + 1 →
      (∀ q t, (SymbolValue.pair q, t) ∈ done → pair_occurrences q v = 0) →
      encode_merge_loop (create_reverse_symbol_mapping_loop (base ++ merges) 0 []) fuel v =
        some (apply_merges ((base.length : Int) + (done.length : Int)) rest v) := by
  intro fuel
  induction fuel with
  | zero =>
    intro done rest v _ hv _
    have hs : ¬ 1 < v.length := by omega
    simp only [encode_merge_loop, hs, if_false]
    rw [apply_merges_no_occurrence _ _ _ (fun q _ _ => pair_occurrences_short q v (by omega))]
  | succ fuel ih =>
    intro done rest v hsplit hv hdone
    simp only [encode_merge_loop]
    by_cases h1 : 1 < v.length
    · simp only [h1, if_true]
      -- the id of a merge that is still to be applied
      have hid : ∀ (pre post : List Symbol) (q : BytePair), rest = pre ++ (.pair q, .BYTE_PAIR) :: post →
          umap_find (create_reverse_symbol_mapping_loop (base ++ merges) 0 [])
            (.pair q, .BYTE_PAIR) =
            some ((base.length : Int) + (done.length : Int) + (pre.length : Int)) := by
        intro pre post q hr
        have hget : (base ++ merges)[base.length + done.length + pre.length]? =
            some (.pair q, .BYTE_PAIR) := by
          rw [hsplit, hr]
          exact getElem?_append3 _ _ _ _ _
        rw [create_reverse_loop_nodup _ hn _ _ hget]
        push_cast
        rfl
      have hmin := min_bp_scan_min (create_reverse_symbol_mapping_loop (base ++ merges) 0 [])
        v.length v ((0, 0), INT_MAX) (le_refl _)
      by_cases h2 : (min_bp_scan (create_reverse_symbol_mapping_loop (base ++ merges) 0 []) v
          ((0, 0), INT_MAX)).2 = INT_MAX
      · simp only [h2, if_true]
        rw [apply_merges_no_occurrence]
        intro q t hq
        by_contra hocc
        obtain ⟨q2, hq2⟩ := hm _ (by rw [hsplit]; exact List.mem_append_right _ hq)
        simp only [Prod.mk.injEq, SymbolValue.pair.injEq] at hq2
        obtain ⟨rfl, rfl⟩ := hq2
        obtain ⟨pre, post, hr⟩ := List.append_of_mem hq
        have hf := hid pre post q hr
        have := hmin.2 q _ (Nat.pos_of_ne_zero hocc) hf
        rw [h2] at this
        have hl : (base ++ merges).length =
            base.length + (done.length + (pre.length + (post.length + 1))) := by
          rw [hsplit, hr]; simp
        rw [hl] at hlen
        push_cast at hlen
        omega
      · rw [if_neg h2]
        rcases min_bp_scan_spec (create_reverse_symbol_mapping_loop (base ++ merges) 0 [])
            v.length v ((0, 0), INT_MAX) (le_refl _) with h | ⟨hfind, hocc, _⟩
        · rw [h] at h2; exact absurd rfl h2
        · generalize min_bp_scan (create_reverse_symbol_mapping_loop (base ++ merges) 0 []) v
            ((0, 0), INT_MAX) = res at hfind hocc h2 hmin ⊢
          obtain ⟨p, s⟩ := res
          simp only at hfind hocc hmin ⊢
          -- the pair found is one of the merges still to be applied
          rcases create_reverse_loop_find _ 0 [] _ _ hfind with h0 | ⟨i, hi, hsi, hget⟩
          · simp [umap_find] at h0
          · have hmem : (SymbolValue.pair p, SymbolType.BYTE_PAIR) ∈ base ++ merges :=
              List.getElem?_mem hget
            have hrest : (SymbolValue.pair p, SymbolType.BYTE_PAIR) ∈ rest := by
              rcases List.mem_append.mp hmem with h | h
              · exact absurd rfl (hbase _ h p .BYTE_PAIR)
              · rw [hsplit] at h
                rcases List.mem_append.mp h with h | h
                · have := hdone p _ h
                  omega
                · exact h
            obtain ⟨pre, post, hr⟩ := List.append_of_mem hrest
            have hs := hid pre post p hr
            rw [hfind] at hs
            simp only [Option.some.injEq] at hs
            -- the merges before it do not occur in the vector
            have hpre : ∀ q t, (SymbolValue.pair q, t) ∈ pre → pair_occurrences q v = 0 := by
              intro q t hq
              by_contra hocc2
              obtain ⟨q2, hq2⟩ := hm _ (by
                rw [hsplit, hr]
                exact List.mem_append_right _ (List.mem_append_left _ hq))
              simp only [Prod.mk.injEq, SymbolValue.pair.injEq] at hq2
              obtain ⟨rfl, rfl⟩ := hq2
              obtain ⟨pre2, post2, hr2⟩ := List.append_of_mem hq
              have hf2 := hid pre2 (post2 ++ (.pair p, .BYTE_PAIR) :: post) q (by
                rw [hr, hr2]; simp)
              have := hmin.2 q _ (Nat.pos_of_ne_zero hocc2) hf2
              have hl : pre.length = pre2.length + (post2.length + 1) := by
                rw [hr2]; simp
              rw [hs, hl] at this
              push_cast at this
              omega
            -- the symbols of the earlier merges are below `s`
            have hbelow : ∀ q t, (SymbolValue.pair q, t) ∈ done ++ pre → q.1 ≠ s ∧ q.2 ≠ s := by
              intro q t hq
              obtain ⟨j, hj⟩ := List.getElem?_of_mem hq
              have hjl : j < (done ++ pre).length := by
                by_contra hc
                rw [List.getElem?_eq_none (by omega)] at hj
                cases hj
              have hget2 : (base ++ merges)[base.length + j]? = some (.pair q, t) := by
                rw [hsplit, hr, List.getElem?_append_right (by omega)]
                simp only [Nat.add_sub_cancel_left]
                rw [← List.append_assoc, List.getElem?_append_left hjl]
                exact hj
              have := hac _ q t hget2
              simp only [List.length_append] at hjl
              rw [hs]
              push_cast at this ⊢
              omega
            have hps : s ≠ p.1 ∧ s ≠ p.2 := by
              have hget3 : (base ++ merges)[base.length + done.length + pre.length]? =
                  some (.pair p, .BYTE_PAIR) := by
                rw [hsplit, hr]
                exact getElem?_append3 _ _ _ _ _
              have := hac _ p _ hget3
              rw [hs]
              push_cast at this ⊢
              omega
            have hlt := (substitute_length_le p s v.length v (le_refl _)).2 hocc
            have hstep := ih (done ++ pre ++ [(.pair p, .BYTE_PAIR)]) post
              (substitute_byte_pair v p s) (by rw [hsplit, hr]; simp) (by omega) (by
                intro q t hq
                rcases List.mem_append.mp hq with h | h
                · have h0 : pair_occurrences q v = 0 := by
                    rcases List.mem_append.mp h with h | h
                    · exact hdone q t h
                    · exact hpre q t h
                  have hb := hbelow q t h
                  have := pair_occurrences_substitute_le q p s hb.1 hb.2 _ v (le_refl _)
                  omega
                · simp only [List.mem_singleton, Prod.mk.injEq, SymbolValue.pair.injEq] at h
                  obtain ⟨rfl, _⟩ := h
                  obtain ⟨p1, p2⟩ := q
                  exact substitute_no_occurrence p1 p2 s hps.1 hps.2 _ v (le_refl _))
            rw [hstep, hr, apply_merges_append, apply_merges_no_occurrence pre _ v hpre]
            simp only [apply_merges]
            congr 2
            · simp; ring
            · rw [hs]
    · simp only [h1, if_false]
      rw [apply_merges_no_occurrence _ _ _ (fun q _ _ => pair_occurrences_short q v (by omega))]


theorem base_vocab_no_pair (idx : TokenIndex) :
    ∀ s ∈ (base_vocab idx).1, ∀ q t, s ≠ (SymbolValue.pair q, t) := by
  intro s hs q t
  rw [base_vocab_table] at hs
  simp only [List.mem_append, List.mem_map] at hs
  rcases hs with ⟨b, _, rfl⟩ | ⟨b, _, rfl⟩ <;> simp

theorem base_vocab_nodup (idx : TokenIndex) : (base_vocab idx).1.Nodup := by
  rw [base_vocab_table, List.nodup_append]
  refine ⟨?_, ?_, ?_⟩
  · apply List.Nodup.map _ (strictly_increasing_nodup _ (set_of_range_spec _).1)
    intro a b h
    simp only [Prod.mk.injEq, SymbolValue.int.injEq, and_true] at h
    exact char_to_int_injective a b h
  · apply List.Nodup.map _ (strictly_increasing_nodup _ (set_of_range_spec _).1)
    intro a b h
    simp only [Prod.mk.injEq, SymbolValue.int.injEq, and_true] at h
    exact char_to_int_injective a b h
  · intro x h1 h2
    simp only [List.mem_map] at h1 h2
    obtain ⟨a, _, rfl⟩ := h1
    obtain ⟨b, _, h⟩ := h2
    simp at h

theorem replay_inv_init (text : CString) (st0 : LearnState) (h0 : learn_init text = .ok st0) :
    ReplayInv st0 st0 := by
  obtain ⟨idx, _, hsm, _, _, _⟩ := learn_init_spec text st0 h0
  constructor
  · refine ⟨[], by simp, by simp, ?_⟩
    simp [apply_merges]
  · rw [hsm]; exact base_vocab_nodup idx
  · intro q t hmem
    rw [hsm] at hmem
    exact absurd rfl (base_vocab_no_pair idx _ hmem q t)
  · intro i q t hget
    rw [hsm] at hget
    exact absurd rfl (base_vocab_no_pair idx _ (List.getElem?_mem hget) q t)

theorem replay_inv_step (st0 st st2 : LearnState) (hinv : LearnInv st)
    (hrep : ReplayInv st0 st)
    (hit : merge_iteration st (st.symbol_mapping.length : Int) = .ok st2) :
    ReplayInv st0 st2 := by
  obtain ⟨handle, f, top, htop⟩ := merge_iteration_top _ _ _ hit
  obtain ⟨st2b, h1, hinv2, hsm, hT, _, hcf, hc2top, hnew⟩ :=
    merge_iteration_spec st hinv handle f top htop
  rw [hit] at h1
  simp only [Except.ok.injEq] at h1
  subst h1
  obtain ⟨merges, hm1, hm2, hm3⟩ := hrep.table
  have hkey : top ∈ st.bp_counter.map Prod.fst :=
    List.mem_map.mpr ⟨(top, f), umap_find_some_mem _ _ _ hcf, rfl⟩
  have hkb := hinv.keys top hkey
  constructor
  · refine ⟨merges ++ [(.pair top, .BYTE_PAIR)], by rw [hsm, hm1]; simp, ?_, ?_⟩
    · intro s hs
      rcases List.mem_append.mp hs with h | h
      · exact hm2 s h
      · exact ⟨top, by simpa using h⟩
    · rw [hT, hm3, List.map_map]
      apply List.map_congr_left
      intro e _
      simp only [Function.comp, substitute_entry, apply_merges_append, apply_merges,
        Prod.mk.injEq, and_true]
      rw [hm1]
      simp
  · rw [hsm, List.nodup_append]
    refine ⟨hrep.nodup, by simp, ?_⟩
    intro x hx1 hx2
    simp only [List.mem_singleton] at hx2
    subst hx2
    have := hrep.merged_absent top _ hx1
    rw [hcf] at this
    cases this
  · intro q t hmem
    rw [hsm] at hmem
    rcases List.mem_append.mp hmem with h | h
    · have habs := hrep.merged_absent q t h
      by_contra hne
      have hpos := hnew q habs hne
      obtain ⟨i, hi⟩ := List.getElem?_of_mem h
      have hil : i < st.symbol_mapping.length := by
        by_contra hc
        rw [List.getElem?_eq_none (by omega)] at hi
        cases hi
      have hacq := hrep.acyclic i q t hi
      have hz : true_count st.token_index_to_token_vec_and_freq q = 0 := by
        rw [← hinv.count, umap_value_eq, habs]; rfl
      have hzero := true_count_zero q _ hinv.freq_pos hz
      have : true_count st2.token_index_to_token_vec_and_freq q = 0 := by
        rw [hT]
        unfold true_count
        rw [List.map_map]
        apply List.sum_eq_zero
        intro x hx
        obtain ⟨e, he, rfl⟩ := List.mem_map.mp hx
        have h0 := hzero e he
        have hle := pair_occurrences_substitute_le q top (st.symbol_mapping.length : Int)
          (by omega) (by omega) _ e.1 (le_refl _)
        simp only [Function.comp, substitute_entry]
        have : pair_occurrences q
            (substitute_byte_pair e.1 top (st.symbol_mapping.length : Int)) = 0 := by omega
        simp [this]
      omega
    · simp only [List.mem_singleton, Prod.mk.injEq, SymbolValue.pair.injEq] at h
      rw [h.1]
      exact hc2top
  · intro i q t hget
    rw [hsm] at hget
    by_cases hi : i < st.symbol_mapping.length
    · rw [List.getElem?_append_left hi] at hget
      exact hrep.acyclic i q t hget
    · rw [List.getElem?_append_right (by omega)] at hget
      have hi0 : i - st.symbol_mapping.length = 0 := by
        by_contra hc
        rw [List.getElem?_eq_none (by simp; omega)] at hget
        cases hget
      rw [hi0] at hget
      simp only [List.getElem?_cons_zero, Option.some.injEq, Prod.mk.injEq,
        SymbolValue.pair.injEq] at hget
      rw [← hget.1]
      have : (i : Int) = (st.symbol_mapping.length : Int) := by omega
      rw [this]
      exact hkb

theorem merge_loop_replay :
    ∀ (n : Nat) (st0 st st2 : LearnState), LearnInv st → ReplayInv st0 st →
      merge_loop n (st.symbol_mapping.length : Int) st = (.ok (), st2) →
      ReplayInv st0 st2 := by
  intro n
  induction n with
  | zero =>
    intro st0 st st2 _ hrep h
    simp only [merge_loop, Prod.mk.injEq, true_and] at h
    subst h
    exact hrep
  | succ n ih =>
    intro st0 st st2 hinv hrep h
    simp only [merge_loop] at h
    cases hit : merge_iteration st (st.symbol_mapping.length : Int) with
    | error e => simp [hit] at h
    | ok st1 =>
      simp only [hit] at h
      obtain ⟨k, f, q, htop⟩ := merge_iteration_top _ _ _ hit
      obtain ⟨st1b, h1, hinv1, hsm, _⟩ := merge_iteration_spec st hinv k f q htop
      rw [hit] at h1
      simp only [Except.ok.injEq] at h1
      subst h1
      have hlen : ((st.symbol_mapping.length : Int) + 1) = (st1.symbol_mapping.length : Int) := by
        rw [hsm]; simp
      rw [hlen] at h
      exact ih st0 st1 st2 hinv1 (replay_inv_step st0 st st1 hinv hrep hit) h

theorem base_symbols_of_build_token_vec (b2s : List ((Int × SymbolType) × Int))
    (rev : List (Symbol × Int)) :
    ∀ (t : CString),
      (∀ b ∈ t.dropLast, ∃ id, umap_find b2s (char_to_int b, .INTERNAL) = some id ∧
        umap_find rev (.int (char_to_int b), .INTERNAL) = some id) →
      (∀ b, t.getLast? = some b → ∃ id, umap_find b2s (char_to_int b, .FINAL) = some id ∧
        umap_find rev (.int (char_to_int b), .FINAL) = some id) →
      ∀ vec, build_token_vec t b2s = .ok (vec, b2s) →
        base_symbols rev t = .ok vec ∧ vec.length = t.length := by
  intro t
  induction t with
  | nil => intro _ _ vec h; simp [build_token_vec] at h
  | cons c rest ih =>
    intro hint hfin vec h
    cases rest with
    | nil =>
      obtain ⟨id, h1, h2⟩ := hfin c (by simp)
      simp only [build_token_vec, umap_index, h1, Except.ok.injEq, Prod.mk.injEq, and_true] at h
      subst h
      simp [base_symbols, umap_at, h2]
    | cons c2 rest2 =>
      obtain ⟨id, h1, h2⟩ := hint c (by simp [List.dropLast])
      simp only [build_token_vec, umap_index, h1] at h
      cases hb : build_token_vec (c2 :: rest2) b2s with
      | error e => simp [hb] at h
      | ok p =>
        obtain ⟨vec2, b2s2⟩ := p
        simp only [hb, Except.ok.injEq, Prod.mk.injEq] at h
        obtain ⟨rfl, rfl⟩ := h
        obtain ⟨g1, g2⟩ := ih
          (fun d hd => hint d (by
            simp only [List.dropLast_cons₂]; exact List.mem_cons_of_mem _ hd))
          (fun d hd => hfin d (by simpa using hd)) vec2 hb
        simp [base_symbols, umap_at, h2, g1, g2]


theorem forall₂_getElem? {α β : Type} (R : α → β → Prop) :
    ∀ (l1 : List α) (l2 : List β), List.Forall₂ R l1 l2 →
      ∀ (i : Nat) (a : α), l1[i]? = some a → ∃ b, l2[i]? = some b ∧ R a b := by
  intro l1 l2 h
  induction h with
  | nil => intro i a hi; simp at hi
  | cons hab _ ih =>
    intro i a hi
    cases i with
    | zero =>
      simp only [List.getElem?_cons_zero, Option.some.injEq] at hi
      subst hi
      exact ⟨_, by simp, hab⟩
    | succ j =>
      simp only [List.getElem?_cons_succ] at hi ⊢
      exact ih j a hi

/-- C2: when `learn` completes on a corpus (so all its tokens are non-empty)
with a `vocab_size` that is a 32-bit `int`, then for every unique corpus token
`t`, at its index `i` of the unique-token table, `encode_token(t)` on the
learned model returns exactly the symbol vector that the merge loop left for
`t` in `token_index_to_token_vec_and_freq` when `learn` finished. The unique
tokens (the keys of `token_counter`, without repetition) are the tokens of the
corpus, and the table has one entry per unique token. -/
theorem inference_agrees_with_training (m0 M : ByteBPE) (text : CString) (vocab_size : Int)
    (st : LearnState) (hV : vocab_size ≤ INT_MAX)
    (hrun : learn_run text vocab_size = .ok (.ok (), st))
    (hlearn : m0.learn (some text) vocab_size = (.ok (), M)) :
    (∀ t, t ∈ st.token_counter.map Prod.fst ↔ t ∈ corpus_tokens text) ∧
    keys_nodup st.token_counter ∧
    st.token_index_to_token_vec_and_freq.length = st.token_counter.length ∧
    ∀ (i : Nat) (t : CString) (cnt : Int), st.token_counter[i]? = some (t, cnt) →
      ∃ vec, st.token_index_to_token_vec_and_freq[i]? = some (vec, cnt) ∧
        M.encode_token t = .ok vec := by
  cases h0 : learn_init text with
  | error e => simp [learn_run, h0] at hrun
  | ok st0 =>
    simp only [learn_run, h0, Except.ok.injEq] at hrun
    rw [learn_unfold_ok m0 text vocab_size st0 h0, hrun] at hlearn
    simp only at hlearn
    obtain ⟨idx, hidx, hsm0, htc0, hinv0, hfa⟩ := learn_init_spec text st0 h0
    obtain ⟨_, _, g3, g4, g5, g6, _, _⟩ := first_pass_spec text idx hidx
    obtain ⟨hinv, hlen, htc⟩ := merge_loop_spec _ st0 st hinv0 hrun
    have hrep := merge_loop_replay _ st0 st0 st hinv0 (replay_inv_init text st0 h0) hrun
    obtain ⟨merges, hm1, hm2, hm3⟩ := hrep.table
    obtain ⟨hMsm, hMrev, _⟩ := build_model_ok _ _ hlearn
    have hn0 := n_base_vocab_eq text st0 h0
    have hb512 := base_size_le text
    refine ⟨?_, ?_, ?_, ?_⟩
    · intro t; rw [htc, htc0]; exact g4 t
    · rw [htc, htc0]; exact g3
    · rw [hm3, List.length_map, htc]
      exact (List.Forall₂.length_eq hfa).symm
    · intro i t cnt hi
      rw [htc] at hi
      obtain ⟨⟨vec0, cnt0⟩, hT0, hcnt, hbuild⟩ := forall₂_getElem? _ _ _ hfa i (t, cnt) hi
      simp only at hcnt hbuild
      subst hcnt
      refine ⟨apply_merges (st0.symbol_mapping.length : Int) merges vec0, ?_, ?_⟩
      · rw [hm3, List.getElem?_map, hT0]
        rfl
      · have hkey : t ∈ corpus_tokens text := by
          rw [← g4, ← htc0]
          exact List.mem_map.mpr ⟨(t, cnt0), List.getElem?_mem hi, rfl⟩
        obtain ⟨l1, l2⟩ := base_vocab_lookup idx
        have hrev : ∀ (id : Int) (sym : Symbol), vec_index (base_vocab idx).1 id = some sym →
            umap_find M.bp_to_symbol sym = some id := by
          intro id sym hv
          obtain ⟨hid0, _, hget⟩ := vec_index_lt _ _ _ hv
          have hget2 : st.symbol_mapping[id.toNat]? = some sym := by
            rw [hm1, hsm0]
            have hlt : id.toNat < (base_vocab idx).1.length := by
              by_contra hc
              rw [List.getElem?_eq_none (by omega)] at hget
              cases hget
            rw [List.getElem?_append_left hlt]
            exact hget
          rw [hMrev, create_reverse_loop_nodup _ hrep.nodup _ _ hget2]
          congr 1
          omega
        obtain ⟨hbase, hlen0⟩ := base_symbols_of_build_token_vec (base_vocab idx).2
          M.bp_to_symbol t
          (fun b hb => by
            obtain ⟨id, h1, h2⟩ := l1 b ((g5 b).mpr ⟨t, hkey, hb⟩)
            exact ⟨id, h1, hrev _ _ h2⟩)
          (fun b hb => by
            obtain ⟨id, h1, h2⟩ := l2 b ((g6 b).mpr ⟨t, hkey, hb⟩)
            exact ⟨id, h1, hrev _ _ h2⟩)
          vec0 hbuild
        have hreplay := encode_replay st0.symbol_mapping merges
          (by rw [← hm1]; exact hrep.nodup)
          (by rw [hsm0]; exact base_vocab_no_pair idx)
          hm2
          (by rw [← hm1]; exact hrep.acyclic)
          (by
            rw [← hm1, hlen, hn0]
            unfold merge_count
            rw [hn0]
            simp only [INT_MAX] at hV ⊢
            push_cast
            omega)
          t.length [] merges vec0 (by simp) (by omega) (by simp)
        simp only [List.length_nil, Nat.cast_zero, add_zero] at hreplay
        rw [← hm1, ← hMrev] at hreplay
        simp only [ByteBPE.encode_token, hbase, hreplay]

/-- Witness of C2: the corpus `abab abab` learned with `vocab_size = 6`. -/
theorem inference_agrees_with_training_witness :
    (∀ t, t ∈ (state_after demo_corpus 3).token_counter.map Prod.fst ↔
      t ∈ corpus_tokens demo_corpus) ∧
    keys_nodup (state_after demo_corpus 3).token_counter ∧
    (state_after demo_corpus 3).token_index_to_token_vec_and_freq.length =
      (state_after demo_corpus 3).token_counter.length ∧
    ∀ (i : Nat) (t : CString) (cnt : Int),
      (state_after demo_corpus 3).token_counter[i]? = some (t, cnt) →
      ∃ vec, (state_after demo_corpus 3).token_index_to_token_vec_and_freq[i]? =
          some (vec, cnt) ∧
        (ByteBPE.empty.learn (some demo_corpus) 6).2.encode_token t = .ok vec :=
  inference_agrees_with_training ByteBPE.empty (ByteBPE.empty.learn (some demo_corpus) 6).2
    demo_corpus 6 (state_after demo_corpus 3) (by decide) (by decide) (by decide)


/-! ## Totality of `generate_symbol_strings` and of `learn` -/

/-- The converse of `generate_loop_acyclic`: on a table whose symbols carry the
alternative their type reads, whose byte values are values of `char`, and whose
pairs refer to earlier ids, the loop of `generate_symbol_strings` completes
and stores one string per symbol. -/
theorem generate_loop_total (table : List Symbol) :
    ∀ (strs0 : List CString),
      (∀ s ∈ table, well_shaped s) →
      (∀ s ∈ table, ∀ v t, s = (.int v, t) → -128 ≤ v ∧ v ≤ 127) →
      (∀ (i : Nat) l r t, table[i]? = some (.pair (l, r), t) →
        (0 ≤ l ∧ l < ((strs0.length + i : Nat) : Int)) ∧
        (0 ≤ r ∧ r < ((strs0.length + i : Nat) : Int))) →
      ∃ strs, generate_symbol_strings_loop table strs0 = (.ok (), strs) ∧
        strs.length = strs0.length + table.length := by
  induction table with
  | nil => intro strs0 _ _ _; exact ⟨strs0, rfl, by simp⟩
  | cons sym rest ih =>
    intro strs0 hws hrange hac
    have hws0 := hws sym (List.mem_cons_self _ _)
    have hrest : ∀ (strs1 : List CString), strs1.length = strs0.length + 1 →
        ∃ strs, generate_symbol_strings_loop rest strs1 = (.ok (), strs) ∧
          strs.length = strs0.length + (sym :: rest).length := by
      intro strs1 hl
      obtain ⟨strs, h1, h2⟩ := ih strs1
        (fun s hs => hws s (List.mem_cons_of_mem _ hs))
        (fun s hs => hrange s (List.mem_cons_of_mem _ hs))
        (fun i l r t hi => by
          have := hac (i + 1) l r t (by simpa using hi)
          rw [hl]
          have e : strs0.length + 1 + i = strs0.length + (i + 1) := by omega
          rw [e]
          exact this)
      exact ⟨strs, h1, by rw [h2, hl]; simp; omega⟩
    obtain ⟨value, type⟩ := sym
    cases value with
    | int v =>
      have hv := hrange (.int v, type) (List.mem_cons_self _ _) v type rfl
      have hcast : ∃ c, numeric_cast_char v = .ok c := by
        unfold numeric_cast_char
        rw [if_neg (by omega)]
        exact ⟨_, rfl⟩
      obtain ⟨c, hc⟩ := hcast
      cases type with
      | INTERNAL =>
        simp only [generate_symbol_strings_loop, hc]
        exact hrest _ (by simp)
      | FINAL =>
        simp only [generate_symbol_strings_loop, hc]
        exact hrest _ (by simp)
      | BYTE_PAIR => exact absurd hws0 (by simp [well_shaped])
    | pair bp =>
      obtain ⟨l, r⟩ := bp
      cases type with
      | INTERNAL => exact absurd hws0 (by simp [well_shaped])
      | FINAL => exact absurd hws0 (by simp [well_shaped])
      | BYTE_PAIR =>
        have h := hac 0 l r .BYTE_PAIR (by simp)
        simp only [Nat.add_zero] at h
        obtain ⟨a, ha⟩ : ∃ a, vec_index strs0 l = some a := by
          unfold vec_index
          rw [if_pos h.1.1]
          have : l.toNat < strs0.length := by omega
          exact ⟨strs0[l.toNat], List.getElem?_eq_getElem this⟩
        obtain ⟨b, hb⟩ : ∃ b, vec_index strs0 r = some b := by
          unfold vec_index
          rw [if_pos h.2.1]
          have : r.toNat < strs0.length := by omega
          exact ⟨strs0[r.toNat], List.getElem?_eq_getElem this⟩
        simp only [generate_symbol_strings_loop, ha, hb]
        exact hrest _ (by simp)

/-- A table that satisfies the three conditions of `generate_loop_total` from
the first id on yields a model. -/
theorem build_model_total (table : List Symbol)
    (hws : ∀ s ∈ table, well_shaped s)
    (hrange : ∀ s ∈ table, ∀ v t, s = (.int v, t) → -128 ≤ v ∧ v ≤ 127)
    (hac : ∀ (i : Nat) l r t, table[i]? = some (.pair (l, r), t) →
      (0 ≤ l ∧ l < (i : Int)) ∧ (0 ≤ r ∧ r < (i : Int))) :
    (build_model table).1 = .ok () := by
  obtain ⟨strs, h, _⟩ := generate_loop_total table [] hws hrange
    (fun i l r t hi => by simpa using hac i l r t hi)
  simp [build_model, ByteBPE.create_reverse_symbol_mapping, ByteBPE.generate_symbol_strings, h]

/-- The symbol table of every state of the merge loop yields a model: the two
calls that end `learn` cannot fail. -/
theorem learned_table_builds (text : CString) (st0 st : LearnState)
    (h0 : learn_init text = .ok st0) (hrep : ReplayInv st0 st) :
    (build_model st.symbol_mapping).1 = .ok () := by
  obtain ⟨idx, _, hsm0, _, _, _⟩ := learn_init_spec text st0 h0
  obtain ⟨merges, hsm, hm, _⟩ := hrep.table
  have hbase : ∀ s ∈ st.symbol_mapping,
      (∃ b : CChar, s = (SymbolValue.int (char_to_int b), SymbolType.INTERNAL) ∨
        s = (SymbolValue.int (char_to_int b), SymbolType.FINAL)) ∨
      ∃ q, s = (SymbolValue.pair q, SymbolType.BYTE_PAIR) := by
    intro s hs
    rw [hsm, hsm0, base_vocab_table] at hs
    simp only [List.mem_append, List.mem_map] at hs
    rcases hs with (⟨b, _, rfl⟩ | ⟨b, _, rfl⟩) | hs
    · exact Or.inl ⟨b, Or.inl rfl⟩
    · exact Or.inl ⟨b, Or.inr rfl⟩
    · exact Or.inr (hm s hs)
  apply build_model_total
  · intro s hs
    rcases hbase s hs with ⟨b, rfl | rfl⟩ | ⟨q, rfl⟩ <;> simp [well_shaped]
  · intro s hs v t he
    rcases hbase s hs with ⟨b, rfl | rfl⟩ | ⟨q, rfl⟩
    · simp only [Prod.mk.injEq, SymbolValue.int.injEq] at he
      rw [← he.1]
      exact char_to_int_range b
    · simp only [Prod.mk.injEq, SymbolValue.int.injEq] at he
      rw [← he.1]
      exact char_to_int_range b
    · simp at he
  · intro i l r t hi
    exact hrep.acyclic i (l, r) t hi

/-- The merge loop either completes, every iteration having found a pair on the
heap, or stops at the first iteration that starts with an empty heap, where
`bp_heap.top()` is undefined. Nothing else can go wrong in it. -/
theorem merge_loop_outcome :
    ∀ (n : Nat) (st : LearnState), LearnInv st →
      (∃ st2, merge_loop n (st.symbol_mapping.length : Int) st = (.ok (), st2) ∧
        ∀ k, k < n → ∃ stk, merge_loop k (st.symbol_mapping.length : Int) st = (.ok (), stk) ∧
          stk.bp_heap.elems ≠ []) ∨
      (∃ k stk, k < n ∧ merge_loop k (st.symbol_mapping.length : Int) st = (.ok (), stk) ∧
        stk.bp_heap.elems = [] ∧
        merge_loop n (st.symbol_mapping.length : Int) st = (.error .undefined_behaviour, stk)) := by
  intro n
  induction n with
  | zero =>
    intro st _
    exact Or.inl ⟨st, rfl, fun k hk => absurd hk (Nat.not_lt_zero k)⟩
  | succ n ih =>
    intro st hinv
    cases htop : st.bp_heap.top with
    | none =>
      refine Or.inr ⟨0, st, Nat.succ_pos n, rfl, heap_max_none _ htop, ?_⟩
      simp [merge_loop, merge_iteration, htop]
    | some e =>
      obtain ⟨handle, f, q⟩ := e
      obtain ⟨st1, hit, hinv1, hsm, _⟩ := merge_iteration_spec st hinv handle f q htop
      have hlen : ((st.symbol_mapping.length : Int) + 1) = (st1.symbol_mapping.length : Int) := by
        rw [hsm]; simp
      have hstep : ∀ j, merge_loop (j + 1) (st.symbol_mapping.length : Int) st =
          merge_loop j (st1.symbol_mapping.length : Int) st1 := by
        intro j
        simp only [merge_loop, hit, hlen]
      have hne : st.bp_heap.elems ≠ [] := by
        intro h
        simp [FibHeap.top, h, heap_max] at htop
      rcases ih st1 hinv1 with ⟨st2, h2, hall⟩ | ⟨k, stk, hk, h1, he, h2⟩
      · refine Or.inl ⟨st2, by rw [hstep, h2], ?_⟩
        intro k hk
        cases k with
        | zero => exact ⟨st, rfl, hne⟩
        | succ j =>
          obtain ⟨stk, g1, g2⟩ := hall j (by omega)
          exact ⟨stk, by rw [hstep, g1], g2⟩
      · exact Or.inr ⟨k + 1, stk, by omega, by rw [hstep, h1], he, by rw [hstep, h2]⟩

/-- On a corpus whose tokens are all non-empty, `learn` completes exactly when
every iteration of the merge loop starts with a pair on the heap; and when it
does not complete, it has read the top of an empty heap. -/
theorem learn_completes_iff (m : ByteBPE) (text : CString) (vocab_size : Int)
    (hne : ∀ t ∈ corpus_tokens text, t ≠ []) :
    ((m.learn (some text) vocab_size).1 = .ok () ↔
      ∀ k : Nat, (k : Int) < vocab_size - (base_size text : Int) →
        (state_after text k).bp_heap.elems ≠ []) ∧
    ((m.learn (some text) vocab_size).1 = .ok () ∨
      (m.learn (some text) vocab_size).1 = .error .undefined_behaviour) := by
  obtain ⟨st0, h0⟩ := learn_init_ok text hne
  obtain ⟨_, _, _, _, hinv0, _⟩ := learn_init_spec text st0 h0
  have hn := n_base_vocab_eq text st0 h0
  have hstate : ∀ k, state_after text k =
      (merge_loop k (st0.symbol_mapping.length : Int) st0).2 := by
    intro k; simp [state_after, h0]
  have hcount : ∀ k : Nat, k < merge_count vocab_size st0 ↔
      (k : Int) < vocab_size - (base_size text : Int) := by
    intro k; unfold merge_count; rw [hn]; omega
  rw [learn_unfold_ok m text vocab_size st0 h0]
  rcases merge_loop_outcome (merge_count vocab_size st0) st0 hinv0 with
    ⟨st2, h2, hall⟩ | ⟨k, stk, hk, h1, he, h2⟩
  · have hb := learned_table_builds text st0 st2 h0
      (merge_loop_replay _ st0 st0 st2 hinv0 (replay_inv_init text st0 h0) h2)
    rw [h2]
    simp only [hb, true_iff, true_or, and_true]
    intro k hk
    obtain ⟨stk, g1, g2⟩ := hall k ((hcount k).2 hk)
    rw [hstate, g1]
    exact g2
  · rw [h2]
    simp only [reduceCtorEq, false_iff, false_or, and_true, not_forall]
    refine ⟨k, (hcount k).1 hk, ?_⟩
    rw [hstate, h1]
    simpa using he

/-! ## Keys of the pair frequency map -/

/-- What does hold of the keys of `bp_counter` between iterations: a pair whose
count is positive is a key, and the count of a key is never negative. -/
theorem counter_keys_nonneg (text : CString) (k : Nat) (st0 st : LearnState)
    (h0 : learn_init text = .ok st0)
    (hk : merge_loop k (st0.symbol_mapping.length : Int) st0 = (.ok (), st)) :
    (∀ q : BytePair, 0 < true_count st.token_index_to_token_vec_and_freq q →
      (umap_find st.bp_counter q).isSome) ∧
    (∀ (q : BytePair) (f : Int), umap_find st.bp_counter q = some f → 0 ≤ f) := by
  have hinv := reachable_inv text k st0 st h0 hk
  constructor
  · intro q hq
    have hc := hinv.count q
    rw [umap_value_eq] at hc
    cases hf : umap_find st.bp_counter q with
    | none => rw [hf] at hc; simp at hc; omega
    | some f => rfl
  · intro q f hf
    have hc := hinv.count q
    rw [umap_value_eq, hf] at hc
    simp only [Option.getD_some] at hc
    rw [hc]
    exact true_count_nonneg _ q hinv.freq_pos

/-- C11 (the code's defect): the loop that applies the delta map adds the
delta to the count of a pair that is already a key (`bp_counter[bp] +=
freq_delta`) and never erases a key whose count reaches 0, as
`increment_counter` does. On the corpus `abc` the first merge, of the pair
`(1, 2)`, leaves the pair `(0, 1)` as a key of `bp_counter` with count 0, on
the heap with frequency 0, while it occurs in no token; with `vocab_size = 6`
the third merge then takes it, and the table ends with `Pair(0, 1)`. -/
theorem zero_count_key_is_kept :
    (state_after (cstr "abc\n") 0).bp_counter = [((0, 1), 1), ((1, 2), 1)] ∧
    (state_after (cstr "abc\n") 1).symbol_mapping[3]? = some (.pair (1, 2), .BYTE_PAIR) ∧
    (state_after (cstr "abc\n") 1).token_index_to_token_vec_and_freq = [([0, 3], 1)] ∧
    umap_find (state_after (cstr "abc\n") 1).bp_counter (0, 1) = some 0 ∧
    (state_after (cstr "abc\n") 1).bp_heap.elems = [(0, (0, (0, 1))), (2, (1, (0, 3)))] ∧
    (ByteBPE.empty.learn (some (cstr "abc\n")) 6).1 = .ok () ∧
    (ByteBPE.empty.learn (some (cstr "abc\n")) 6).2.symbol_mapping[5]? =
      some (.pair (0, 1), .BYTE_PAIR) := by
  decide

/-! ## The learned symbol table -/

/-- The table `learn` leaves is the table of a state of the merge loop that
satisfies the invariants, whether the loop completed or stopped at an empty
heap. -/
theorem learn_table_state (m : ByteBPE) (text : CString) (vocab_size : Int)
    (hne : ∀ t ∈ corpus_tokens text, t ≠ []) :
    ∃ st0 st, learn_init text = .ok st0 ∧ ReplayInv st0 st ∧
      (m.learn (some text) vocab_size).2.symbol_mapping = st.symbol_mapping := by
  obtain ⟨st0, h0⟩ := learn_init_ok text hne
  obtain ⟨_, _, _, _, hinv0, _⟩ := learn_init_spec text st0 h0
  have hrep0 := replay_inv_init text st0 h0
  rw [learn_unfold_ok m text vocab_size st0 h0]
  rcases merge_loop_outcome (merge_count vocab_size st0) st0 hinv0 with
    ⟨st2, h2, _⟩ | ⟨k, stk, _, h1, _, h2⟩
  · refine ⟨st0, st2, h0, merge_loop_replay _ st0 st0 st2 hinv0 hrep0 h2, ?_⟩
    rw [h2]
    exact build_model_symbol_mapping _
  · refine ⟨st0, stk, h0, merge_loop_replay _ st0 st0 stk hinv0 hrep0 h1, ?_⟩
    rw [h2]

/-- C12: on a corpus whose tokens are all non-empty, for every `vocab_size`,
in the symbol table `learn` leaves every entry at id `i` whose payload is a
pair `(l, r)` has type `BYTE_PAIR` and satisfies `0 <= l < i` and
`0 <= r < i`; the table has at least `base_size` entries, every entry below
`base_size` is a byte of type `INTERNAL` or `FINAL`, and every entry from
`base_size` on is a pair of type `BYTE_PAIR`. -/
theorem symbol_acyclicity_after_training (m : ByteBPE) (text : CString) (vocab_size : Int)
    (hne : ∀ t ∈ corpus_tokens text, t ≠ []) :
    (∀ (i : Nat) (l r : Int) (t : SymbolType),
      (m.learn (some text) vocab_size).2.symbol_mapping[i]? = some (.pair (l, r), t) →
      t = .BYTE_PAIR ∧ (0 ≤ l ∧ l < (i : Int)) ∧ (0 ≤ r ∧ r < (i : Int))) ∧
    base_size text ≤ (m.learn (some text) vocab_size).2.symbol_mapping.length ∧
    (∀ (i : Nat) (s : Symbol),
      (m.learn (some text) vocab_size).2.symbol_mapping[i]? = some s →
      if i < base_size text then ∃ v, s = (.int v, .INTERNAL) ∨ s = (.int v, .FINAL)
      else ∃ l r, s = (.pair (l, r), .BYTE_PAIR)) := by
  obtain ⟨st0, st, h0, hrep, hsm⟩ := learn_table_state m text vocab_size hne
  rw [hsm]
  obtain ⟨idx, _, hsm0, _, _, _⟩ := learn_init_spec text st0 h0
  have hn := n_base_vocab_eq text st0 h0
  obtain ⟨merges, htab, hm, _⟩ := hrep.table
  have hkind : ∀ (i : Nat) (s : Symbol), st.symbol_mapping[i]? = some s →
      if i < base_size text then ∃ v, s = (.int v, .INTERNAL) ∨ s = (.int v, .FINAL)
      else ∃ l r, s = (.pair (l, r), .BYTE_PAIR) := by
    intro i s hi
    rw [htab] at hi
    split
    · rename_i hlt
      rw [List.getElem?_append_left (by omega)] at hi
      have hmem := List.getElem?_mem hi
      rw [hsm0, base_vocab_table] at hmem
      simp only [List.mem_append, List.mem_map] at hmem
      rcases hmem with ⟨b, _, rfl⟩ | ⟨b, _, rfl⟩
      · exact ⟨_, Or.inl rfl⟩
      · exact ⟨_, Or.inr rfl⟩
    · rename_i hge
      rw [List.getElem?_append_right (by omega)] at hi
      obtain ⟨q, rfl⟩ := hm s (List.getElem?_mem hi)
      exact ⟨q.1, q.2, rfl⟩
  refine ⟨?_, ?_, hkind⟩
  · intro i l r t hi
    refine ⟨?_, hrep.acyclic i (l, r) t hi⟩
    have := hkind i _ hi
    split at this
    · obtain ⟨v, h | h⟩ := this <;> simp at h
    · obtain ⟨l2, r2, h⟩ := this
      simp only [Prod.mk.injEq] at h
      exact h.2
  · rw [htab, List.length_append, hn]
    omega

/-- Witness of C12: the corpus `abab abab` learned with `vocab_size = 6`. -/
theorem symbol_acyclicity_after_training_witness :
    (∀ t ∈ corpus_tokens demo_corpus, t ≠ []) ∧
    ((∀ (i : Nat) (l r : Int) (t : SymbolType),
      (ByteBPE.empty.learn (some demo_corpus) 6).2.symbol_mapping[i]? =
        some (.pair (l, r), t) →
      t = .BYTE_PAIR ∧ (0 ≤ l ∧ l < (i : Int)) ∧ (0 ≤ r ∧ r < (i : Int))) ∧
    base_size demo_corpus ≤ (ByteBPE.empty.learn (some demo_corpus) 6).2.symbol_mapping.length ∧
    (∀ (i : Nat) (s : Symbol),
      (ByteBPE.empty.learn (some demo_corpus) 6).2.symbol_mapping[i]? = some s →
      if i < base_size demo_corpus then ∃ v, s = (.int v, .INTERNAL) ∨ s = (.int v, .FINAL)
      else ∃ l r, s = (.pair (l, r), .BYTE_PAIR))) :=
  ⟨by decide, symbol_acyclicity_after_training ByteBPE.empty demo_corpus 6 (by decide)⟩

/-! ## The reverse map -/

theorem last_index_of_mem {α : Type} (x : α) :
    ∀ (l : List α), x ∈ l → ∃ i : Nat, l[i]? = some x ∧ ∀ j, i < j → l[j]? ≠ some x := by
  intro l
  induction l with
  | nil => intro h; simp at h
  | cons a rest ih =>
    intro h
    by_cases hr : x ∈ rest
    · obtain ⟨i, h1, h2⟩ := ih hr
      refine ⟨i + 1, by simpa using h1, ?_⟩
      intro j hj
      cases j with
      | zero => omega
      | succ j2 =>
        simp only [List.getElem?_cons_succ]
        exact h2 j2 (by omega)
    · have hxa : x = a := by
        rcases List.mem_cons.mp h with h | h
        · exact h
        · exact absurd h hr
      refine ⟨0, by simp [hxa], ?_⟩
      intro j hj
      cases j with
      | zero => omega
      | succ j2 =>
        simp only [List.getElem?_cons_succ]
        intro hc
        exact hr (List.getElem?_mem hc)

/-- C13 (amended): after `create_reverse_symbol_mapping` on an object that
holds only the table (as in `learn` and `load_from_file`), a symbol that does
not occur in the table is absent from the map; the lookup of a symbol that
occurs in the table returns the largest id at which it occurs; and when the
table has no repeated symbol this is the only id at which the symbol occurs,
hence the smallest. -/
theorem reverse_map_gives_last_id (table : List Symbol) :
    (∀ sym, sym ∉ table →
      umap_find (ByteBPE.create_reverse_symbol_mapping ⟨table, [], []⟩).bp_to_symbol sym = none) ∧
    (∀ sym ∈ table, ∃ i : Nat,
      umap_find (ByteBPE.create_reverse_symbol_mapping ⟨table, [], []⟩).bp_to_symbol sym =
        some (i : Int) ∧
      table[i]? = some sym ∧ ∀ j : Nat, table[j]? = some sym → j ≤ i) ∧
    (table.Nodup → ∀ sym ∈ table, ∃ i : Nat,
      umap_find (ByteBPE.create_reverse_symbol_mapping ⟨table, [], []⟩).bp_to_symbol sym =
        some (i : Int) ∧
      table[i]? = some sym ∧ ∀ j : Nat, table[j]? = some sym → i ≤ j) := by
  have hlast : ∀ sym ∈ table, ∃ i : Nat,
      umap_find (create_reverse_symbol_mapping_loop table 0 []) sym = some (i : Int) ∧
      table[i]? = some sym ∧ ∀ j : Nat, table[j]? = some sym → j ≤ i := by
    intro sym hs
    obtain ⟨i, h1, h2⟩ := last_index_of_mem sym table hs
    refine ⟨i, ?_, h1, ?_⟩
    · have := create_reverse_loop_last sym table 0 [] i h1 h2
      simpa using this
    · intro j hj
      by_contra hlt
      exact h2 j (by omega) hj
  simp only [ByteBPE.create_reverse_symbol_mapping]
  refine ⟨?_, hlast, ?_⟩
  · intro sym hs
    rw [create_reverse_loop_absent sym table 0 [] hs]
    rfl
  · intro hnd sym hs
    obtain ⟨i, h1, h2, _⟩ := hlast sym hs
    refine ⟨i, h1, h2, ?_⟩
    intro j hj
    have := create_reverse_loop_nodup table hnd j sym hj
    rw [h1] at this
    simp only [Option.some.injEq, Nat.cast_inj] at this
    omega

/-- Counterexample to C13 as stated: a model file may repeat a symbol, and the
lookup of a repeated symbol returns the last id at which it occurs, not the
smallest. After loading the file `97 0`, `98 1`, `0 1 2`, `0 1 2`, `97 0` the
lookup of `Pair(0, 1)`, which is at ids 2 and 3, returns 3, and the lookup of
`Internal(97)`, which is at ids 0 and 4, returns 4. -/
theorem reverse_map_smallest_id_counterexample :
    (ByteBPE.empty.load_from_file (some (cstr "97 0\n98 1\n0 1 2\n0 1 2\n97 0\n")) false).1 =
      .ok () ∧
    (ByteBPE.empty.load_from_file
        (some (cstr "97 0\n98 1\n0 1 2\n0 1 2\n97 0\n")) false).2.symbol_mapping =
      [(.int 97, .INTERNAL), (.int 98, .FINAL), (.pair (0, 1), .BYTE_PAIR),
        (.pair (0, 1), .BYTE_PAIR), (.int 97, .INTERNAL)] ∧
    umap_find (ByteBPE.empty.load_from_file
        (some (cstr "97 0\n98 1\n0 1 2\n0 1 2\n97 0\n")) false).2.bp_to_symbol
      (.pair (0, 1), .BYTE_PAIR) = some 3 ∧
    umap_find (ByteBPE.empty.load_from_file
        (some (cstr "97 0\n98 1\n0 1 2\n0 1 2\n97 0\n")) false).2.bp_to_symbol
      (.int 97, .INTERNAL) = some 4 := by
  decide


/-! ## Order of the base vocabulary -/

theorem char_to_int_lt_of_ascii (a b : CChar) (ha : a.val < 128) (hb : b.val < 128) :
    char_to_int a < char_to_int b ↔ a < b := by
  unfold char_to_int
  rw [if_pos ha, if_pos hb, Fin.lt_def]
  omega

/-- C14 (amended): on a corpus whose tokens are all non-empty, the first
`base_size` entries of the table `learn` leaves are `Internal(b)` for each
distinct byte `b` that occurs before the last position of some token, followed
by `Final(b)` for each distinct byte `b` that occurs as the last byte of some
token, each group without repeats and in ascending order of the value of `b`
as a `char` (a signed 8-bit value, which is also the payload stored); when
every byte of the corpus tokens is below `0x80` this is the ascending byte
order. -/
theorem base_vocabulary_order (m : ByteBPE) (text : CString) (vocab_size : Int)
    (hne : ∀ t ∈ corpus_tokens text, t ≠ []) :
    ∃ internal final : List CChar,
      (m.learn (some text) vocab_size).2.symbol_mapping.take (base_size text) =
        internal.map (fun b => (SymbolValue.int (char_to_int b), SymbolType.INTERNAL)) ++
          final.map (fun b => (SymbolValue.int (char_to_int b), SymbolType.FINAL)) ∧
      internal.length + final.length = base_size text ∧
      (∀ b, b ∈ internal ↔ ∃ t ∈ corpus_tokens text, b ∈ t.dropLast) ∧
      (∀ b, b ∈ final ↔ ∃ t ∈ corpus_tokens text, t.getLast? = some b) ∧
      strictly_increasing internal ∧ strictly_increasing final ∧
      ((∀ t ∈ corpus_tokens text, ∀ c ∈ t, c.val < 128) →
        internal.Pairwise (fun a b => a < b) ∧ final.Pairwise (fun a b => a < b)) := by
  obtain ⟨st0, st, h0, hrep, hsm⟩ := learn_table_state m text vocab_size hne
  obtain ⟨idx, hidx, hsm0, _, _, _⟩ := learn_init_spec text st0 h0
  obtain ⟨_, _, _, _, g5, g6, _, _⟩ := first_pass_spec text idx hidx
  have hn := n_base_vocab_eq text st0 h0
  obtain ⟨merges, htab, _, _⟩ := hrep.table
  obtain ⟨hi1, hi2⟩ := set_of_range_spec idx.unique_internal_bytes
  obtain ⟨hf1, hf2⟩ := set_of_range_spec idx.unique_final_bytes
  have hmi : ∀ b, b ∈ set_of_range idx.unique_internal_bytes ↔
      ∃ t ∈ corpus_tokens text, b ∈ t.dropLast := fun b => (hi2 b).trans (g5 b)
  have hmf : ∀ b, b ∈ set_of_range idx.unique_final_bytes ↔
      ∃ t ∈ corpus_tokens text, t.getLast? = some b := fun b => (hf2 b).trans (g6 b)
  refine ⟨set_of_range idx.unique_internal_bytes, set_of_range idx.unique_final_bytes,
    ?_, ?_, hmi, hmf, hi1, hf1, ?_⟩
  · rw [hsm, htab, ← hn, List.take_left', ← base_vocab_table, hsm0]
    rfl
  · rw [← hn, hsm0, base_vocab_table]
    simp
  · intro hascii
    constructor
    · refine List.Pairwise.imp_of_mem ?_ hi1
      intro a b ha hb hab
      obtain ⟨ta, hta, hma⟩ := (hmi a).1 ha
      obtain ⟨tb, htb, hmb⟩ := (hmi b).1 hb
      exact (char_to_int_lt_of_ascii a b (hascii ta hta a (List.mem_of_mem_dropLast hma))
        (hascii tb htb b (List.mem_of_mem_dropLast hmb))).1 hab
    · refine List.Pairwise.imp_of_mem ?_ hf1
      intro a b ha hb hab
      obtain ⟨ta, hta, hma⟩ := (hmf a).1 ha
      obtain ⟨tb, htb, hmb⟩ := (hmf b).1 hb
      exact (char_to_int_lt_of_ascii a b (hascii ta hta a (List.mem_of_getLast?_eq_some hma))
        (hascii tb htb b (List.mem_of_getLast?_eq_some hmb))).1 hab

/-- Witness of C14: the corpus `abab abab` learned with `vocab_size = 6`. -/
theorem base_vocabulary_order_witness :
    (∀ t ∈ corpus_tokens demo_corpus, t ≠ []) ∧
    ∃ internal final : List CChar,
      (ByteBPE.empty.learn (some demo_corpus) 6).2.symbol_mapping.take (base_size demo_corpus) =
        internal.map (fun b => (SymbolValue.int (char_to_int b), SymbolType.INTERNAL)) ++
          final.map (fun b => (SymbolValue.int (char_to_int b), SymbolType.FINAL)) ∧
      internal.length + final.length = base_size demo_corpus ∧
      (∀ b, b ∈ internal ↔ ∃ t ∈ corpus_tokens demo_corpus, b ∈ t.dropLast) ∧
      (∀ b, b ∈ final ↔ ∃ t ∈ corpus_tokens demo_corpus, t.getLast? = some b) ∧
      strictly_increasing internal ∧ strictly_increasing final ∧
      ((∀ t ∈ corpus_tokens demo_corpus, ∀ c ∈ t, c.val < 128) →
        internal.Pairwise (fun a b => a < b) ∧ final.Pairwise (fun a b => a < b)) :=
  ⟨by decide, base_vocabulary_order ByteBPE.empty demo_corpus 6 (by decide)⟩

/-- Counterexample to C14 as stated: on the corpus whose only token is the
bytes `0xC3 0x61 0x62`, the bytes before the last position are `0xC3` and
`0x61`, and the learned table starts with `Internal(0xC3)` (stored as the
`char` value -61), then `Internal(0x61)`: the greater byte comes first. -/
theorem base_vocabulary_order_counterexample :
    corpus_tokens [195, 97, 98, NEWLINE] = [[195, 97, 98]] ∧
    (ByteBPE.empty.learn (some [195, 97, 98, NEWLINE]) 3).1 = .ok () ∧
    (ByteBPE.empty.learn (some [195, 97, 98, NEWLINE]) 3).2.symbol_mapping =
      [(.int (char_to_int 195), .INTERNAL), (.int (char_to_int 97), .INTERNAL),
        (.int (char_to_int 98), .FINAL)] ∧
    char_to_int 195 = -61 ∧
    (97 : CChar) < 195 := by
  decide

/-! ## The encoder on an arbitrary model -/

/-- The base symbols of a non-empty token on an arbitrary reverse map: the
lookup error exactly when a byte is missing, else one id per byte. -/
theorem base_symbols_total (mp : List (Symbol × Int)) :
    ∀ (t : CString), t ≠ [] →
      (base_symbols mp t = .error .out_of_range ∧
        ((∃ c ∈ t.dropLast, umap_find mp (.int (char_to_int c), .INTERNAL) = none) ∨
          (∃ c, t.getLast? = some c ∧ umap_find mp (.int (char_to_int c), .FINAL) = none))) ∨
      (∃ ids, base_symbols mp t = .ok ids ∧ ids.length = t.length ∧
        (∀ c ∈ t.dropLast, (umap_find mp (.int (char_to_int c), .INTERNAL)).isSome) ∧
        (∀ c, t.getLast? = some c → (umap_find mp (.int (char_to_int c), .FINAL)).isSome)) := by
  intro t
  induction t with
  | nil => intro h; exact absurd rfl h
  | cons c rest ih =>
    intro _
    cases rest with
    | nil =>
      cases hf : umap_find mp (.int (char_to_int c), .FINAL) with
      | none =>
        left
        refine ⟨by simp [base_symbols, umap_at, hf], Or.inr ⟨c, by simp, hf⟩⟩
      | some s =>
        right
        refine ⟨[s], by simp [base_symbols, umap_at, hf], rfl, by simp, ?_⟩
        intro c2 hc2
        simp only [List.getLast?_singleton, Option.some.injEq] at hc2
        subst hc2
        simp [hf]
    | cons c2 rest2 =>
      have hdl : (c :: c2 :: rest2).dropLast = c :: (c2 :: rest2).dropLast := rfl
      have hgl : (c :: c2 :: rest2).getLast? = (c2 :: rest2).getLast? := by
        simp [List.getLast?_cons_cons]
      cases hf : umap_find mp (.int (char_to_int c), .INTERNAL) with
      | none =>
        left
        refine ⟨by simp [base_symbols, umap_at, hf], Or.inl ⟨c, by simp, hf⟩⟩
      | some s =>
        rcases ih (by simp) with ⟨he, hmiss⟩ | ⟨ids, hok, hlen, hi, hl⟩
        · left
          refine ⟨by simp [base_symbols, umap_at, hf, he], ?_⟩
          rcases hmiss with ⟨x, hx, hxf⟩ | ⟨x, hx, hxf⟩
          · exact Or.inl ⟨x, by rw [hdl]; exact List.mem_cons_of_mem _ hx, hxf⟩
          · exact Or.inr ⟨x, by rw [hgl]; exact hx, hxf⟩
        · right
          refine ⟨s :: ids, by simp [base_symbols, umap_at, hf, hok], by simp [hlen], ?_, ?_⟩
          · intro x hx
            rw [hdl] at hx
            rcases List.mem_cons.mp hx with rfl | hx
            · simp [hf]
            · exact hi x hx
          · intro x hx
            rw [hgl] at hx
            exact hl x hx

/-- The `while` loop of `encode_token` returns on every reverse map, with
fuel to spare: its result is reached from the vector on entry by rounds of the
loop, and is a vector on which the loop exits. -/
theorem encode_merge_loop_rounds (mp : List (Symbol × Int)) :
    ∀ (fuel : Nat) (v : List Int), v.length ≤ fuel + 1 →
      ∃ res, encode_merge_loop mp fuel v = some res ∧
        Relation.ReflTransGen (fun a b => encode_round mp a = some b) v res ∧
        encode_round mp res = none ∧ (v ≠ [] → res ≠ []) := by
  intro fuel
  induction fuel with
  | zero =>
    intro v hv
    have h1 : ¬ 1 < v.length := by omega
    exact ⟨v, by simp [encode_merge_loop, h1], Relation.ReflTransGen.refl,
      by simp [encode_round, h1], id⟩
  | succ fuel ih =>
    intro v hv
    by_cases h1 : 1 < v.length
    · by_cases h2 : (min_bp_scan mp v ((0, 0), INT_MAX)).2 = INT_MAX
      · exact ⟨v, by simp only [encode_merge_loop, h1, h2, if_true], Relation.ReflTransGen.refl,
          by simp only [encode_round, h1, h2, if_true], id⟩
      · rcases min_bp_scan_spec mp v.length v ((0, 0), INT_MAX) (le_refl _) with
          h | ⟨_, hocc, _⟩
        · rw [h] at h2; exact absurd rfl h2
        · have hlen := (substitute_length_le (min_bp_scan mp v ((0, 0), INT_MAX)).1
            (min_bp_scan mp v ((0, 0), INT_MAX)).2 v.length v (le_refl _)).2 hocc
          obtain ⟨res, hres, hreach, hexit, hne⟩ :=
            ih (substitute_byte_pair v (min_bp_scan mp v ((0, 0), INT_MAX)).1
              (min_bp_scan mp v ((0, 0), INT_MAX)).2) (by omega)
          refine ⟨res, ?_, ?_, hexit, ?_⟩
          · simp only [encode_merge_loop, h1, h2, if_true, if_false]
            exact hres
          · refine Relation.ReflTransGen.head ?_ hreach
            simp only [encode_round, h1, h2, if_true, if_false]
          · intro _
            exact hne (substitute_ne_nil _ _ _ (by intro h; simp [h] at h1))
    · exact ⟨v, by simp [encode_merge_loop, h1], Relation.ReflTransGen.refl,
        by simp [encode_round, h1], id⟩

/-- C15: for every model and every non-empty token, `encode_token` fails with
the lookup error (`out_of_range` of `bp_to_symbol.at`) if and only if some
byte before the last position has no `INTERNAL` entry in the reverse map or the
last byte has no `FINAL` entry; and in every other case it returns a non-empty
vector of ids, so that it never fails in another way. -/
theorem encoder_failure_is_missing_byte (m : ByteBPE) (t : CString) (hne : t ≠ []) :
    (m.encode_token t = .error .out_of_range ↔
      (∃ c ∈ t.dropLast, umap_find m.bp_to_symbol (.int (char_to_int c), .INTERNAL) = none) ∨
      (∃ c, t.getLast? = some c ∧
        umap_find m.bp_to_symbol (.int (char_to_int c), .FINAL) = none)) ∧
    (m.encode_token t = .error .out_of_range ∨
      ∃ ids, m.encode_token t = .ok ids ∧ ids ≠ []) := by
  rcases base_symbols_total m.bp_to_symbol t hne with ⟨he, hmiss⟩ | ⟨ids, hok, hlen, hi, hl⟩
  · have e : m.encode_token t = .error .out_of_range := by
      simp only [ByteBPE.encode_token, he]
    exact ⟨⟨fun _ => hmiss, fun _ => e⟩, Or.inl e⟩
  · obtain ⟨res, hres, _, _, hnil⟩ :=
      encode_merge_loop_rounds m.bp_to_symbol t.length ids (by omega)
    have e : m.encode_token t = .ok res := by
      simp only [ByteBPE.encode_token, hok, hres]
    have hids : ids ≠ [] := by
      intro h
      rw [h] at hlen
      exact hne (List.length_eq_zero.mp hlen.symm)
    refine ⟨⟨?_, ?_⟩, Or.inr ⟨res, e, hnil hids⟩⟩
    · intro h
      rw [e] at h
      cases h
    · intro h
      rcases h with ⟨c, hc, hf⟩ | ⟨c, hc, hf⟩
      · have := hi c hc
        rw [hf] at this
        cases this
      · have := hl c hc
        rw [hf] at this
        cases this

/-- Witness of C15: the tokens `ab` and `ac` on the model of `demo_table`,
which has no symbol for the byte `c`. -/
theorem encoder_failure_is_missing_byte_witness :
    ((demo_model.encode_token (cstr "ac") = .error .out_of_range ↔
      (∃ c ∈ (cstr "ac").dropLast,
        umap_find demo_model.bp_to_symbol (.int (char_to_int c), .INTERNAL) = none) ∨
      (∃ c, (cstr "ac").getLast? = some c ∧
        umap_find demo_model.bp_to_symbol (.int (char_to_int c), .FINAL) = none)) ∧
    (demo_model.encode_token (cstr "ac") = .error .out_of_range ∨
      ∃ ids, demo_model.encode_token (cstr "ac") = .ok ids ∧ ids ≠ [])) ∧
    demo_model.encode_token (cstr "ac") = .error .out_of_range ∧
    demo_model.encode_token (cstr "ab") = .ok [2] :=
  ⟨encoder_failure_is_missing_byte demo_model (cstr "ac") (by decide), by decide, by decide⟩

/-- C17: on a model whose ids are below `INT_MAX` (the marker `encode_token`
uses for "no pair found"; true of every model with fewer than `2^31 - 1`
symbols), the loop of `encode_token` repeats the round `encode_round` until it
exits, and each round substitutes, in the current
vector, an adjacent pair that is a key of the reverse map and whose id is the
minimum over all adjacent pairs of the vector that are keys of the reverse
map, replacing it by that id; and for every token whose bytes are all in the
vocabulary, `encode_token` returns the vector reached from the base symbols by
such rounds, which either has length 1 or contains no adjacent pair that is a
key of the reverse map. -/
theorem min_id_merge_rule (m : ByteBPE)
    (hid : ∀ (q : BytePair) (id : Int),
      umap_find m.bp_to_symbol (.pair q, .BYTE_PAIR) = some id → id < INT_MAX) :
    (∀ (fuel : Nat) (v : List Int), encode_merge_loop m.bp_to_symbol (fuel + 1) v =
      match encode_round m.bp_to_symbol v with
      | none => some v
      | some v2 => encode_merge_loop m.bp_to_symbol fuel v2) ∧
    (∀ v v2 : List Int, encode_round m.bp_to_symbol v = some v2 →
      ∃ (q : BytePair) (s : Int), 0 < pair_occurrences q v ∧
        umap_find m.bp_to_symbol (.pair q, .BYTE_PAIR) = some s ∧
        (∀ (q2 : BytePair) (s2 : Int), 0 < pair_occurrences q2 v →
          umap_find m.bp_to_symbol (.pair q2, .BYTE_PAIR) = some s2 → s ≤ s2) ∧
        v2 = substitute_byte_pair v q s) ∧
    (∀ t : CString, t ≠ [] →
      (∀ c ∈ t.dropLast,
        (umap_find m.bp_to_symbol (.int (char_to_int c), .INTERNAL)).isSome) →
      (∀ c, t.getLast? = some c →
        (umap_find m.bp_to_symbol (.int (char_to_int c), .FINAL)).isSome) →
      ∃ v0 res, base_symbols m.bp_to_symbol t = .ok v0 ∧ m.encode_token t = .ok res ∧
        Relation.ReflTransGen (fun a b => encode_round m.bp_to_symbol a = some b) v0 res ∧
        (res.length = 1 ∨ ∀ q : BytePair, 0 < pair_occurrences q res →
          umap_find m.bp_to_symbol (.pair q, .BYTE_PAIR) = none)) := by
  refine ⟨?_, ?_, ?_⟩
  · intro fuel v
    simp only [encode_merge_loop, encode_round]
    split
    · split <;> rfl
    · rfl
  · intro v v2 h
    unfold encode_round at h
    split at h
    · split at h
      · cases h
      · rename_i h1 h2
        simp only [Option.some.injEq] at h
        rcases min_bp_scan_spec m.bp_to_symbol v.length v ((0, 0), INT_MAX) (le_refl _) with
          he | ⟨hfind, hocc, _⟩
        · rw [he] at h2; exact absurd rfl h2
        · exact ⟨_, _, hocc, hfind,
            (min_bp_scan_min m.bp_to_symbol v.length v ((0, 0), INT_MAX) (le_refl _)).2, h.symm⟩
    · cases h
  · intro t hne hint hfin
    rcases base_symbols_total m.bp_to_symbol t hne with ⟨_, hmiss⟩ | ⟨ids, hok, hlen, _, _⟩
    · exfalso
      rcases hmiss with ⟨c, hc, hf⟩ | ⟨c, hc, hf⟩
      · have := hint c hc
        rw [hf] at this
        cases this
      · have := hfin c hc
        rw [hf] at this
        cases this
    · obtain ⟨res, hres, hreach, hexit, hnil⟩ :=
        encode_merge_loop_rounds m.bp_to_symbol t.length ids (by omega)
      have hids : ids ≠ [] := by
        intro h
        rw [h] at hlen
        exact hne (List.length_eq_zero.mp hlen.symm)
      refine ⟨ids, res, hok, by simp only [ByteBPE.encode_token, hok, hres], hreach, ?_⟩
      unfold encode_round at hexit
      split at hexit
      · split at hexit
        · rename_i h1 h2
          right
          intro q hq
          cases hf : umap_find m.bp_to_symbol (.pair q, .BYTE_PAIR) with
          | none => rfl
          | some s =>
            have h3 := (min_bp_scan_min m.bp_to_symbol res.length res ((0, 0), INT_MAX)
              (le_refl _)).2 q s hq hf
            have h4 := hid q s hf
            rw [h2] at h3
            omega
        · cases hexit
      · rename_i h1
        left
        have : res.length ≠ 0 := fun h => hnil hids (List.length_eq_zero.mp h)
        omega

/-- Witness of C17: the model of `demo_table`, whose ids are 0, 1 and 2; on it
the token `ab` has the base symbols `[0, 1]` and one round gives `[2]`. -/
theorem min_id_merge_rule_witness :
    ((∀ (fuel : Nat) (v : List Int), encode_merge_loop demo_model.bp_to_symbol (fuel + 1) v =
      match encode_round demo_model.bp_to_symbol v with
      | none => some v
      | some v2 => encode_merge_loop demo_model.bp_to_symbol fuel v2) ∧
    (∀ v v2 : List Int, encode_round demo_model.bp_to_symbol v = some v2 →
      ∃ (q : BytePair) (s : Int), 0 < pair_occurrences q v ∧
        umap_find demo_model.bp_to_symbol (.pair q, .BYTE_PAIR) = some s ∧
        (∀ (q2 : BytePair) (s2 : Int), 0 < pair_occurrences q2 v →
          umap_find demo_model.bp_to_symbol (.pair q2, .BYTE_PAIR) = some s2 → s ≤ s2) ∧
        v2 = substitute_byte_pair v q s) ∧
    (∀ t : CString, t ≠ [] →
      (∀ c ∈ t.dropLast,
        (umap_find demo_model.bp_to_symbol (.int (char_to_int c), .INTERNAL)).isSome) →
      (∀ c, t.getLast? = some c →
        (umap_find demo_model.bp_to_symbol (.int (char_to_int c), .FINAL)).isSome) →
      ∃ v0 res, base_symbols demo_model.bp_to_symbol t = .ok v0 ∧
        demo_model.encode_token t = .ok res ∧
        Relation.ReflTransGen (fun a b => encode_round demo_model.bp_to_symbol a = some b)
          v0 res ∧
        (res.length = 1 ∨ ∀ q : BytePair, 0 < pair_occurrences q res →
          umap_find demo_model.bp_to_symbol (.pair q, .BYTE_PAIR) = none))) ∧
    base_symbols demo_model.bp_to_symbol (cstr "ab") = .ok [0, 1] ∧
    encode_round demo_model.bp_to_symbol [0, 1] = some [2] ∧
    encode_round demo_model.bp_to_symbol [2] = none ∧
    demo_model.encode_token (cstr "ab") = .ok [2] :=
  ⟨min_id_merge_rule demo_model (by
      intro q id h
      have hm : demo_model.bp_to_symbol =
          [((.int 97, .INTERNAL), 0), ((.int 98, .FINAL), 1), ((.pair (0, 1), .BYTE_PAIR), 2)] := by
        decide
      rw [hm] at h
      have hmem := umap_find_some_mem _ _ _ h
      simp only [List.mem_cons, Prod.mk.injEq, List.mem_nil_iff, or_false] at hmem
      rcases hmem with ⟨_, h2⟩ | ⟨_, h2⟩ | ⟨_, h2⟩ <;> rw [h2] <;> decide),
    by decide, by decide, by decide, by decide⟩

/-- The ids of a model built from a table with at most `INT_MAX` symbols are
below `INT_MAX`. -/
theorem build_model_ids_lt (table : List Symbol) (m : ByteBPE)
    (h : build_model table = (.ok (), m)) (hlen : (table.length : Int) ≤ INT_MAX) :
    ∀ (key : Symbol) (id : Int), umap_find m.bp_to_symbol key = some id →
      0 ≤ id ∧ id < INT_MAX := by
  intro key id hf
  rw [(build_model_ok table m h).2.1] at hf
  rcases create_reverse_loop_find table 0 [] key id hf with h0 | ⟨i, hi, hid, _⟩
  · simp [umap_find] at h0
  · omega

/-! ## `substitute_byte_pair` as a scan by position -/

theorem drop_of_getElem? {α : Type} (v : List α) (i : Nat) (a : α) (h : v[i]? = some a) :
    v.drop i = a :: v.drop (i + 1) := by
  obtain ⟨hlt, rfl⟩ := List.getElem?_eq_some.mp h
  exact List.drop_eq_getElem_cons hlt

theorem drop_of_getElem?_none {α : Type} (v : List α) (i : Nat) (h : v[i]? = none) :
    v.drop i = [] := by
  rw [List.getElem?_eq_none_iff] at h
  exact List.drop_eq_nil_of_le h

/-- The recursion of `substitute_byte_pair` on the rest of the vector is the
scan by position, and the scan shortens the vector by one element per match. -/
theorem greedy_scan_eq (v : List Int) (l r s : Int) :
    ∀ (fuel i : Nat), v.length - i ≤ fuel →
      greedy_scan v l r s fuel i = substitute_byte_pair (v.drop i) (l, r) s ∧
      (substitute_byte_pair (v.drop i) (l, r) s).length + greedy_matches v l r fuel i =
        v.length - i := by
  intro fuel
  induction fuel with
  | zero =>
    intro i hi
    have : v.drop i = [] := List.drop_eq_nil_of_le (by omega)
    rw [this]
    simp only [greedy_scan, greedy_matches, substitute_byte_pair, List.length_nil]
    exact ⟨trivial, by omega⟩
  | succ fuel ih =>
    intro i hi
    cases hvi : v[i]? with
    | none =>
      have hlen : v.length ≤ i := List.getElem?_eq_none_iff.mp hvi
      rw [drop_of_getElem?_none v i hvi]
      simp only [greedy_scan, greedy_matches, hvi, substitute_byte_pair, List.length_nil]
      exact ⟨trivial, by omega⟩
    | some a =>
      have hlt : i < v.length := (List.getElem?_eq_some.mp hvi).1
      rw [drop_of_getElem? v i a hvi]
      cases hv1 : v[i + 1]? with
      | none =>
        have hlen : v.length ≤ i + 1 := List.getElem?_eq_none_iff.mp hv1
        obtain ⟨h1, h2⟩ := ih (i + 1) (by omega)
        rw [drop_of_getElem?_none v (i + 1) hv1] at h1 h2 ⊢
        simp only [greedy_scan, greedy_matches, hvi, hv1, reduceCtorEq, and_false, if_false,
          h1, substitute_byte_pair, List.length_nil, List.length_singleton] at h2 ⊢
        exact ⟨trivial, by omega⟩
      | some b =>
        have hlt1 : i + 1 < v.length := (List.getElem?_eq_some.mp hv1).1
        rw [drop_of_getElem? v (i + 1) b hv1, show i + 1 + 1 = i + 2 from rfl]
        by_cases hm : a = l ∧ b = r
        · obtain ⟨h1, h2⟩ := ih (i + 2) (by omega)
          obtain ⟨rfl, rfl⟩ := hm
          simp only [greedy_scan, greedy_matches, hvi, hv1, and_self, if_true, h1,
            substitute_byte_pair, List.length_cons]
          exact ⟨trivial, by omega⟩
        · obtain ⟨h1, h2⟩ := ih (i + 1) (by omega)
          rw [drop_of_getElem? v (i + 1) b hv1, show i + 1 + 1 = i + 2 from rfl] at h1 h2
          have hne : ¬ (a, b) = (l, r) := by
            intro h
            simp only [Prod.mk.injEq] at h
            exact hm h
          have hne2 : ¬ (a = l ∧ some b = some r) := by
            intro h
            simp only [Option.some.injEq] at h
            exact hm h
          simp only [greedy_scan, greedy_matches, hvi, hv1, hne2, if_false, h1,
            substitute_byte_pair, hne, List.length_cons] at h2 ⊢
          exact ⟨trivial, by omega⟩

/-- C16 (amended): for every vector `v`, pair `(l, r)` and id `s`,
`substitute_byte_pair(v, (l, r), s)` is the single left-to-right scan that, at
position `i`, emits `s` and resumes at `i + 2` when `v[i] = l` and
`v[i+1] = r`, and otherwise emits `v[i]` and resumes at `i + 1`; the length of
the result is the length of `v` minus the number of matches of the scan;
`[l, r, r]` gives `[s, r]`; `[l, l, r]` gives `[l, s]` when `l` and `r` differ
(and `[s, r]` when they are equal); a vector of length 0 or 1 is returned
unchanged. -/
theorem greedy_substitution (v : List Int) (l r s : Int) :
    substitute_byte_pair v (l, r) s = greedy_scan v l r s v.length 0 ∧
    (substitute_byte_pair v (l, r) s).length + greedy_matches v l r v.length 0 = v.length ∧
    substitute_byte_pair [l, r, r] (l, r) s = [s, r] ∧
    (l ≠ r → substitute_byte_pair [l, l, r] (l, r) s = [l, s]) ∧
    (l = r → substitute_byte_pair [l, l, r] (l, r) s = [s, r]) ∧
    (v.length ≤ 1 → substitute_byte_pair v (l, r) s = v) := by
  obtain ⟨h1, h2⟩ := greedy_scan_eq v l r s v.length 0 (by omega)
  simp only [List.drop_zero, Nat.sub_zero] at h1 h2
  refine ⟨h1.symm, h2, by simp [substitute_byte_pair], ?_, ?_, ?_⟩
  · intro hne
    have h3 : ¬ (l, l) = (l, r) := by
      intro h
      simp only [Prod.mk.injEq, true_and] at h
      exact hne h
    simp [substitute_byte_pair, h3]
  · intro he
    subst he
    simp [substitute_byte_pair]
  · intro hlen
    match v, hlen with
    | [], _ => rfl
    | [a], _ => rfl
    | _ :: _ :: _, h => simp at h

/-- Counterexample to C16 as stated: with `l = r = 1` and `s = 2` the vector
`[l, l, r]` gives `[s, r] = [2, 1]`, not `[l, s] = [1, 2]`: the scan matches at
position 0. -/
theorem greedy_substitution_counterexample :
    substitute_byte_pair [1, 1, 1] (1, 1) 2 = [2, 1] ∧
    substitute_byte_pair [1, 1, 1] (1, 1) 2 ≠ [1, 2] := by
  decide

/-! ## Adjacent pairs by position -/

/-- A pair has an occurrence in a vector exactly when it stands at two
consecutive positions. -/
theorem pair_occurrences_pos_iff (a b : Int) :
    ∀ (v : List Int), 0 < pair_occurrences (a, b) v ↔
      ∃ i : Nat, v[i]? = some a ∧ v[i + 1]? = some b := by
  intro v
  induction v with
  | nil => simp [pair_occurrences]
  | cons x rest ih =>
    cases rest with
    | nil =>
      simp only [pair_occurrences, Nat.lt_irrefl, false_iff, not_exists, not_and]
      intro i _
      simp
    | cons y rest2 =>
      simp only [pair_occurrences]
      constructor
      · intro h
        by_cases hxy : (x, y) = (a, b)
        · simp only [Prod.mk.injEq] at hxy
          exact ⟨0, by simp [hxy.1], by simp [hxy.2]⟩
        · rw [if_neg hxy] at h
          obtain ⟨i, h1, h2⟩ := ih.mp (by omega)
          exact ⟨i + 1, by simpa using h1, by simpa using h2⟩
      · rintro ⟨i, h1, h2⟩
        cases i with
        | zero =>
          simp only [List.getElem?_cons_zero, Option.some.injEq, Nat.zero_add,
            List.getElem?_cons_succ] at h1 h2
          rw [h1, h2]
          simp
        | succ j =>
          rw [List.getElem?_cons_succ] at h1 h2
          have := ih.mpr ⟨j, h1, h2⟩
          omega

/-- C18: for every vector `v`, pair `(l, r)` and id `s` different from `l` and
from `r`, the result of `substitute_byte_pair(v, (l, r), s)` has no position
`i` with `result[i] = l` and `result[i+1] = r` (also when `l = r`), and every
adjacent pair of the result whose two elements differ from `s` stands at two
consecutive positions of `v`. -/
theorem substitution_removes_pair (v : List Int) (l r s : Int) (hl : s ≠ l) (hr : s ≠ r) :
    (∀ i : Nat, ¬ ((substitute_byte_pair v (l, r) s)[i]? = some l ∧
      (substitute_byte_pair v (l, r) s)[i + 1]? = some r)) ∧
    (∀ (i : Nat) (a b : Int), a ≠ s → b ≠ s →
      (substitute_byte_pair v (l, r) s)[i]? = some a →
      (substitute_byte_pair v (l, r) s)[i + 1]? = some b →
      ∃ j : Nat, v[j]? = some a ∧ v[j + 1]? = some b) := by
  constructor
  · intro i h
    have h0 := substitute_no_occurrence l r s hl hr v.length v (le_refl _)
    have h1 := (pair_occurrences_pos_iff l r _).mpr ⟨i, h.1, h.2⟩
    omega
  · intro i a b ha hb h1 h2
    have h3 := (pair_occurrences_pos_iff a b _).mpr ⟨i, h1, h2⟩
    have h4 := pair_occurrences_substitute_le (a, b) (l, r) s ha hb v.length v (le_refl _)
    exact (pair_occurrences_pos_iff a b v).mp (by omega)

/-- Witness of C18: the vector `[1, 1, 1, 5, 1, 1]` with the pair `(1, 1)`
replaced by `7` becomes `[7, 1, 5, 7]`. -/
theorem substitution_removes_pair_witness :
    ((∀ i : Nat, ¬ ((substitute_byte_pair [1, 1, 1, 5, 1, 1] (1, 1) 7)[i]? = some 1 ∧
      (substitute_byte_pair [1, 1, 1, 5, 1, 1] (1, 1) 7)[i + 1]? = some 1)) ∧
    (∀ (i : Nat) (a b : Int), a ≠ 7 → b ≠ 7 →
      (substitute_byte_pair [1, 1, 1, 5, 1, 1] (1, 1) 7)[i]? = some a →
      (substitute_byte_pair [1, 1, 1, 5, 1, 1] (1, 1) 7)[i + 1]? = some b →
      ∃ j : Nat, ([1, 1, 1, 5, 1, 1] : List Int)[j]? = some a ∧
        ([1, 1, 1, 5, 1, 1] : List Int)[j + 1]? = some b)) ∧
    substitute_byte_pair [1, 1, 1, 5, 1, 1] (1, 1) 7 = [7, 1, 5, 7] :=
  ⟨substitution_removes_pair [1, 1, 1, 5, 1, 1] 1 1 7 (by decide) (by decide), by decide⟩

/-! ## The learned table has no repeated symbol -/

/-- C19: whenever `learn` completes (which requires that all corpus tokens are
non-empty), the symbol table it leaves contains no two equal entries, and the
reverse map built from it is a bijection between the entries of the table and
the ids `0 .. size-1`: the lookup of a symbol returns `i` exactly when the
symbol is the entry at id `i`, and every id the map holds is in range. -/
theorem no_duplicate_symbols (m0 M : ByteBPE) (text : CString) (vocab_size : Int)
    (hlearn : m0.learn (some text) vocab_size = (.ok (), M)) :
    (∀ t ∈ corpus_tokens text, t ≠ []) ∧
    M.symbol_mapping.Nodup ∧
    (∀ (i : Nat) (sym : Symbol), M.symbol_mapping[i]? = some sym ↔
      umap_find M.bp_to_symbol sym = some (i : Int)) ∧
    (∀ (sym : Symbol) (id : Int), umap_find M.bp_to_symbol sym = some id →
      0 ≤ id ∧ id < (M.symbol_mapping.length : Int)) := by
  cases h0 : learn_init text with
  | error e => simp [ByteBPE.learn, learn_run, h0] at hlearn
  | ok st0 =>
    obtain ⟨idx, hidx, _, _, hinv0, _⟩ := learn_init_spec text st0 h0
    have hne := (first_pass_spec text idx hidx).1
    rw [learn_unfold_ok m0 text vocab_size st0 h0] at hlearn
    cases hl : merge_loop (merge_count vocab_size st0) (st0.symbol_mapping.length : Int) st0 with
    | mk res st =>
      rw [hl] at hlearn
      cases res with
      | error e => simp at hlearn
      | ok u =>
        cases u
        simp only at hlearn
        have hrep := merge_loop_replay _ st0 st0 st hinv0 (replay_inv_init text st0 h0) hl
        obtain ⟨hsm, hrev, _⟩ := build_model_ok _ M hlearn
        have hnd : M.symbol_mapping.Nodup := by rw [hsm]; exact hrep.nodup
        rw [← hsm] at hrev
        refine ⟨hne, hnd, ?_, ?_⟩
        · intro i sym
          constructor
          · intro hi
            rw [hrev]
            exact create_reverse_loop_nodup _ hnd i sym hi
          · intro hf
            rw [hrev] at hf
            rcases create_reverse_loop_find _ 0 [] sym _ hf with hc | ⟨j, _, hj, hget⟩
            · simp [umap_find] at hc
            · have : i = j := by omega
              rw [this]
              exact hget
        · intro sym id hf
          rw [hrev] at hf
          rcases create_reverse_loop_find _ 0 [] sym id hf with hc | ⟨j, hlt, hj, _⟩
          · simp [umap_find] at hc
          · omega

/-- Witness of C19: the corpus `abab abab` learned with `vocab_size = 6`. -/
theorem no_duplicate_symbols_witness :
    (∀ t ∈ corpus_tokens demo_corpus, t ≠ []) ∧
    (ByteBPE.empty.learn (some demo_corpus) 6).2.symbol_mapping.Nodup ∧
    (∀ (i : Nat) (sym : Symbol),
      (ByteBPE.empty.learn (some demo_corpus) 6).2.symbol_mapping[i]? = some sym ↔
      umap_find (ByteBPE.empty.learn (some demo_corpus) 6).2.bp_to_symbol sym =
        some (i : Int)) ∧
    (∀ (sym : Symbol) (id : Int),
      umap_find (ByteBPE.empty.learn (some demo_corpus) 6).2.bp_to_symbol sym = some id →
      0 ≤ id ∧ id < ((ByteBPE.empty.learn (some demo_corpus) 6).2.symbol_mapping.length : Int)) :=
  no_duplicate_symbols ByteBPE.empty (ByteBPE.empty.learn (some demo_corpus) 6).2 demo_corpus 6
    (by decide)

/-! ## Loading a validated file -/

/-- On a table whose symbols carry the alternative their type reads and whose
pairs refer to earlier ids, the loop of `generate_symbol_strings` fails with
the error of `numeric_cast<char>` as soon as some byte value is not a value of
`char`. -/
theorem generate_loop_bad_cast (table : List Symbol) :
    ∀ (strs0 : List CString),
      (∀ s ∈ table, well_shaped s) →
      (∀ (i : Nat) l r t, table[i]? = some (.pair (l, r), t) →
        (0 ≤ l ∧ l < ((strs0.length + i : Nat) : Int)) ∧
        (0 ≤ r ∧ r < ((strs0.length + i : Nat) : Int))) →
      (∃ s ∈ table, ∃ v t, s = (SymbolValue.int v, t) ∧ (v < -128 ∨ 127 < v)) →
      (generate_symbol_strings_loop table strs0).1 = .error .bad_numeric_cast := by
  induction table with
  | nil => intro strs0 _ _ h; simp at h
  | cons sym rest ih =>
    intro strs0 hws hac hbad
    have hws0 := hws sym (List.mem_cons_self _ _)
    have hrest : ∀ (strs1 : List CString), strs1.length = strs0.length + 1 →
        (∃ s ∈ rest, ∃ v t, s = (SymbolValue.int v, t) ∧ (v < -128 ∨ 127 < v)) →
        (generate_symbol_strings_loop rest strs1).1 = .error .bad_numeric_cast := by
      intro strs1 hl hb
      exact ih strs1 (fun s hs => hws s (List.mem_cons_of_mem _ hs))
        (fun i l r t hi => by
          have := hac (i + 1) l r t (by simpa using hi)
          rw [hl]
          have e : strs0.length + 1 + i = strs0.length + (i + 1) := by omega
          rw [e]
          exact this) hb
    obtain ⟨value, type⟩ := sym
    cases value with
    | int v =>
      by_cases hv : v < -128 ∨ 127 < v
      · have hc : numeric_cast_char v = .error .bad_numeric_cast := by
          unfold numeric_cast_char
          rw [if_pos hv]
        cases type with
        | INTERNAL => simp only [generate_symbol_strings_loop, hc]
        | FINAL => simp only [generate_symbol_strings_loop, hc]
        | BYTE_PAIR => exact absurd hws0 (by simp [well_shaped])
      · have hb2 : ∃ s ∈ rest, ∃ v t, s = (SymbolValue.int v, t) ∧ (v < -128 ∨ 127 < v) := by
          obtain ⟨s, hs, v2, t2, he, hr⟩ := hbad
          rcases List.mem_cons.mp hs with h | h
          · rw [h] at he
            simp only [Prod.mk.injEq, SymbolValue.int.injEq] at he
            rw [← he.1] at hr
            exact absurd hr hv
          · exact ⟨s, h, v2, t2, he, hr⟩
        obtain ⟨c, hc⟩ : ∃ c, numeric_cast_char v = .ok c := by
          unfold numeric_cast_char
          rw [if_neg hv]
          exact ⟨_, rfl⟩
        cases type with
        | INTERNAL =>
          simp only [generate_symbol_strings_loop, hc]
          exact hrest _ (by simp) hb2
        | FINAL =>
          simp only [generate_symbol_strings_loop, hc]
          exact hrest _ (by simp) hb2
        | BYTE_PAIR => exact absurd hws0 (by simp [well_shaped])
    | pair bp =>
      obtain ⟨l, r⟩ := bp
      have hb2 : ∃ s ∈ rest, ∃ v t, s = (SymbolValue.int v, t) ∧ (v < -128 ∨ 127 < v) := by
        obtain ⟨s, hs, v2, t2, he, hr⟩ := hbad
        rcases List.mem_cons.mp hs with h | h
        · rw [h] at he
          simp at he
        · exact ⟨s, h, v2, t2, he, hr⟩
      cases type with
      | INTERNAL => exact absurd hws0 (by simp [well_shaped])
      | FINAL => exact absurd hws0 (by simp [well_shaped])
      | BYTE_PAIR =>
        have h := hac 0 l r .BYTE_PAIR (by simp)
        simp only [Nat.add_zero] at h
        obtain ⟨a, ha⟩ : ∃ a, vec_index strs0 l = some a := by
          unfold vec_index
          rw [if_pos h.1.1]
          have : l.toNat < strs0.length := by omega
          exact ⟨strs0[l.toNat], List.getElem?_eq_getElem this⟩
        obtain ⟨b, hb⟩ : ∃ b, vec_index strs0 r = some b := by
          unfold vec_index
          rw [if_pos h.2.1]
          have : r.toNat < strs0.length := by omega
          exact ⟨strs0[r.toNat], List.getElem?_eq_getElem this⟩
        simp only [generate_symbol_strings_loop, ha, hb]
        exact hrest _ (by simp) hb2

theorem line_symbol_shape (f : List Int) (s : Symbol) (h : line_symbol f = some s) :
    (∃ v t, f = [v, t] ∧ (s = (.int v, .INTERNAL) ∨ s = (.int v, .FINAL))) ∨
    (∃ l r, f = [l, r, 2] ∧ s = (.pair (l, r), .BYTE_PAIR)) := by
  unfold line_symbol at h
  split at h
  · rename_i v t
    split at h
    · simp only [Option.some.injEq] at h
      exact Or.inl ⟨v, t, rfl, Or.inl h.symm⟩
    · split at h
      · simp only [Option.some.injEq] at h
        exact Or.inl ⟨v, t, rfl, Or.inr h.symm⟩
      · cases h
  · rename_i l r t
    split at h
    · rename_i ht
      simp only [Option.some.injEq] at h
      subst ht
      exact Or.inr ⟨l, r, rfl, h.symm⟩
    · cases h
  · cases h

/-- The entries of two lists related by `table.map some = fields.map g`
correspond position by position. -/
theorem map_some_eq_map {α β : Type} (g : α → Option β) (table : List β) (fields : List α)
    (h : table.map some = fields.map g) (i : Nat) :
    (∀ s, table[i]? = some s → ∃ f, fields[i]? = some f ∧ g f = some s) ∧
    (∀ f, fields[i]? = some f → ∃ s, table[i]? = some s ∧ g f = some s) := by
  have hi : (table.map some)[i]? = (fields.map g)[i]? := by rw [h]
  simp only [List.getElem?_map] at hi
  constructor
  · intro s hs
    rw [hs] at hi
    cases hf : fields[i]? with
    | none => rw [hf] at hi; simp at hi
    | some f =>
      rw [hf] at hi
      simp only [Option.map_some', Option.some.injEq] at hi
      exact ⟨f, rfl, hi.symm⟩
  · intro f hf
    rw [hf] at hi
    cases hs : table[i]? with
    | none => rw [hs] at hi; simp at hi
    | some s =>
      rw [hs] at hi
      simp only [Option.map_some', Option.some.injEq] at hi
      exact ⟨s, rfl, hi.symm⟩

/-- C20 (amended): for a model file in which every line passes the validation
of `load_from_file` and every id of a pair is non-negative, the load (into an
empty object or with `overwrite`) succeeds when every value of a two-field
line is a value of `char` (from -128 to 127), and then ends with one rendered
string per line; when some such value is not a value of `char` it fails with
the error of `numeric_cast<char>`. -/
theorem validated_file_loads (m : ByteBPE) (text : CString) (overwrite : Bool)
    (hgate : m.symbol_mapping = [] ∨ overwrite = true)
    (hvalid : ∀ i f, (file_fields text)[i]? = some f → valid_line i f)
    (hpos : ∀ (i : Nat) (l r t : Int), (file_fields text)[i]? = some [l, r, t] → 0 ≤ l ∧ 0 ≤ r) :
    ((∀ (i : Nat) (v t : Int), (file_fields text)[i]? = some [v, t] → -128 ≤ v ∧ v ≤ 127) →
      (m.load_from_file (some text) overwrite).1 = .ok () ∧
      (m.load_from_file (some text) overwrite).2.symbol_to_string.length =
        (file_fields text).length ∧
      (m.load_from_file (some text) overwrite).2.symbol_mapping.length =
        (file_fields text).length) ∧
    ((∃ (i : Nat) (v t : Int), (file_fields text)[i]? = some [v, t] ∧ (v < -128 ∨ 127 < v)) →
      (m.load_from_file (some text) overwrite).1 = .error .bad_numeric_cast) := by
  have hspec := parse_lines_spec (file_fields text) 0 []
  simp only [Nat.cast_zero, Nat.zero_add, List.map_nil, List.nil_append] at hspec
  obtain ⟨h1, h2, h3⟩ := hspec
  have hmap := h3 hvalid
  have hok : (parse_lines (file_fields text) 0 []).1 = .ok () := by
    rcases h1 with h | h
    · exact h
    · obtain ⟨i, f, hf, hbad⟩ := h2.mp h
      exact absurd (hvalid i f hf) hbad
  rw [load_from_file_unfold m text overwrite hgate]
  generalize parse_lines (file_fields text) 0 [] = res at hok hmap
  obtain ⟨r, table⟩ := res
  simp only at hok hmap
  subst hok
  simp only
  have hlen : table.length = (file_fields text).length := by
    have := congrArg List.length hmap
    simpa using this
  have hws : ∀ s ∈ table, well_shaped s := by
    intro s hs
    obtain ⟨i, hi⟩ := List.getElem?_of_mem hs
    obtain ⟨f, _, hls⟩ := (map_some_eq_map line_symbol table _ hmap i).1 s hi
    rcases line_symbol_shape f s hls with ⟨v, t, _, rfl | rfl⟩ | ⟨l, r, _, rfl⟩ <;>
      simp [well_shaped]
  have hac : ∀ (i : Nat) l r t, table[i]? = some (.pair (l, r), t) →
      (0 ≤ l ∧ l < (i : Int)) ∧ (0 ≤ r ∧ r < (i : Int)) := by
    intro i l r t hi
    obtain ⟨f, hf, hls⟩ := (map_some_eq_map line_symbol table _ hmap i).1 _ hi
    rcases line_symbol_shape f _ hls with ⟨v, t2, _, h | h⟩ | ⟨l2, r2, hfe, h⟩
    · simp at h
    · simp at h
    · simp only [Prod.mk.injEq, SymbolValue.pair.injEq] at h
      obtain ⟨⟨rfl, rfl⟩, _⟩ := h
      rw [hfe] at hf
      have hp := hpos i l r 2 hf
      rcases hvalid i _ hf with ⟨v, t3, he, _⟩ | ⟨l3, r3, he, hl3, hr3⟩
      · simp at he
      · simp only [List.cons.injEq, and_true] at he
        obtain ⟨rfl, rfl⟩ := he
        exact ⟨⟨hp.1, hl3⟩, ⟨hp.2, hr3⟩⟩
  constructor
  · intro hbyte
    have hrange : ∀ s ∈ table, ∀ v t, s = (SymbolValue.int v, t) → -128 ≤ v ∧ v ≤ 127 := by
      intro s hs v t he
      obtain ⟨i, hi⟩ := List.getElem?_of_mem hs
      obtain ⟨f, hf, hls⟩ := (map_some_eq_map line_symbol table _ hmap i).1 s hi
      rcases line_symbol_shape f s hls with ⟨v2, t2, hfe, h | h⟩ | ⟨l, r, _, h⟩
      · rw [h] at he
        simp only [Prod.mk.injEq, SymbolValue.int.injEq] at he
        rw [← he.1]
        exact hbyte i v2 t2 (by rw [← hfe]; exact hf)
      · rw [h] at he
        simp only [Prod.mk.injEq, SymbolValue.int.injEq] at he
        rw [← he.1]
        exact hbyte i v2 t2 (by rw [← hfe]; exact hf)
      · rw [h] at he
        simp at he
    obtain ⟨strs, hg, hsl⟩ := generate_loop_total table [] hws hrange
      (fun i l r t hi => by simpa using hac i l r t hi)
    simp only [build_model, ByteBPE.create_reverse_symbol_mapping,
      ByteBPE.generate_symbol_strings, ne_eq, not_true_eq_false, if_false, hg]
    refine ⟨trivial, ?_, hlen⟩
    rw [hsl, ← hlen]
    simp
  · rintro ⟨i, v, t, hf, hv⟩
    obtain ⟨s, hs, hls⟩ := (map_some_eq_map line_symbol table _ hmap i).2 _ hf
    have hbad : ∃ s ∈ table, ∃ v t, s = (SymbolValue.int v, t) ∧ (v < -128 ∨ 127 < v) := by
      rcases line_symbol_shape _ s hls with ⟨v2, t2, hfe, h | h⟩ | ⟨l, r, hfe, _⟩
      · simp only [List.cons.injEq, and_true] at hfe
        obtain ⟨rfl, rfl⟩ := hfe
        exact ⟨s, List.getElem?_mem hs, v, _, h, hv⟩
      · simp only [List.cons.injEq, and_true] at hfe
        obtain ⟨rfl, rfl⟩ := hfe
        exact ⟨s, List.getElem?_mem hs, v, _, h, hv⟩
      · simp at hfe
    have := generate_loop_bad_cast table [] hws
      (fun i l r t hi => by simpa using hac i l r t hi) hbad
    simp only [build_model, ByteBPE.create_reverse_symbol_mapping,
      ByteBPE.generate_symbol_strings, ne_eq, not_true_eq_false, if_false]
    exact this

/-- Witness of C20: the file `97 0`, `98 1`, `0 1 2` loaded into an empty
object. -/
theorem validated_file_loads_witness :
    (ByteBPE.empty.load_from_file (some (cstr "97 0\n98 1\n0 1 2\n")) false).1 = .ok () ∧
    (ByteBPE.empty.load_from_file
        (some (cstr "97 0\n98 1\n0 1 2\n")) false).2.symbol_to_string.length =
      (file_fields (cstr "97 0\n98 1\n0 1 2\n")).length ∧
    (ByteBPE.empty.load_from_file
        (some (cstr "97 0\n98 1\n0 1 2\n")) false).2.symbol_mapping.length =
      (file_fields (cstr "97 0\n98 1\n0 1 2\n")).length := by
  have hff : file_fields (cstr "97 0\n98 1\n0 1 2\n") = [[97, 0], [98, 1], [0, 1, 2]] := by
    decide
  refine (validated_file_loads ByteBPE.empty (cstr "97 0\n98 1\n0 1 2\n") false (Or.inl rfl)
    ?_ ?_).1 ?_
  · intro i f h
    rw [hff] at h
    match i, h with
    | 0, h =>
      simp only [List.getElem?_cons_zero, Option.some.injEq] at h
      exact Or.inl ⟨97, 0, h.symm, Or.inl rfl⟩
    | 1, h =>
      simp only [List.getElem?_cons_succ, List.getElem?_cons_zero, Option.some.injEq] at h
      exact Or.inl ⟨98, 1, h.symm, Or.inr rfl⟩
    | 2, h =>
      simp only [List.getElem?_cons_succ, List.getElem?_cons_zero, Option.some.injEq] at h
      exact Or.inr ⟨0, 1, h.symm, by decide, by decide⟩
    | n + 3, h => simp at h
  · intro i l r t h
    rw [hff] at h
    match i, h with
    | 0, h => simp at h
    | 1, h => simp at h
    | 2, h =>
      simp only [List.getElem?_cons_succ, List.getElem?_cons_zero, Option.some.injEq,
        List.cons.injEq, and_true] at h
      obtain ⟨rfl, rfl, _⟩ := h
      exact ⟨by decide, by decide⟩
    | n + 3, h => simp at h
  · intro i v t h
    rw [hff] at h
    match i, h with
    | 0, h =>
      simp only [List.getElem?_cons_zero, Option.some.injEq, List.cons.injEq, and_true] at h
      obtain ⟨rfl, _⟩ := h
      exact ⟨by decide, by decide⟩
    | 1, h =>
      simp only [List.getElem?_cons_succ, List.getElem?_cons_zero, Option.some.injEq,
        List.cons.injEq, and_true] at h
      obtain ⟨rfl, _⟩ := h
      exact ⟨by decide, by decide⟩
    | 2, h => simp at h
    | n + 3, h => simp at h

/-- Counterexample to C20 as stated: the one-line file `300 0` passes the
validation of `load_from_file` (two fields, type 0), but 300 is not a value of
`char`: `numeric_cast<char>` throws in `generate_symbol_strings`, and the load
ends with an error and no rendered string. -/
theorem validated_file_loads_counterexample :
    file_fields (cstr "300 0\n") = [[300, 0]] ∧
    valid_line 0 [300, 0] ∧
    (ByteBPE.empty.load_from_file (some (cstr "300 0\n")) false).1 =
      .error .bad_numeric_cast ∧
    (ByteBPE.empty.load_from_file (some (cstr "300 0\n")) false).2.symbol_mapping =
      [(.int 300, .INTERNAL)] ∧
    (ByteBPE.empty.load_from_file (some (cstr "300 0\n")) false).2.symbol_to_string = [] :=
  ⟨by decide, Or.inl ⟨300, 0, rfl, Or.inl rfl⟩, by decide, by decide, by decide⟩

/-- The validation of `load_from_file` has no lower bound on the ids of a pair:
the file `97 0`, `-1 0 2` passes it (`-1 < 1` and `0 < 1`), and
`generate_symbol_strings` then reads `symbol_to_string[-1]`, outside the
vector. -/
theorem load_negative_id_is_undefined :
    file_fields (cstr "97 0\n-1 0 2\n") = [[97, 0], [-1, 0, 2]] ∧
    valid_line 0 [97, 0] ∧ valid_line 1 [-1, 0, 2] ∧
    (ByteBPE.empty.load_from_file (some (cstr "97 0\n-1 0 2\n")) false).1 =
      .error .undefined_behaviour :=
  ⟨by decide, Or.inl ⟨97, 0, rfl, Or.inl rfl⟩, Or.inr ⟨-1, 0, rfl, by decide, by decide⟩,
    by decide⟩
end bytebpe
